import Mathlib

/-!
# ssed: the encrypted entry store of bol

A shallow embedding of `src/ssed/ssed.go`: the blob directory of one user, the view that
`parseArchive` builds from it (`entries`, `entryNameToUUID`, `ordering`), the read
operations on that view and the write path `Update` with its derivatives.

Conventions of the embedding.

* A Go `map[string]V` is an association list `GoMap V` holding at most one pair per key.
* `time.Time` is an `Int` (an instant on the time line); `Before` is `<`.
* The helpers of package `utils` that the store calls (`HashAndHex`, `ParseDate`,
  `ReFormatDate`) are parameters, collected in `Utils`; the clock, the random entry name
  and the outcome of the file write of one `Update` call are collected in `Env`.
* `sort.Sort` is a parameter `sort` constrained by `SortSpec`: it may return any
  permutation of its input that is ordered by `timeSlice.Less`. Go ranges over a map in an
  unspecified order before it sorts, and `sort.Sort` is not stable, so every ordered
  permutation is a possible outcome; results about the view are stated for every such
  `sort`.
* A file of the local directory is kept as the `Entry` that decrypting and unmarshalling it
  yields (encryption and JSON are taken to round-trip). A directory holds one file per name
  (`WellFormed`).
* The state `Fs` carries the cache of the view with its `parsed` flag. A write returns the
  state it leaves. A read returns its result only: all it does to the state is to build the
  view when the flag is unset, which the next operation that needs the view does again, from
  the same directory and with the same outcome. Results about an arbitrary state assume
  that a cache marked as parsed is the view of the directory (`Coherent`).
* `DumpAll` and `Import` exchange the document list itself; the file around it (name,
  encryption, JSON text) is left out, save for the fields that JSON does not carry.
* The order in which Go ranges over a map is a parameter `range` of `DumpAll` and
  `GetDocumentOrEntry`.
* `loadConfiguration` is taken on the decoded list of stored configurations (`none` when
  there is no configuration file) and returns the list it persists with the session.
* The server is seen through `Net`, the outcome of each request of `Close`; `Close` returns
  its error together with whether it called `upload`.
* `copyOverFiles` is taken on the two directories; copying a file adds it under its name.
* The machine of the PIN vault is a `Host`: its key derivation as a function of the work
  factor, and the elapsed times its clock measures, one for each hashing round.
-/

namespace ssed

/-! ## Data model -/

set_option linter.dupNamespace false in
/-- Entry is the fundamental unit of an entry in any document (`type Entry struct`). -/
structure Entry where
  Text : String
  Timestamp : String
  ModifiedTimestamp : String
  Document : String
  Entry : String
  datetime : Int
  uuid : String
  deriving DecidableEq, Repr, Inhabited

/-- The `document` struct: a name and its entries, the unit of a dump. -/
structure document where
  Name : String
  Entries : List Entry
  deriving DecidableEq, Repr, Inhabited

/-- A Go map keyed by strings, as an association list with at most one pair per key. -/
abbrev GoMap (β : Type) := List (String × β)

/-- Two-valued map read `v, ok := m[k]`. -/
def GoMap.get? {β : Type} (m : GoMap β) (k : String) : Option β :=
  List.lookup k m

/-- One-valued map read `m[k]`: the zero value when the key is absent. -/
def GoMap.get {β : Type} [Inhabited β] (m : GoMap β) (k : String) : β :=
  (List.lookup k m).getD default

/-- Map write `m[k] = v`: replaces the value of an existing key, else adds the pair. -/
def GoMap.set {β : Type} : GoMap β → String → β → GoMap β
  | [], k, v => [(k, v)]
  | (k1, v1) :: rest, k, v =>
    if k1 = k then (k, v) :: rest else (k1, v1) :: GoMap.set rest k v

/-- The helpers of package `utils` used by the store, which are not part of the sources at
hand: the content hash, the date parser (an instant; its error result is dropped by every
caller) and the date normaliser. -/
structure Utils where
  HashAndHex : String → String
  ParseDate : String → Int
  ReFormatDate : String → String

/-- What one call of `Update` reads from its surroundings: the two readings of
`utils.GetCurrentDate()` (for the timestamp and for the modified timestamp), the result of
`utils.RandStringBytesMaskImprSrc(10)`, and the error of the file write (`none`: written). -/
structure Env where
  date : String
  dateModified : String
  rand : String
  writeErr : Option String
  deriving DecidableEq, Repr, Inhabited

/-- Fs is the filesystem for ssed: the files of `pathToLocalRepo` (base name and decrypted
content) together with the cached view, and the fields of the session (`successfulPull`,
`username`, `password`, `method`, `archiveName`), which start at their zero values. -/
structure Fs where
  localRepo : GoMap Entry
  parsed : Bool
  entries : GoMap Entry
  entryNameToUUID : GoMap String
  ordering : GoMap (List String)
  successfulPull : Bool := false
  username : String := ""
  password : String := ""
  method : String := ""
  archiveName : String := ""
  deriving DecidableEq, Repr, Inhabited

deriving instance DecidableEq for Except

/-! ## Sorting -/

/-- Order of `timeSlice`: reverse-chronological, `p[j].datetime.Before(p[i].datetime)`. -/
def timeSlice.Less (pi pj : Entry) : Bool :=
  decide (pj.datetime < pi.datetime)

/-- Contract of `sort.Sort` on a `timeSlice`: the result is a permutation of the input in
which no later element is `Less` than an earlier one. -/
structure SortSpec (sort : List Entry → List Entry) : Prop where
  perm : ∀ p, List.Perm (sort p) p
  sorted : ∀ p, List.Pairwise (fun a b => timeSlice.Less b a = false) (sort p)

/-- One admissible `sort.Sort`: insertion sort by `timeSlice.Less`. -/
def insertionSort (p : List Entry) : List Entry :=
  List.insertionSort (fun a b => b.datetime ≤ a.datetime) p

/-- The function `sort.Strings`: ascending order of strings. -/
def sortStrings (a : List String) : List String :=
  List.insertionSort (fun x y => x ≤ y) a

/-! ## The view builder -/

/-- First loop body of `parseArchive`: the entry read from one file, with `uuid` the base
name and `datetime` the modified date, or the created date when the former is empty. -/
def parseFile (u : Utils) (file : String × Entry) : Entry :=
  let e := file.2
  let e := { e with uuid := file.1 }
  let e := { e with datetime := u.ParseDate e.Timestamp }
  if e.ModifiedTimestamp.length > 0 then
    { e with datetime := u.ParseDate e.ModifiedTimestamp }
  else e

/-- Second loop body of `parseArchive`: keep the entry unless its name was seen already,
and reset `datetime` to the created date. -/
def addNewest (u : Utils) (acc : GoMap Bool × GoMap Entry) (entry : Entry) :
    GoMap Bool × GoMap Entry :=
  match GoMap.get? acc.1 entry.Entry with
  | some _ => acc
  | none =>
    (GoMap.set acc.1 entry.Entry true,
     GoMap.set acc.2 entry.uuid { entry with datetime := u.ParseDate entry.Timestamp })

/-- Third loop body of `parseArchive`: append the uuid to the list of its document. -/
def addToOrdering (ordering : GoMap (List String)) (entry : Entry) : GoMap (List String) :=
  match GoMap.get? ordering entry.Document with
  | none => GoMap.set ordering entry.Document [entry.uuid]
  | some val => GoMap.set ordering entry.Document (val ++ [entry.uuid])

/-- The method `Fs.parseArchive`: rebuild the cached view from the local directory. -/
def parseArchive (u : Utils) (sort : List Entry → List Entry) (ssed : Fs) : Fs :=
  let files := ssed.localRepo
  let parsedFiles := files.map (parseFile u)
  let entries : GoMap Entry := parsedFiles.foldl (fun m e => GoMap.set m e.uuid e) []
  let entriesToSortByModified : GoMap Entry :=
    parsedFiles.foldl (fun m e => GoMap.set m e.uuid e) []
  let entryNameToUUID : GoMap String :=
    parsedFiles.foldl (fun m e => GoMap.set m e.Entry e.uuid) []
  let sortedEntries := sort (entriesToSortByModified.map Prod.snd)
  let entriesToSortByCreated : GoMap Entry := (sortedEntries.foldl (addNewest u) ([], [])).2
  let sortedEntries := sort (entriesToSortByCreated.map Prod.snd)
  let ordering : GoMap (List String) := sortedEntries.foldl addToOrdering []
  let ordering := ordering.map (fun kv => (kv.1, kv.2.reverse))
  { ssed with
    entries := entries
    entryNameToUUID := entryNameToUUID
    ordering := ordering
    parsed := true }

/-! ## Reads -/

/-- Inner loop of `ListDocuments`: does some listed entry carry the document tombstone. -/
def ignoring (entries : GoMap Entry) (uuids : List String) : Bool :=
  uuids.any (fun uuid => (GoMap.get entries uuid).Text == "ignore document")

/-- The method `Fs.ListDocuments`: lists all documents available. -/
def ListDocuments (u : Utils) (sort : List Entry → List Entry) (ssed : Fs) : List String :=
  let ssed := if !ssed.parsed then parseArchive u sort ssed else ssed
  let documents := ssed.ordering.foldl
    (fun documents kv =>
      if ignoring ssed.entries (GoMap.get ssed.ordering kv.1) then documents
      else documents ++ [kv.1]) []
  sortStrings documents

/-- The method `Fs.entryExists`, with the state it leaves (the view may get built). -/
def entryExists (u : Utils) (sort : List Entry → List Entry) (ssed : Fs)
    (entryName : String) : Bool × Fs :=
  let ssed := if !ssed.parsed then parseArchive u sort ssed else ssed
  ((GoMap.get? ssed.entryNameToUUID entryName).isSome, ssed)

/-- Loop of `GetDocument` over the uuids of the document; `acc` is `entries[0:curEntry]`. -/
def GetDocument.loop (entries : GoMap Entry) : List String → List Entry → List Entry
  | [], acc => acc
  | uuid :: rest, acc =>
    if (GoMap.get entries uuid).Text = "ignore document" then []
    else if (GoMap.get entries uuid).Text = "ignore entry" then
      GetDocument.loop entries rest acc
    else GetDocument.loop entries rest (acc ++ [GoMap.get entries uuid])

/-- The method `Fs.GetDocument`: returns a slice of all entries in that document. -/
def GetDocument (u : Utils) (sort : List Entry → List Entry) (ssed : Fs)
    (documentName : String) : List Entry :=
  let ssed := if !ssed.parsed then parseArchive u sort ssed else ssed
  GetDocument.loop ssed.entries (GoMap.get ssed.ordering documentName) []

/-- Loop of `GetEntry` over the uuids of the document. -/
def GetEntry.loop (entries : GoMap Entry) (entryName : String) :
    List String → Except String Entry
  | [] => .error "Entry not found"
  | uuid :: rest =>
    if (GoMap.get entries uuid).Entry = entryName then
      if (GoMap.get entries uuid).Text = "ignore entry" then .error "Entry deleted"
      else .ok (GoMap.get entries uuid)
    else GetEntry.loop entries entryName rest

/-- The method `Fs.GetEntry`: returns the entry with specified name and document. -/
def GetEntry (u : Utils) (sort : List Entry → List Entry) (ssed : Fs)
    (documentName entryName : String) : Except String Entry :=
  let ssed := if !ssed.parsed then parseArchive u sort ssed else ssed
  GetEntry.loop ssed.entries entryName (GoMap.get ssed.ordering documentName)

/-! ## Writes -/

/-- Modelled from the spec: `utils.Exists` on a file of the local directory, which is not
part of the sources at hand (presence check). -/
def utils.Exists (localRepo : GoMap Entry) (fileName : String) : Bool :=
  (GoMap.get? localRepo fileName).isSome

/-- Modelled from the spec: `utils.EncryptToFile`, which is not part of the sources at hand
(`encrypt_to_file(plaintext, password, path) → ok|error`, with `decrypt_from_file` its
inverse): on success the file holds the entry, on error the directory is as before. -/
def utils.EncryptToFile (env : Env) (e : Entry) (fileName : String) (localRepo : GoMap Entry) :
    GoMap Entry × Option String :=
  match env.writeErr with
  | none => (GoMap.set localRepo fileName e, none)
  | some err => (localRepo, some err)

/-- The method `Fs.Update`: make a new entry. Returns the state left and the error (`none`
for `nil`). -/
def Update (u : Utils) (sort : List Entry → List Entry) (env : Env)
    (text documentName entryName timestamp : String) (ssed : Fs) : Fs × Option String :=
  let entryName := if entryName.length = 0 then env.rand else entryName
  let fileName := u.HashAndHex (text ++ entryName) ++ ".json"
  if utils.Exists ssed.localRepo fileName then (ssed, none)
  else
    let timestamp := if timestamp.length = 0 then env.date else u.ReFormatDate timestamp
    let ex := entryExists u sort ssed entryName
    let ssed := ex.2
    let modifiedTimestamp := if ex.1 then env.dateModified else timestamp
    let e : Entry :=
      { Text := text
        Document := documentName
        Entry := entryName
        Timestamp := timestamp
        ModifiedTimestamp := modifiedTimestamp
        datetime := 0
        uuid := "" }
    let w := utils.EncryptToFile env e fileName ssed.localRepo
    ({ ssed with localRepo := w.1, parsed := false }, w.2)

/-- The method `Fs.DeleteEntry`: `Update("ignore entry", documentName, entryName, "")`,
the error dropped. -/
def DeleteEntry (u : Utils) (sort : List Entry → List Entry) (env : Env)
    (documentName entryName : String) (ssed : Fs) : Fs :=
  let ssed := (Update u sort env "ignore entry" documentName entryName "" ssed).1
  { ssed with parsed := false }

/-- The method `Fs.DeleteDocument`: `Update("ignore document", documentName, "", "")`,
the error dropped. -/
def DeleteDocument (u : Utils) (sort : List Entry → List Entry) (env : Env)
    (documentName : String) (ssed : Fs) : Fs :=
  let ssed := (Update u sort env "ignore document" documentName "" "" ssed).1
  { ssed with parsed := false }

/-! ## Dump and import -/

/-- Loop body of `DumpAll`: append the entry to the document it belongs to, creating the
document on first sight. -/
def addToDocument (documentMap : GoMap document) (e : Entry) : GoMap document :=
  let documentMap :=
    match GoMap.get? documentMap e.Document with
    | none => GoMap.set documentMap e.Document { Name := e.Document, Entries := [] }
    | some _ => documentMap
  let entries := (GoMap.get documentMap e.Document).Entries
  let entries := entries ++ [e]
  GoMap.set documentMap e.Document { Name := e.Document, Entries := entries }

/-- The method `Fs.DumpAll`: the state it leaves (it refills `entries`) and the document
list that it marshals into the dump file. The name of the file and its encryption are left
out. Go ranges over `documentMap` in an unspecified order: `range` stands for that order,
and may be any function that permutes its argument. -/
def DumpAll (u : Utils) (sort : List Entry → List Entry)
    (range : List document → List document) (ssed : Fs) : Fs × List document :=
  let files := ssed.localRepo
  let parsedFiles := files.map (parseFile u)
  let entries : GoMap Entry := parsedFiles.foldl (fun m e => GoMap.set m e.uuid e) []
  let entriesToSortByModified : GoMap Entry :=
    parsedFiles.foldl (fun m e => GoMap.set m e.uuid e) []
  let sortedEntries := sort (entriesToSortByModified.map Prod.snd)
  let documentMap : GoMap document := sortedEntries.foldl addToDocument []
  let documentList := range (documentMap.map Prod.snd)
  ({ ssed with entries := entries }, documentList)

/-- What `json.Unmarshal` reads back from the output of `json.MarshalIndent`: the
unexported fields `datetime` and `uuid` are not serialised. -/
def viaJSON (documentList : List document) : List document :=
  documentList.map (fun doc =>
    { doc with Entries := doc.Entries.map (fun e => { e with datetime := 0, uuid := "" }) })

/-- Loop body of `Import`: replay one entry through `Update`, its error dropped. The
counter numbers the calls of `Update`, each of which has its own surroundings. -/
def importEntry (u : Utils) (sort : List Entry → List Entry) (env : Nat → Env)
    (acc : Fs × Nat) (entry : Entry) : Fs × Nat :=
  ((Update u sort (env acc.2) entry.Text entry.Document entry.Entry entry.ModifiedTimestamp
    acc.1).1, acc.2 + 1)

/-- The method `Fs.Import` on the document list read from the file. -/
def Import (u : Utils) (sort : List Entry → List Entry) (env : Nat → Env)
    (documentList : List document) (ssed : Fs) : Fs :=
  (documentList.foldl
    (fun acc document => document.Entries.foldl (importEntry u sort env) acc) (ssed, 0)).1

/-! ## Configuration -/

/-- The `config` struct, an element of the list kept in the configuration file. -/
structure config where
  Username : String
  HashedPassword : String
  Method : String
  deriving DecidableEq, Repr, Inhabited

/-- Loop of `loadConfiguration` over the stored configs, from index `i`: the username and
method it leaves, and `foundConfig` (`-1` when no config was found). -/
def loadConfiguration.loop : List config → Int → String → String → String × String × Int
  | [], _, username, method => (username, method, -1)
  | c :: rest, i, username, method =>
    let username := if username = "" then c.Username else username
    if c.Username = username then (username, c.Method, i)
    else loadConfiguration.loop rest (i + 1) username method

/-- Tail of `loadConfiguration`: the list is written to the configuration file and the
session takes method, username and archive name from `configs[0]`. -/
def loadConfiguration.finish (first : config) (rest : List config) (ssed : Fs) :
    List config × Fs :=
  (first :: rest,
    { ssed with
      method := first.Method
      username := first.Username
      archiveName := first.Username ++ ".tar.bz2" })

/-- The method `Fs.loadConfiguration`. `configFile` is the list read from the configuration
file, `none` when the file does not exist; the result is the list written back to the file
and the state left, or the error. -/
def loadConfiguration (configFile : Option (List config)) (username method : String)
    (ssed : Fs) : Except String (List config × Fs) :=
  match configFile with
  | none =>
    if username.length = 0 then
      .error "Need to have username to intialize for first time"
    else
      .ok (loadConfiguration.finish
        { Username := username, HashedPassword := "", Method := method } [] ssed)
  | some configs =>
    let r := loadConfiguration.loop configs 0 username method
    let username := r.1
    let method := r.2.1
    let foundConfig := r.2.2
    if foundConfig = -1 then
      .ok (loadConfiguration.finish
        { Username := username, HashedPassword := "", Method := method } configs ssed)
    else
      let currentConfig := configs.getD foundConfig.toNat default
      let otherConfigs :=
        configs.take foundConfig.toNat ++ configs.drop (foundConfig.toNat + 1)
      .ok (loadConfiguration.finish currentConfig otherConfigs ssed)

/-! ## Closing the repository -/

/-- The function `strings.Contains`: `substr` occurs within `s`. -/
def strings.Contains (s substr : String) : Bool :=
  s.data.tails.any (fun t => substr.data.isPrefixOf t)

/-- What `Close` meets outside the process: the outcome of the request `GET /md5` (the body
of the answer, or the error of the request or of reading the answer), the MD5 that
`utils.ComputeMd5` gives for the local archive, and the error of the request `POST /repo`
and of copying its answer (`none`: no error). -/
structure Net where
  md5 : Except String String
  localMD5 : String
  post : Option String
  deriving DecidableEq, Repr, Inhabited

/-- The method `Fs.doesMD5MatchServer`: the verdict and the error. -/
def doesMD5MatchServer (net : Net) (ssed : Fs) : Bool × Option String :=
  if !strings.Contains ssed.method "http" then (false, some "No server available")
  else
    match net.md5 with
    | .error err => (false, some err)
    | .ok htmlData =>
      let currentMD5 := net.localMD5
      let matchingMD5 := currentMD5 == htmlData
      (matchingMD5, none)

/-- The method `Fs.upload`: the error (`none` for `nil`). Without an http method nothing is
sent and no error is returned. -/
def upload (net : Net) (ssed : Fs) : Option String :=
  if strings.Contains ssed.method "http" then
    match net.post with
    | some err => some err
    | none => none
  else none

/-- The method `Fs.Close`, after the archive is packed: the error it returns (`none` for
`nil`), and whether it called `upload`. -/
def Close (net : Net) (ssed : Fs) : Option String × Bool :=
  let matching := (doesMD5MatchServer net ssed).1
  if ssed.successfulPull && !matching then
    let err := upload net ssed
    if err ≠ none then (some "Cannot connect, local changes saved.", true)
    else (err, true)
  else
    if !ssed.successfulPull then
      (some "No internet, changes will be uploaded next time.", false)
    else
      (some "No changes, not uploading.", false)

/-! ## Merging the remote directory -/

/-- Modelled from the spec: `utils.CopyFile`, which is not part of the sources at hand
("copy it in"): the file is created in the destination directory with the content of the
source file. -/
def utils.CopyFile (file : String × Entry) (dst : GoMap Entry) : GoMap Entry :=
  GoMap.set dst file.1 file.2

/-- Second loop body of `copyOverFiles`: a remote file whose name is not among the local
files is copied over. -/
def copyOverFiles.step (localFiles : GoMap Bool) (dir : GoMap Entry) (file : String × Entry) :
    GoMap Entry :=
  match GoMap.get? localFiles file.1 with
  | some _ => dir
  | none => utils.CopyFile file dir

/-- The method `Fs.copyOverFiles`: `remoteRepo` holds the files of the remote directory of
the user; every one of them whose name is not the name of a local file is copied over. -/
def copyOverFiles (remoteRepo : GoMap Entry) (ssed : Fs) : Fs :=
  let localFiles : GoMap Bool :=
    ssed.localRepo.foldl (fun m file => GoMap.set m file.1 true) []
  let localRepo := remoteRepo.foldl (copyOverFiles.step localFiles) ssed.localRepo
  { ssed with localRepo := localRepo }

/-! ## A name that is a document or an entry -/

/-- Inner loop of `GetDocumentOrEntry`: the first listed entry of the document whose entry
name is the one asked for. -/
def GetDocumentOrEntry.find (entries : GoMap Entry) (ambiguous : String) :
    List String → Option Entry
  | [] => none
  | entryUUID :: rest =>
    if (GoMap.get entries entryUUID).Entry = ambiguous then some (GoMap.get entries entryUUID)
    else GetDocumentOrEntry.find entries ambiguous rest

/-- Outer loop of `GetDocumentOrEntry` over the documents of the ordering, in the order in
which the map yields them; `ssed` holds the built view. -/
def GetDocumentOrEntry.loop (u : Utils) (sort : List Entry → List Entry) (ssed : Fs)
    (ambiguous : String) :
    List (String × List String) → List Entry × Bool × String × Option String
  | [] => ([], true, ambiguous, some "Can't find entry or document")
  | kv :: rest =>
    if ambiguous = kv.1 then (GetDocument u sort ssed ambiguous, true, kv.1, none)
    else
      match GetDocumentOrEntry.find ssed.entries ambiguous (GoMap.get ssed.ordering kv.1) with
      | some e => ([e], false, e.Document, none)
      | none => GetDocumentOrEntry.loop u sort ssed ambiguous rest

/-- The method `Fs.GetDocumentOrEntry`: the entries, whether the name is a document, the
document, and the error. Go ranges over `ordering` in an unspecified order: `range` stands
for that order, and may be any function that permutes its argument. -/
def GetDocumentOrEntry (u : Utils) (sort : List Entry → List Entry)
    (range : GoMap (List String) → GoMap (List String)) (ssed : Fs) (ambiguous : String) :
    List Entry × Bool × String × Option String :=
  let ssed := if !ssed.parsed then parseArchive u sort ssed else ssed
  GetDocumentOrEntry.loop u sort ssed ambiguous (range ssed.ordering)

/-! ## The PIN vault -/

/-- The facts of the host that `HashPasswordSlow` asks for: the answer of `host.Info()`
(the name of the operating system and of the host) and of `cpu.Info()` (the model name of
the first processor), or their errors. -/
structure Host where
  info : Except String (String × String)
  cpu : Except String String

/-- Loop of `HashPasswordSlow`: `elapsed` lists what `time.Since(t)` measures in each round,
in milliseconds; `none` stands for a loop that is still running when the measurements end.
`pwdhash` is `pwdhash.GenerateFromPassword` with key length 64 and "sha512". -/
def HashPasswordSlow.loop (pwdhash : String → String → Nat → Except String String)
    (password salt : String) : List Nat → Nat → Option (Except String String)
  | [], _ => none
  | elapsed :: rest, workFactor =>
    match pwdhash password salt workFactor with
    | .error err => some (.error err)
    | .ok p =>
      if elapsed > 500 then some (.ok p)
      else HashPasswordSlow.loop pwdhash password salt rest (workFactor + 65536)

/-- The function `HashPasswordSlow`. -/
def HashPasswordSlow (host : Host) (pwdhash : String → String → Nat → Except String String)
    (elapsed : List Nat) (password : String) : Option (Except String String) :=
  match host.info with
  | .error e => some (.error e)
  | .ok hostinfo =>
    match host.cpu with
    | .error e => some (.error e)
    | .ok modelName =>
      let salt := hostinfo.1 ++ hostinfo.2 ++ modelName
      HashPasswordSlow.loop pwdhash password salt elapsed 65536

/-- Modelled from the spec: `utils.EncryptToFile` on the key file, which is not part of the
sources at hand (`encrypt_to_file(plaintext, password, path)`): the file content is kept as
the pair of the key and the plaintext it was encrypted from. -/
def utils.EncryptToKeyFile (plaintext key : String) : String × String :=
  (key, plaintext)

/-- Modelled from the spec: `utils.DecryptFromFile` on the key file, which is not part of
the sources at hand (`decrypt_from_file(password, path)`, "error on wrong password"). -/
def utils.DecryptFromKeyFile (key : String) (file : String × String) : Except String String :=
  if file.1 = key then .ok file.2 else .error "wrong password"

/-- The method `Fs.SetPinFromPassword`: the error and the key file it leaves; `keyFile` is
the content of `<username>.key`, `none` when there is no such file. -/
def SetPinFromPassword (host : Host) (pwdhash : String → String → Nat → Except String String)
    (elapsed : List Nat) (pin : String) (ssed : Fs) (keyFile : Option (String × String)) :
    Option (Option String × Option (String × String)) :=
  match HashPasswordSlow host pwdhash elapsed pin with
  | none => none
  | some (.error err) => some (some err, keyFile)
  | some (.ok hashPin) => some (none, some (utils.EncryptToKeyFile ssed.password hashPin))

/-- The method `Fs.GetPasswordFromPin`: the password and the error, and the key file it
leaves. -/
def GetPasswordFromPin (host : Host) (pwdhash : String → String → Nat → Except String String)
    (elapsed : List Nat) (pin : String) (keyFile : Option (String × String)) :
    Option ((String × Option String) × Option (String × String)) :=
  match keyFile with
  | none => some (("", some "Key not set"), none)
  | some file =>
    match HashPasswordSlow host pwdhash elapsed pin with
    | none => none
    | some (.error err) => some (("", some err), none)
    | some (.ok hashPin) =>
      match utils.DecryptFromKeyFile hashPin file with
      | .error err => some (("", some err), none)
      | .ok bPassword => some ((bPassword, none), some file)

/-! ## Auxiliary notions used to describe the view -/

/-- The date by which `parseArchive` orders a blob in its first pass: the modified date,
or the created date when the modified timestamp is empty. -/
def effDate (u : Utils) (e : Entry) : Int :=
  if e.ModifiedTimestamp.length > 0 then u.ParseDate e.ModifiedTimestamp
  else u.ParseDate e.Timestamp

/-- An entry as the second pass of `parseArchive` keeps it: `datetime` the created date. -/
def byCreated (u : Utils) (e : Entry) : Entry :=
  { e with datetime := u.ParseDate e.Timestamp }

/-- The entries of a list whose name occurs neither in `seen` nor earlier in the list. -/
def firstSeen : List String → List Entry → List Entry
  | _, [] => []
  | seen, e :: rest =>
    if e.Entry ∈ seen then firstSeen seen rest else e :: firstSeen (e.Entry :: seen) rest

/-- The first sorted slice of `parseArchive`: every blob, newest modification first. -/
def modifiedOrder (u : Utils) (sort : List Entry → List Entry) (ssed : Fs) : List Entry :=
  sort (ssed.localRepo.map (parseFile u))

/-- The second sorted slice of `parseArchive`: the newest blob of every entry name, latest
creation first. -/
def createdOrder (u : Utils) (sort : List Entry → List Entry) (ssed : Fs) : List Entry :=
  sort ((firstSeen [] (modifiedOrder u sort ssed)).map (byCreated u))

/-- An entry as the map `entries` holds it: `datetime` the date of the first pass. -/
def asStored (u : Utils) (e : Entry) : Entry :=
  { e with datetime := effDate u e }

/-- The directory holds at most one file per name. -/
def WellFormed (ssed : Fs) : Prop :=
  (ssed.localRepo.map Prod.fst).Nodup

instance (ssed : Fs) : Decidable (WellFormed ssed) := by
  unfold WellFormed; infer_instance

/-- The cached view, when the `parsed` flag says there is one, is the view that
`parseArchive` builds from the directory. -/
def Coherent (u : Utils) (sort : List Entry → List Entry) (ssed : Fs) : Prop :=
  ssed.parsed = true → parseArchive u sort ssed = ssed

instance (u : Utils) (sort : List Entry → List Entry) (ssed : Fs) :
    Decidable (Coherent u sort ssed) := by
  unfold Coherent; infer_instance

/-- The stored entries that the view lists under a document, in display order. -/
def docEntries (u : Utils) (sort : List Entry → List Entry) (ssed : Fs) (d : String) :
    List Entry :=
  (((createdOrder u sort ssed).filter (fun e => e.Document = d)).reverse).map (asStored u)

/-- The uuids listed in the document orderings of a view, over all documents. -/
def listed (ssed : Fs) : List String :=
  (ssed.ordering.map Prod.snd).flatten

/-- Result of `GetEntry` in terms of the listed entry of that name, if there is one. -/
def entryResult : Option Entry → Except String Entry
  | none => .error "Entry not found"
  | some x => if x.Text = "ignore entry" then .error "Entry deleted" else .ok x

/-- The entry name that `Update` works with: the random one when none is given. -/
def effName (env : Env) (entryName : String) : String :=
  if entryName.length = 0 then env.rand else entryName

/-- The file that `Update` targets: the content address of text and entry name. -/
def blobFile (u : Utils) (env : Env) (text entryName : String) : String :=
  u.HashAndHex (text ++ effName env entryName) ++ ".json"

/-- The blob that `Update` writes; `ex` is the answer of `entryExists`. -/
def writtenBlob (u : Utils) (env : Env) (text d e ts : String) (ex : Bool) : Entry :=
  { Text := text
    Timestamp := if ts.length = 0 then env.date else u.ReFormatDate ts
    ModifiedTimestamp :=
      if ex then env.dateModified
      else if ts.length = 0 then env.date else u.ReFormatDate ts
    Document := d
    Entry := effName env e
    datetime := 0
    uuid := "" }

/-- The fields of an entry on which two views are compared: entry name, document, text
and created timestamp. -/
def viewKey (e : Entry) : String × String × String × String :=
  (e.Entry, e.Document, e.Text, e.Timestamp)

/-- The content of a blob as the dump file carries it (unexported fields dropped). -/
def dumped (e : Entry) : Entry :=
  { e with datetime := 0, uuid := "" }

/-- The content address under which `Import` files an entry of the dump. -/
def importFile (u : Utils) (e : Entry) : String :=
  u.HashAndHex (e.Text ++ e.Entry) ++ ".json"

/-- The blob that `Import` writes for an entry of the dump whose name is new to the store:
its modified timestamp, normalised, becomes both timestamps. -/
def imported (u : Utils) (e : Entry) : Entry :=
  { Text := e.Text
    Timestamp := u.ReFormatDate e.ModifiedTimestamp
    ModifiedTimestamp := u.ReFormatDate e.ModifiedTimestamp
    Document := e.Document
    Entry := e.Entry
    datetime := 0
    uuid := "" }

/-- The selected config in the words of the specification: the first stored config when the
username is empty, else the first stored config whose username matches, and a new record of
the supplied values when there is none. -/
def selectedConfig (stored : List config) (username method : String) : config :=
  if username = "" then
    stored.head?.getD { Username := username, HashedPassword := "", Method := method }
  else
    (stored.find? (fun c => c.Username = username)).getD
      { Username := username, HashedPassword := "", Method := method }

/-- The other stored configs in the words of the specification: the stored list without the
selected config, every other config once and in its place. -/
def otherConfigs (stored : List config) (username : String) : List config :=
  if username = "" then stored.tail else stored.eraseP (fun c => c.Username = username)

/-! ## Concrete instances, used to run the definitions -/

/-- A date parser on four canonical dates, numbered by their day. -/
def exampleParseDate (s : String) : Int :=
  if s = "2023-01-01 10:00:00" then 1
  else if s = "2023-01-02 10:00:00" then 2
  else if s = "2023-01-03 10:00:00" then 3
  else if s = "2023-01-04 10:00:00" then 4
  else 0

/-- An instance of the helpers: a collision-free stand-in for the content hash, the date
parser above, and a normaliser that leaves canonical dates as they are. -/
def exampleUtils : Utils :=
  { HashAndHex := fun s => s, ParseDate := exampleParseDate, ReFormatDate := fun s => s }

/-- Surroundings of a call at clock reading `now` whose file write succeeds. -/
def exampleEnv (now : String) (rand : String) : Env :=
  { date := now, dateModified := now, rand := rand, writeErr := none }

/-- A blob as `Update` writes it. -/
def blob (text document entry timestamp modified : String) : Entry :=
  { Text := text, Timestamp := timestamp, ModifiedTimestamp := modified,
    Document := document, Entry := entry, datetime := 0, uuid := "" }

/-- A store with the given files and no cached view. -/
def storeOf (files : GoMap Entry) : Fs :=
  { localRepo := files, parsed := false, entries := [], entryNameToUUID := [], ordering := [] }

/-- The store after `Update("hello", "notes", "greet", "2023-01-01 10:00:00")`. -/
def helloStore : Fs :=
  storeOf [("hellogreet.json",
    blob "hello" "notes" "greet" "2023-01-01 10:00:00" "2023-01-01 10:00:00")]

/-- The store after the further edit `Update("hi", "notes", "greet", "")` a day later. -/
def editedStore : Fs :=
  storeOf
    [("hellogreet.json",
      blob "hello" "notes" "greet" "2023-01-01 10:00:00" "2023-01-01 10:00:00"),
     ("higreet.json",
      blob "hi" "notes" "greet" "2023-01-02 10:00:00" "2023-01-02 10:00:00")]

/-- A store in which the document tombstone written first under the entry name `greet`
was superseded by an edit of that entry a day later. -/
def supersededTombstoneStore : Fs :=
  storeOf
    [("ignore documentgreet.json",
      blob "ignore document" "notes" "greet" "2023-01-01 10:00:00" "2023-01-01 10:00:00"),
     ("hellogreet.json",
      blob "hello" "notes" "greet" "2023-01-02 10:00:00" "2023-01-02 10:00:00")]

/-- A store whose only blob files the entry `greet` under the document `journal`. -/
def journalStore : Fs :=
  storeOf [("hellogreet.json",
    blob "hello" "journal" "greet" "2023-01-01 10:00:00" "2023-01-01 10:00:00")]

/-- The store with no blob. -/
def emptyStore : Fs :=
  storeOf []

/-- A store in which the entry `greet` was written on the first day, deleted on the second
and written again on the third. -/
def recreatedStore : Fs :=
  storeOf
    [("hellogreet.json",
      blob "hello" "notes" "greet" "2023-01-01 10:00:00" "2023-01-01 10:00:00"),
     ("ignore entrygreet.json",
      blob "ignore entry" "notes" "greet" "2023-01-02 10:00:00" "2023-01-02 10:00:00"),
     ("hello againgreet.json",
      blob "hello again" "notes" "greet" "2023-01-03 10:00:00" "2023-01-03 10:00:00")]

/-- A store of three entries in two documents, none of them edited. -/
def plainStore : Fs :=
  storeOf
    [("hellogreet.json",
      blob "hello" "notes" "greet" "2023-01-01 10:00:00" "2023-01-01 10:00:00"),
     ("milktodo.json",
      blob "milk" "notes" "todo" "2023-01-02 10:00:00" "2023-01-02 10:00:00"),
     ("breadlist.json",
      blob "bread" "shopping" "list" "2023-01-01 10:00:00" "2023-01-01 10:00:00")]

/-- Surroundings of an import on the third day: every call reads the same clock and every
write succeeds. -/
def importEnv (_ : Nat) : Env :=
  exampleEnv "2023-01-03 10:00:00" "XVlBzgbaiC"

/-- A configuration file with three users. -/
def exampleConfigs : List config :=
  [{ Username := "alice", HashedPassword := "", Method := "http://a.example" },
   { Username := "bob", HashedPassword := "", Method := "" },
   { Username := "carol", HashedPassword := "", Method := "http://c.example" }]

/-- A session on an http method whose pull succeeded. -/
def pulledSession : Fs :=
  { emptyStore with successfulPull := true, username := "alice", password := "pw",
                    method := "http://a.example", archiveName := "alice.tar.bz2" }

/-- A store with the document `notes`, which holds an entry named `todo`, and the document
`todo`. -/
def ambiguousStore : Fs :=
  storeOf
    [("milktodo.json",
      blob "milk" "notes" "todo" "2023-01-02 10:00:00" "2023-01-02 10:00:00"),
     ("breadlist.json",
      blob "bread" "todo" "list" "2023-01-01 10:00:00" "2023-01-01 10:00:00")]

/-- A host whose facts are all known. -/
def exampleHost : Host :=
  { info := .ok ("linux", "laptop"), cpu := .ok "cpu0" }

/-- A stand-in for the key derivation: the key depends on the password, on the salt and on
the work factor (one mark per 65536 rounds). -/
def examplePwdhash (password salt : String) (workFactor : Nat) : Except String String :=
  .ok (password ++ "/" ++ salt ++ "/" ++ String.mk (List.replicate (workFactor / 65536) '#'))

/-- The local directory of a machine on which "hello" was filed under `notes`. -/
def machineA : Fs :=
  storeOf [("hellogreet.json",
    blob "hello" "notes" "greet" "2023-01-01 10:00:00" "2023-01-01 10:00:00")]

/-- The local directory of a machine on which "hello" was filed under `journal` a day
later: the same text and entry name, hence the same file name. -/
def machineB : Fs :=
  storeOf [("hellogreet.json",
    blob "hello" "journal" "greet" "2023-01-02 10:00:00" "2023-01-02 10:00:00")]

/-! ## Association lists -/

theorem GoMap.get?_nil {β : Type} (k : String) : GoMap.get? ([] : GoMap β) k = none := rfl

theorem GoMap.get?_cons {β : Type} (k k1 : String) (v1 : β) (m : GoMap β) :
    GoMap.get? ((k1, v1) :: m) k = if k1 = k then some v1 else GoMap.get? m k := by
  unfold GoMap.get?
  by_cases h : k1 = k
  · subst h; simp [List.lookup]
  · have h2 : (k == k1) = false := by simpa using fun h3 => h h3.symm
    simp [List.lookup, h, h2]

theorem GoMap.get?_eq_none {β : Type} (m : GoMap β) (k : String) :
    GoMap.get? m k = none ↔ k ∉ m.map Prod.fst := by
  induction m with
  | nil => simp [GoMap.get?_nil]
  | cons p m ih =>
    obtain ⟨k1, v1⟩ := p
    rw [GoMap.get?_cons]
    by_cases h : k1 = k
    · simp [h]
    · simp [h, ih, Ne.symm h]

theorem GoMap.get?_of_mem {β : Type} (m : GoMap β) (k : String) (v : β)
    (hnd : (m.map Prod.fst).Nodup) (hmem : (k, v) ∈ m) : GoMap.get? m k = some v := by
  induction m with
  | nil => simp at hmem
  | cons p m ih =>
    obtain ⟨k1, v1⟩ := p
    rw [GoMap.get?_cons]
    simp only [List.map_cons, List.nodup_cons] at hnd
    rcases List.mem_cons.1 hmem with h | h
    · cases h; simp
    · have : k1 ≠ k := by
        intro h2; subst h2
        exact hnd.1 (List.mem_map_of_mem Prod.fst h)
      simp [this, ih hnd.2 h]

theorem GoMap.set_of_not_mem {β : Type} (m : GoMap β) (k : String) (v : β)
    (h : k ∉ m.map Prod.fst) : GoMap.set m k v = m ++ [(k, v)] := by
  induction m with
  | nil => rfl
  | cons p m ih =>
    obtain ⟨k1, v1⟩ := p
    simp only [List.map_cons, List.mem_cons, not_or] at h
    simp [GoMap.set, Ne.symm h.1, ih h.2]

theorem GoMap.get?_set {β : Type} (m : GoMap β) (k k2 : String) (v : β) :
    GoMap.get? (GoMap.set m k v) k2 = if k = k2 then some v else GoMap.get? m k2 := by
  induction m with
  | nil => simp [GoMap.set, GoMap.get?_cons, GoMap.get?_nil]
  | cons p m ih =>
    obtain ⟨k1, v1⟩ := p
    by_cases h : k1 = k
    · subst h
      simp only [GoMap.set, if_true, GoMap.get?_cons]
      by_cases h2 : k1 = k2 <;> simp [h2]
    · simp only [GoMap.set, h, if_false, GoMap.get?_cons, ih]
      by_cases h2 : k1 = k2
      · subst h2; simp [Ne.symm h]
      · simp [h2]

theorem GoMap.keys_set {β : Type} (m : GoMap β) (k : String) (v : β) :
    (GoMap.set m k v).map Prod.fst =
      if k ∈ m.map Prod.fst then m.map Prod.fst else m.map Prod.fst ++ [k] := by
  induction m with
  | nil => simp [GoMap.set]
  | cons p m ih =>
    obtain ⟨k1, v1⟩ := p
    by_cases h : k1 = k
    · subst h; simp [GoMap.set]
    · simp only [GoMap.set, h, if_false, List.map_cons, ih, List.mem_cons, Ne.symm h, false_or]
      split <;> simp

theorem GoMap.get_eq {β : Type} [Inhabited β] (m : GoMap β) (k : String) :
    GoMap.get m k = (GoMap.get? m k).getD default := rfl

theorem GoMap.get?_map_val {β γ : Type} (f : β → γ) (m : GoMap β) (k : String) :
    GoMap.get? (m.map (fun kv => (kv.1, f kv.2))) k = (GoMap.get? m k).map f := by
  induction m with
  | nil => rfl
  | cons p m ih =>
    obtain ⟨k1, v1⟩ := p
    simp only [List.map_cons, GoMap.get?_cons, ih]
    split <;> rfl

theorem GoMap.nodup_keys_set {β : Type} (m : GoMap β) (k : String) (v : β)
    (h : (m.map Prod.fst).Nodup) : ((GoMap.set m k v).map Prod.fst).Nodup := by
  rw [GoMap.keys_set]
  split
  · exact h
  · rename_i h2
    exact List.Nodup.append h (List.nodup_singleton k) (by simpa using h2)

/-! ## The three loops of parseArchive -/

theorem foldl_set_uuid (l : List Entry) (acc : GoMap Entry)
    (hnd : (l.map Entry.uuid).Nodup) (hdisj : ∀ e ∈ l, e.uuid ∉ acc.map Prod.fst) :
    l.foldl (fun m e => GoMap.set m e.uuid e) acc = acc ++ l.map (fun e => (e.uuid, e)) := by
  induction l generalizing acc with
  | nil => simp
  | cons e rest ih =>
    simp only [List.map_cons, List.nodup_cons] at hnd
    rw [List.foldl_cons, GoMap.set_of_not_mem _ _ _ (hdisj e (List.mem_cons_self _ _)), ih]
    · simp
    · exact hnd.2
    · intro e2 he2
      simp only [List.map_append, List.map_cons, List.map_nil, List.mem_append,
        List.mem_singleton, not_or]
      refine ⟨hdisj e2 (List.mem_cons_of_mem _ he2), ?_⟩
      intro h
      exact hnd.1 (h ▸ List.mem_map_of_mem Entry.uuid he2)

theorem foldl_addNewest (u : Utils) (l : List Entry) (a1 : GoMap Bool) (a2 : GoMap Entry)
    (seen : List String) (hseen : ∀ n, n ∈ a1.map Prod.fst ↔ n ∈ seen)
    (hnd : (l.map Entry.uuid).Nodup) (hdisj : ∀ e ∈ l, e.uuid ∉ a2.map Prod.fst) :
    (l.foldl (addNewest u) (a1, a2)).2 =
      a2 ++ (firstSeen seen l).map (fun e => (e.uuid, byCreated u e)) := by
  induction l generalizing a1 a2 seen with
  | nil => simp [firstSeen]
  | cons e rest ih =>
    simp only [List.map_cons, List.nodup_cons] at hnd
    rw [List.foldl_cons]
    by_cases hs : e.Entry ∈ seen
    · have h1 : GoMap.get? a1 e.Entry ≠ none := by
        rw [Ne, GoMap.get?_eq_none, not_not]; exact (hseen _).2 hs
      obtain ⟨b, hb⟩ := Option.ne_none_iff_exists'.1 h1
      have h2 : addNewest u (a1, a2) e = (a1, a2) := by simp [addNewest, hb]
      rw [h2, ih a1 a2 seen hseen hnd.2 (fun e2 he2 => hdisj e2 (List.mem_cons_of_mem _ he2))]
      simp [firstSeen, hs]
    · have h1 : GoMap.get? a1 e.Entry = none := by
        rw [GoMap.get?_eq_none]; exact fun h => hs ((hseen _).1 h)
      have h2 : addNewest u (a1, a2) e =
          (GoMap.set a1 e.Entry true, a2 ++ [(e.uuid, byCreated u e)]) := by
        simp [addNewest, h1, byCreated,
          GoMap.set_of_not_mem _ _ _ (hdisj e (List.mem_cons_self _ _))]
      rw [h2, ih _ _ (e.Entry :: seen) _ hnd.2]
      · simp [firstSeen, hs]
      · intro e2 he2
        simp only [List.map_append, List.map_cons, List.map_nil, List.mem_append,
          List.mem_singleton, not_or]
        refine ⟨hdisj e2 (List.mem_cons_of_mem _ he2), ?_⟩
        intro h
        exact hnd.1 (h ▸ List.mem_map_of_mem Entry.uuid he2)
      · intro n
        rw [GoMap.keys_set]
        have h3 : e.Entry ∉ a1.map Prod.fst := fun h => hs ((hseen _).1 h)
        simp only [h3, if_false, List.mem_append, List.mem_singleton, List.mem_cons, hseen]
        tauto

theorem addToOrdering_get? (acc : GoMap (List String)) (e : Entry) (d : String) :
    GoMap.get? (addToOrdering acc e) d =
      if e.Document = d then some ((GoMap.get? acc d).getD [] ++ [e.uuid])
      else GoMap.get? acc d := by
  unfold addToOrdering
  cases h : GoMap.get? acc e.Document with
  | none =>
    simp only [GoMap.get?_set]
    by_cases h2 : e.Document = d
    · subst h2; simp [h]
    · simp [h2]
  | some val =>
    simp only [GoMap.get?_set]
    by_cases h2 : e.Document = d
    · subst h2; simp [h]
    · simp [h2]

theorem foldl_addToOrdering_get? (S : List Entry) (acc : GoMap (List String)) (d : String) :
    GoMap.get? (S.foldl addToOrdering acc) d =
      if GoMap.get? acc d = none ∧ S.filter (fun e => e.Document = d) = [] then none
      else some ((GoMap.get? acc d).getD [] ++
        (S.filter (fun e => e.Document = d)).map Entry.uuid) := by
  induction S generalizing acc with
  | nil =>
    cases h : GoMap.get? acc d <;> simp [h]
  | cons e rest ih =>
    rw [List.foldl_cons, ih, addToOrdering_get?]
    by_cases h2 : e.Document = d
    · simp [h2, List.filter_cons]
    · simp [h2, List.filter_cons]

theorem addToOrdering_nodup (acc : GoMap (List String)) (e : Entry)
    (h : (acc.map Prod.fst).Nodup) : ((addToOrdering acc e).map Prod.fst).Nodup := by
  unfold addToOrdering
  split <;> exact GoMap.nodup_keys_set _ _ _ h

theorem foldl_addToOrdering_nodup (S : List Entry) (acc : GoMap (List String))
    (h : (acc.map Prod.fst).Nodup) : ((S.foldl addToOrdering acc).map Prod.fst).Nodup := by
  induction S generalizing acc with
  | nil => exact h
  | cons e rest ih => exact ih _ (addToOrdering_nodup acc e h)

/-! ## First occurrences -/

theorem firstSeen_sublist (seen : List String) (l : List Entry) :
    (firstSeen seen l).Sublist l := by
  induction l generalizing seen with
  | nil => simp [firstSeen]
  | cons e rest ih =>
    unfold firstSeen
    split
    · exact (ih seen).trans (List.sublist_cons_self e rest)
    · exact (ih _).cons₂ e

theorem firstSeen_not_seen (seen : List String) (l : List Entry) (c : Entry)
    (hc : c ∈ firstSeen seen l) : c.Entry ∉ seen := by
  induction l generalizing seen with
  | nil => simp [firstSeen] at hc
  | cons e rest ih =>
    unfold firstSeen at hc
    split at hc
    · exact ih seen hc
    · rename_i hs
      rcases List.mem_cons.1 hc with h | h
      · subst h; exact hs
      · exact fun h2 => ih _ h (List.mem_cons_of_mem _ h2)

theorem firstSeen_nodup (seen : List String) (l : List Entry) :
    ((firstSeen seen l).map Entry.Entry).Nodup := by
  induction l generalizing seen with
  | nil => simp [firstSeen]
  | cons e rest ih =>
    unfold firstSeen
    split
    · exact ih seen
    · rw [List.map_cons, List.nodup_cons]
      refine ⟨?_, ih _⟩
      intro h
      obtain ⟨c, hc, hce⟩ := List.mem_map.1 h
      exact firstSeen_not_seen _ _ c hc (hce ▸ List.mem_cons_self _ _)

theorem firstSeen_cover (seen : List String) (l : List Entry) (e : Entry) (he : e ∈ l)
    (hs : e.Entry ∉ seen) : ∃ c ∈ firstSeen seen l, c.Entry = e.Entry := by
  induction l generalizing seen with
  | nil => simp at he
  | cons x rest ih =>
    unfold firstSeen
    by_cases hx : x.Entry ∈ seen
    · simp only [hx, if_true]
      rcases List.mem_cons.1 he with h | h
      · subst h; exact absurd hx hs
      · exact ih seen h hs
    · simp only [hx, if_false]
      by_cases hxe : x.Entry = e.Entry
      · exact ⟨x, List.mem_cons_self _ _, hxe⟩
      · rcases List.mem_cons.1 he with h | h
        · subst h; exact absurd rfl hxe
        · obtain ⟨c, hc, hce⟩ := ih (x.Entry :: seen) h (by
            simp only [List.mem_cons, not_or]; exact ⟨fun h2 => hxe h2.symm, hs⟩)
          exact ⟨c, List.mem_cons_of_mem _ hc, hce⟩

theorem firstSeen_first (R : Entry → Entry → Prop) (seen : List String) (l : List Entry)
    (hl : l.Pairwise R) (c : Entry) (hc : c ∈ firstSeen seen l) (e : Entry) (he : e ∈ l)
    (hn : e.Entry = c.Entry) : e = c ∨ R c e := by
  induction l generalizing seen with
  | nil => simp at he
  | cons x rest ih =>
    rw [List.pairwise_cons] at hl
    unfold firstSeen at hc
    by_cases hx : x.Entry ∈ seen
    · simp only [hx, if_true] at hc
      rcases List.mem_cons.1 he with h | h
      · subst h
        exact absurd (hn ▸ hx) (firstSeen_not_seen _ _ c hc)
      · exact ih seen hl.2 hc h
    · simp only [hx, if_false] at hc
      rcases List.mem_cons.1 hc with h1 | h1
      · subst h1
        rcases List.mem_cons.1 he with h | h
        · exact Or.inl h
        · exact Or.inr (hl.1 e h)
      · have hne : c.Entry ∉ x.Entry :: seen := firstSeen_not_seen _ _ c h1
        rcases List.mem_cons.1 he with h | h
        · subst h
          exact absurd (hn ▸ List.mem_cons_self _ _) hne
        · exact ih _ hl.2 h1 h

/-! ## The view that parseArchive builds -/

theorem parseFile_eq (u : Utils) (f : String × Entry) :
    parseFile u f = { f.2 with uuid := f.1, datetime := effDate u f.2 } := by
  by_cases h : f.2.ModifiedTimestamp.length > 0 <;> simp [parseFile, effDate, h]

theorem parseFile_uuid (u : Utils) (f : String × Entry) : (parseFile u f).uuid = f.1 := by
  rw [parseFile_eq]

theorem parseFile_datetime (u : Utils) (f : String × Entry) :
    (parseFile u f).datetime = effDate u (parseFile u f) := by
  rw [parseFile_eq]; rfl

theorem map_parseFile_uuid (u : Utils) (files : GoMap Entry) :
    (files.map (parseFile u)).map Entry.uuid = files.map Prod.fst := by
  simp [List.map_map, Function.comp_def, parseFile_uuid]

theorem parseArchive_localRepo (u : Utils) (sort : List Entry → List Entry) (ssed : Fs) :
    (parseArchive u sort ssed).localRepo = ssed.localRepo := rfl

theorem parseArchive_entries (u : Utils) (sort : List Entry → List Entry) (ssed : Fs)
    (hwf : WellFormed ssed) :
    (parseArchive u sort ssed).entries =
      (ssed.localRepo.map (parseFile u)).map (fun e => (e.uuid, e)) := by
  have h := foldl_set_uuid (ssed.localRepo.map (parseFile u)) []
    (by rw [map_parseFile_uuid]; exact hwf) (by simp)
  simpa [parseArchive] using h

theorem modifiedOrder_perm (u : Utils) (sort : List Entry → List Entry) (hs : SortSpec sort)
    (ssed : Fs) : (modifiedOrder u sort ssed).Perm (ssed.localRepo.map (parseFile u)) :=
  hs.perm _

theorem modifiedOrder_nodup (u : Utils) (sort : List Entry → List Entry) (hs : SortSpec sort)
    (ssed : Fs) (hwf : WellFormed ssed) : ((modifiedOrder u sort ssed).map Entry.uuid).Nodup := by
  have h := ((modifiedOrder_perm u sort hs ssed).map Entry.uuid).nodup_iff
  rw [h, map_parseFile_uuid]
  exact hwf

theorem parseArchive_ordering (u : Utils) (sort : List Entry → List Entry) (hs : SortSpec sort)
    (ssed : Fs) (hwf : WellFormed ssed) :
    (parseArchive u sort ssed).ordering =
      ((createdOrder u sort ssed).foldl addToOrdering []).map
        (fun kv => (kv.1, kv.2.reverse)) := by
  have h1 := foldl_set_uuid (ssed.localRepo.map (parseFile u)) []
    (by rw [map_parseFile_uuid]; exact hwf) (by simp)
  have h2 := foldl_addNewest u (modifiedOrder u sort ssed) [] [] [] (by simp)
    (modifiedOrder_nodup u sort hs ssed hwf) (by simp)
  simp only [parseArchive]
  rw [h1]
  simp only [List.nil_append, List.map_map, Function.comp_def, List.map_id_fun', id]
  unfold modifiedOrder at h2
  rw [h2]
  simp only [List.nil_append, List.map_map, Function.comp_def]
  rfl

theorem effDate_byCreated (u : Utils) (e : Entry) : effDate u (byCreated u e) = effDate u e :=
  rfl

theorem effDate_parseFile (u : Utils) (f : String × Entry) :
    effDate u (parseFile u f) = effDate u f.2 := by
  rw [parseFile_eq]; rfl

theorem asStored_byCreated_parseFile (u : Utils) (f : String × Entry) :
    asStored u (byCreated u (parseFile u f)) = parseFile u f := by
  rw [parseFile_eq]; rfl

theorem createdOrder_perm (u : Utils) (sort : List Entry → List Entry) (hs : SortSpec sort)
    (ssed : Fs) :
    (createdOrder u sort ssed).Perm
      ((firstSeen [] (modifiedOrder u sort ssed)).map (byCreated u)) :=
  hs.perm _

theorem createdOrder_mem (u : Utils) (sort : List Entry → List Entry) (hs : SortSpec sort)
    (ssed : Fs) (c : Entry) :
    c ∈ createdOrder u sort ssed ↔
      ∃ e ∈ firstSeen [] (modifiedOrder u sort ssed), byCreated u e = c := by
  rw [(createdOrder_perm u sort hs ssed).mem_iff, List.mem_map]

theorem modifiedOrder_mem (u : Utils) (sort : List Entry → List Entry) (hs : SortSpec sort)
    (ssed : Fs) (e : Entry) :
    e ∈ modifiedOrder u sort ssed ↔ ∃ f ∈ ssed.localRepo, parseFile u f = e := by
  rw [(modifiedOrder_perm u sort hs ssed).mem_iff, List.mem_map]

theorem modifiedOrder_sorted (u : Utils) (sort : List Entry → List Entry) (hs : SortSpec sort)
    (ssed : Fs) :
    (modifiedOrder u sort ssed).Pairwise (fun a b => effDate u b ≤ effDate u a) := by
  have h1 := hs.sorted (ssed.localRepo.map (parseFile u))
  have h2 : ∀ e ∈ modifiedOrder u sort ssed, e.datetime = effDate u e := by
    intro e he
    obtain ⟨f, _, hf⟩ := (modifiedOrder_mem u sort hs ssed e).1 he
    rw [← hf]; exact parseFile_datetime u f
  refine List.Pairwise.imp_of_mem ?_ h1
  intro a b ha hb hab
  rw [← h2 a ha, ← h2 b hb]
  simpa [timeSlice.Less] using hab

theorem createdOrder_file (u : Utils) (sort : List Entry → List Entry) (hs : SortSpec sort)
    (ssed : Fs) (c : Entry) (hc : c ∈ createdOrder u sort ssed) :
    ∃ f ∈ ssed.localRepo, byCreated u (parseFile u f) = c := by
  obtain ⟨e, he, hec⟩ := (createdOrder_mem u sort hs ssed c).1 hc
  obtain ⟨f, hf, hfe⟩ := (modifiedOrder_mem u sort hs ssed e).1
    ((firstSeen_sublist _ _).subset he)
  exact ⟨f, hf, by rw [hfe, hec]⟩

theorem createdOrder_names_nodup (u : Utils) (sort : List Entry → List Entry)
    (hs : SortSpec sort) (ssed : Fs) :
    ((createdOrder u sort ssed).map Entry.Entry).Nodup := by
  rw [((createdOrder_perm u sort hs ssed).map Entry.Entry).nodup_iff]
  have h := firstSeen_nodup [] (modifiedOrder u sort ssed)
  simpa [List.map_map, Function.comp_def, byCreated] using h

theorem createdOrder_sorted (u : Utils) (sort : List Entry → List Entry) (hs : SortSpec sort)
    (ssed : Fs) :
    (createdOrder u sort ssed).Pairwise
      (fun a b => u.ParseDate b.Timestamp ≤ u.ParseDate a.Timestamp) := by
  have h1 := hs.sorted ((firstSeen [] (modifiedOrder u sort ssed)).map (byCreated u))
  have h2 : ∀ c ∈ createdOrder u sort ssed, c.datetime = u.ParseDate c.Timestamp := by
    intro c hc
    obtain ⟨e, _, hec⟩ := (createdOrder_mem u sort hs ssed c).1 hc
    rw [← hec]; rfl
  refine List.Pairwise.imp_of_mem ?_ h1
  intro a b ha hb hab
  rw [← h2 a ha, ← h2 b hb]
  simpa [timeSlice.Less] using hab

theorem createdOrder_newest (u : Utils) (sort : List Entry → List Entry) (hs : SortSpec sort)
    (ssed : Fs) (c : Entry) (hc : c ∈ createdOrder u sort ssed) (f : String × Entry)
    (hf : f ∈ ssed.localRepo) (hn : f.2.Entry = c.Entry) : effDate u f.2 ≤ effDate u c := by
  obtain ⟨e, he, hec⟩ := (createdOrder_mem u sort hs ssed c).1 hc
  have hfm : parseFile u f ∈ modifiedOrder u sort ssed :=
    (modifiedOrder_mem u sort hs ssed _).2 ⟨f, hf, rfl⟩
  subst hec
  have hname : (parseFile u f).Entry = e.Entry := by
    rw [parseFile_eq]; exact hn
  rw [effDate_byCreated, ← effDate_parseFile]
  rcases firstSeen_first _ [] _ (modifiedOrder_sorted u sort hs ssed) e he _ hfm hname with h | h
  · rw [h]
  · exact h

theorem createdOrder_cover (u : Utils) (sort : List Entry → List Entry) (hs : SortSpec sort)
    (ssed : Fs) (f : String × Entry) (hf : f ∈ ssed.localRepo) :
    ∃ c ∈ createdOrder u sort ssed, c.Entry = f.2.Entry := by
  have hfm : parseFile u f ∈ modifiedOrder u sort ssed :=
    (modifiedOrder_mem u sort hs ssed _).2 ⟨f, hf, rfl⟩
  obtain ⟨e, he, hen⟩ := firstSeen_cover [] _ _ hfm (by simp)
  refine ⟨byCreated u e, (createdOrder_mem u sort hs ssed _).2 ⟨e, he, rfl⟩, ?_⟩
  rw [parseFile_eq] at hen
  exact hen

theorem parseArchive_get_entries (u : Utils) (sort : List Entry → List Entry)
    (hs : SortSpec sort) (ssed : Fs) (hwf : WellFormed ssed) (c : Entry)
    (hc : c ∈ createdOrder u sort ssed) :
    GoMap.get (parseArchive u sort ssed).entries c.uuid = asStored u c := by
  obtain ⟨f, hf, hfc⟩ := createdOrder_file u sort hs ssed c hc
  have hk : (((ssed.localRepo.map (parseFile u)).map (fun e => (e.uuid, e))).map
      Prod.fst).Nodup := by
    simpa [List.map_map, Function.comp_def, parseFile_uuid] using hwf
  have hm : ((parseFile u f).uuid, parseFile u f) ∈
      (ssed.localRepo.map (parseFile u)).map (fun e => (e.uuid, e)) :=
    List.mem_map.2 ⟨parseFile u f, List.mem_map_of_mem _ hf, rfl⟩
  have hu : c.uuid = (parseFile u f).uuid := by rw [← hfc]; rfl
  rw [GoMap.get_eq, parseArchive_entries u sort ssed hwf, hu, GoMap.get?_of_mem _ _ _ hk hm,
    ← hfc, asStored_byCreated_parseFile]
  rfl

theorem parseArchive_get_ordering (u : Utils) (sort : List Entry → List Entry)
    (hs : SortSpec sort) (ssed : Fs) (hwf : WellFormed ssed) (d : String) :
    GoMap.get (parseArchive u sort ssed).ordering d =
      (((createdOrder u sort ssed).filter (fun e => e.Document = d)).map Entry.uuid).reverse := by
  rw [GoMap.get_eq, parseArchive_ordering u sort hs ssed hwf, GoMap.get?_map_val,
    foldl_addToOrdering_get?]
  by_cases h : (createdOrder u sort ssed).filter (fun e => e.Document = d) = []
  · simp [h, GoMap.get?_nil]
    rfl
  · simp [h, GoMap.get?_nil]

theorem parseArchive_ordering_keys (u : Utils) (sort : List Entry → List Entry)
    (hs : SortSpec sort) (ssed : Fs) (hwf : WellFormed ssed) :
    ((parseArchive u sort ssed).ordering.map Prod.fst).Nodup ∧
      ∀ d, d ∈ (parseArchive u sort ssed).ordering.map Prod.fst ↔
        ∃ c ∈ createdOrder u sort ssed, c.Document = d := by
  rw [parseArchive_ordering u sort hs ssed hwf]
  constructor
  · simpa [List.map_map, Function.comp_def] using
      foldl_addToOrdering_nodup (createdOrder u sort ssed) [] (by simp)
  · intro d
    have h := foldl_addToOrdering_get? (createdOrder u sort ssed) [] d
    have h2 := GoMap.get?_eq_none ((createdOrder u sort ssed).foldl addToOrdering []) d
    simp only [List.map_map, Function.comp_def]
    rw [← not_iff_not, ← h2, h]
    simp [GoMap.get?_nil, List.filter_eq_nil_iff]

/-! ## Reads on the built view -/

theorem insertionSort_spec : SortSpec insertionSort := by
  constructor
  · intro p
    exact List.perm_insertionSort _ p
  · intro p
    have h : List.Sorted (fun a b : Entry => b.datetime ≤ a.datetime) (insertionSort p) := by
      have : IsTotal Entry (fun a b : Entry => b.datetime ≤ a.datetime) :=
        ⟨fun a b => le_total b.datetime a.datetime⟩
      have : IsTrans Entry (fun a b : Entry => b.datetime ≤ a.datetime) :=
        ⟨fun a b c hab hbc => le_trans hbc hab⟩
      exact List.sorted_insertionSort _ p
    refine List.Pairwise.imp ?_ h
    intro a b hab
    simpa [timeSlice.Less] using hab

theorem ensure_parsed (u : Utils) (sort : List Entry → List Entry) (ssed : Fs)
    (hco : Coherent u sort ssed) :
    (if !ssed.parsed then parseArchive u sort ssed else ssed) = parseArchive u sort ssed := by
  cases h : ssed.parsed
  · simp
  · simp [hco h]

theorem GetDocument_loop_eq (entries : GoMap Entry) (ids : List String) (acc : List Entry) :
    GetDocument.loop entries ids acc =
      if ignoring entries ids then []
      else acc ++ (ids.map (GoMap.get entries)).filter (fun e => e.Text ≠ "ignore entry") := by
  induction ids generalizing acc with
  | nil => simp [GetDocument.loop, ignoring]
  | cons id rest ih =>
    unfold GetDocument.loop
    by_cases h1 : (GoMap.get entries id).Text = "ignore document"
    · simp [h1, ignoring]
    · by_cases h2 : (GoMap.get entries id).Text = "ignore entry"
      · have := ih acc
        simp only [ignoring] at this
        simp [h1, h2, ignoring, this]
      · have := ih (acc ++ [GoMap.get entries id])
        simp only [ignoring] at this
        simp [h1, h2, ignoring, this]

theorem ids_map_get (u : Utils) (sort : List Entry → List Entry) (hs : SortSpec sort)
    (ssed : Fs) (hwf : WellFormed ssed) (d : String) :
    (GoMap.get (parseArchive u sort ssed).ordering d).map
        (GoMap.get (parseArchive u sort ssed).entries) = docEntries u sort ssed d := by
  rw [parseArchive_get_ordering u sort hs ssed hwf, docEntries, ← List.map_reverse,
    List.map_map]
  apply List.map_congr_left
  intro c hc
  have hc2 : c ∈ createdOrder u sort ssed :=
    (List.mem_filter.1 (List.mem_reverse.1 hc)).1
  exact parseArchive_get_entries u sort hs ssed hwf c hc2

theorem ignoring_eq (entries : GoMap Entry) (ids : List String) :
    ignoring entries ids =
      (ids.map (GoMap.get entries)).any (fun e => e.Text == "ignore document") := by
  induction ids with
  | nil => rfl
  | cons id rest ih =>
    simp only [ignoring] at ih
    simp [ignoring, ih]

theorem GetDocument_eq (u : Utils) (sort : List Entry → List Entry) (hs : SortSpec sort)
    (ssed : Fs) (hwf : WellFormed ssed) (hco : Coherent u sort ssed) (d : String) :
    GetDocument u sort ssed d =
      if (docEntries u sort ssed d).any (fun e => e.Text == "ignore document") then []
      else (docEntries u sort ssed d).filter (fun e => e.Text ≠ "ignore entry") := by
  unfold GetDocument
  simp only [ensure_parsed u sort ssed hco]
  rw [GetDocument_loop_eq, ignoring_eq, ids_map_get u sort hs ssed hwf]
  simp

theorem docEntries_sorted (u : Utils) (sort : List Entry → List Entry) (hs : SortSpec sort)
    (ssed : Fs) (d : String) :
    (docEntries u sort ssed d).Pairwise
      (fun a b => u.ParseDate a.Timestamp ≤ u.ParseDate b.Timestamp) := by
  unfold docEntries
  rw [List.pairwise_map, List.pairwise_reverse]
  exact (createdOrder_sorted u sort hs ssed).sublist (List.filter_sublist _)

theorem docEntries_names_nodup (u : Utils) (sort : List Entry → List Entry)
    (hs : SortSpec sort) (ssed : Fs) (d : String) :
    ((docEntries u sort ssed d).map Entry.Entry).Nodup := by
  unfold docEntries
  rw [List.map_map]
  have h : (Entry.Entry ∘ asStored u) = Entry.Entry := rfl
  rw [h, List.map_reverse, List.nodup_reverse]
  exact (createdOrder_names_nodup u sort hs ssed).sublist ((List.filter_sublist _).map _)

/-- C3. For every blob set and every document, the list that `GetDocument` returns is in
non-decreasing order of created timestamp (the `Timestamp` field parsed as a time) and no
two of its entries have the same entry name. -/
theorem C3_GetDocument_ordered (u : Utils) (sort : List Entry → List Entry)
    (hs : SortSpec sort) (ssed : Fs) (hwf : WellFormed ssed) (hco : Coherent u sort ssed)
    (d : String) :
    (GetDocument u sort ssed d).Pairwise
        (fun a b => u.ParseDate a.Timestamp ≤ u.ParseDate b.Timestamp) ∧
      ((GetDocument u sort ssed d).map Entry.Entry).Nodup := by
  rw [GetDocument_eq u sort hs ssed hwf hco]
  split
  · simp
  · exact ⟨(docEntries_sorted u sort hs ssed d).sublist (List.filter_sublist _),
      (docEntries_names_nodup u sort hs ssed d).sublist ((List.filter_sublist _).map _)⟩

/-- C3 on the store with an edited entry. -/
theorem C3_GetDocument_ordered_witness :
    WellFormed editedStore ∧ Coherent exampleUtils insertionSort editedStore ∧
      (GetDocument exampleUtils insertionSort editedStore "notes").Pairwise
        (fun a b => exampleUtils.ParseDate a.Timestamp ≤ exampleUtils.ParseDate b.Timestamp) ∧
      ((GetDocument exampleUtils insertionSort editedStore "notes").map Entry.Entry).Nodup :=
  ⟨by decide, by decide,
    C3_GetDocument_ordered exampleUtils insertionSort insertionSort_spec editedStore
      (by decide) (by decide) "notes"⟩

/-! ## The uuids listed by the view -/

theorem addToOrdering_eq (acc : GoMap (List String)) (e : Entry) :
    addToOrdering acc e =
      GoMap.set acc e.Document ((GoMap.get? acc e.Document).getD [] ++ [e.uuid]) := by
  unfold addToOrdering
  cases h : GoMap.get? acc e.Document <;> simp

theorem set_append_flatten_perm (acc : GoMap (List String)) (k x : String) :
    ((GoMap.set acc k ((GoMap.get? acc k).getD [] ++ [x])).map Prod.snd).flatten.Perm
      ((acc.map Prod.snd).flatten ++ [x]) := by
  induction acc with
  | nil => simp [GoMap.set, GoMap.get?_nil]
  | cons p rest ih =>
    obtain ⟨k1, v1⟩ := p
    rw [GoMap.get?_cons]
    by_cases h : k1 = k
    · simp only [h, if_true, GoMap.set, Option.getD_some, List.map_cons, List.flatten_cons,
        List.append_assoc]
      exact List.Perm.append_left _ List.perm_append_comm
    · simp only [h, if_false, GoMap.set, List.map_cons, List.flatten_cons, List.append_assoc]
      exact List.Perm.append_left _ ih

theorem foldl_addToOrdering_flatten (S : List Entry) (acc : GoMap (List String)) :
    ((S.foldl addToOrdering acc).map Prod.snd).flatten.Perm
      ((acc.map Prod.snd).flatten ++ S.map Entry.uuid) := by
  induction S generalizing acc with
  | nil => simp
  | cons e rest ih =>
    rw [List.foldl_cons]
    refine (ih _).trans ?_
    rw [addToOrdering_eq, List.map_cons]
    have h := set_append_flatten_perm acc e.Document e.uuid
    have h2 := h.append_right (rest.map Entry.uuid)
    simpa [List.append_assoc] using h2

theorem flatten_reverse_perm (m : GoMap (List String)) :
    ((m.map (fun kv => (kv.1, kv.2.reverse))).map Prod.snd).flatten.Perm
      (m.map Prod.snd).flatten := by
  induction m with
  | nil => simp
  | cons p rest ih =>
    simp only [List.map_cons, List.flatten_cons]
    exact List.Perm.append (List.reverse_perm _) ih

theorem listed_perm (u : Utils) (sort : List Entry → List Entry) (hs : SortSpec sort)
    (ssed : Fs) (hwf : WellFormed ssed) :
    (listed (parseArchive u sort ssed)).Perm ((createdOrder u sort ssed).map Entry.uuid) := by
  unfold listed
  rw [parseArchive_ordering u sort hs ssed hwf]
  refine (flatten_reverse_perm _).trans ?_
  simpa using foldl_addToOrdering_flatten (createdOrder u sort ssed) []

theorem filter_eq_singleton {α β : Type} [DecidableEq β] (g : α → β) (l : List α) (c : α)
    (hnd : (l.map g).Nodup) (hc : c ∈ l) : l.filter (fun x => g x = g c) = [c] := by
  induction l with
  | nil => simp at hc
  | cons x rest ih =>
    simp only [List.map_cons, List.nodup_cons] at hnd
    rcases List.mem_cons.1 hc with h | h
    · subst h
      have : rest.filter (fun x => g x = g c) = [] := by
        rw [List.filter_eq_nil_iff]
        intro a ha hg
        exact hnd.1 (List.mem_map.2 ⟨a, ha, by simpa using hg⟩)
      simp [List.filter_cons, this]
    · have hx : g x ≠ g c := fun hg => hnd.1 (hg ▸ List.mem_map_of_mem g h)
      simp [List.filter_cons, hx, ih hnd.2 h]

theorem listed_filter_name (u : Utils) (sort : List Entry → List Entry) (hs : SortSpec sort)
    (ssed : Fs) (hwf : WellFormed ssed) (c : Entry) (hc : c ∈ createdOrder u sort ssed) :
    (listed (parseArchive u sort ssed)).filter
      (fun id => (GoMap.get (parseArchive u sort ssed).entries id).Entry = c.Entry) =
        [c.uuid] := by
  have h1 := (listed_perm u sort hs ssed hwf).filter
    (fun id => (GoMap.get (parseArchive u sort ssed).entries id).Entry = c.Entry)
  rw [List.filter_map] at h1
  have h2 : (createdOrder u sort ssed).filter
      ((fun id => decide ((GoMap.get (parseArchive u sort ssed).entries id).Entry = c.Entry)) ∘
        Entry.uuid) = [c] := by
    rw [← filter_eq_singleton Entry.Entry _ c (createdOrder_names_nodup u sort hs ssed) hc]
    apply List.filter_congr
    intro x hx
    simp only [Function.comp_apply, parseArchive_get_entries u sort hs ssed hwf x hx]
    rfl
  rw [h2] at h1
  simpa using h1

/-- C4. After the view is built from any blob set, for every entry name that occurs in some
blob exactly one blob with that name is listed in the document orderings, and the modified
time of that blob (its created time when the modified timestamp is empty) is at least that
of every blob with the same entry name. -/
theorem C4_current_version (u : Utils) (sort : List Entry → List Entry) (hs : SortSpec sort)
    (ssed : Fs) (hwf : WellFormed ssed) (e : String)
    (hex : ∃ f ∈ ssed.localRepo, f.2.Entry = e) :
    ∃ f ∈ ssed.localRepo, f.2.Entry = e ∧
      (listed (parseArchive u sort ssed)).filter
        (fun id => (GoMap.get (parseArchive u sort ssed).entries id).Entry = e) = [f.1] ∧
      ∀ g ∈ ssed.localRepo, g.2.Entry = e → effDate u g.2 ≤ effDate u f.2 := by
  obtain ⟨f0, hf0, hf0e⟩ := hex
  obtain ⟨c, hc, hce⟩ := createdOrder_cover u sort hs ssed f0 hf0
  obtain ⟨f, hf, hfc⟩ := createdOrder_file u sort hs ssed c hc
  have hname : f.2.Entry = c.Entry := by rw [← hfc, parseFile_eq]; rfl
  have huuid : c.uuid = f.1 := by rw [← hfc, parseFile_eq]; rfl
  have heff : effDate u c = effDate u f.2 := by
    rw [← hfc, effDate_byCreated, effDate_parseFile]
  refine ⟨f, hf, by rw [hname, hce, hf0e], ?_, ?_⟩
  · rw [← hf0e, ← hce, ← huuid]
    exact listed_filter_name u sort hs ssed hwf c hc
  · intro g hg hge
    rw [← heff]
    exact createdOrder_newest u sort hs ssed c hc g hg (by rw [hge, hce, hf0e])

/-- C4 on the store with an edited entry, for the entry name "greet". -/
theorem C4_current_version_witness :
    WellFormed editedStore ∧
      ∃ f ∈ editedStore.localRepo, f.2.Entry = "greet" ∧
        (listed (parseArchive exampleUtils insertionSort editedStore)).filter
          (fun id => (GoMap.get (parseArchive exampleUtils insertionSort editedStore).entries
            id).Entry = "greet") = [f.1] ∧
        ∀ g ∈ editedStore.localRepo, g.2.Entry = "greet" →
          effDate exampleUtils g.2 ≤ effDate exampleUtils f.2 :=
  ⟨by decide,
    C4_current_version exampleUtils insertionSort insertionSort_spec editedStore (by decide)
      "greet" ⟨_, List.mem_cons_self _ _, rfl⟩⟩

/-! ## ListDocuments -/

theorem foldl_keep {α : Type} (p : α → Bool) (l : List α) (acc : List String)
    (g : α → String) :
    l.foldl (fun docs kv => if p kv then docs else docs ++ [g kv]) acc =
      acc ++ (l.filter (fun kv => !p kv)).map g := by
  induction l generalizing acc with
  | nil => simp
  | cons x rest ih =>
    rw [List.foldl_cons, ih]
    cases h : p x <;> simp [List.filter_cons, h]

theorem ListDocuments_eq (u : Utils) (sort : List Entry → List Entry) (ssed : Fs)
    (hco : Coherent u sort ssed) :
    ListDocuments u sort ssed =
      sortStrings (((parseArchive u sort ssed).ordering.filter (fun kv =>
        !ignoring (parseArchive u sort ssed).entries
          (GoMap.get (parseArchive u sort ssed).ordering kv.1))).map Prod.fst) := by
  unfold ListDocuments
  simp only [ensure_parsed u sort ssed hco]
  have h := foldl_keep (fun kv : String × List String =>
    ignoring (parseArchive u sort ssed).entries
      (GoMap.get (parseArchive u sort ssed).ordering kv.1))
    (parseArchive u sort ssed).ordering [] Prod.fst
  rw [List.nil_append] at h
  exact congrArg sortStrings h

theorem sortStrings_perm (a : List String) : (sortStrings a).Perm a :=
  List.perm_insertionSort _ a

theorem sortStrings_sorted (a : List String) : (sortStrings a).Sorted (fun x y => x ≤ y) :=
  List.sorted_insertionSort _ a

theorem ignoring_iff (entries : GoMap Entry) (ids : List String) :
    ignoring entries ids = true ↔
      ∃ id ∈ ids, (GoMap.get entries id).Text = "ignore document" := by
  simp [ignoring]

/-- C5, amended. `ListDocuments` returns, in strictly ascending order (hence without
duplicates), exactly the documents of the view ordering for which no blob listed under the
document in the view (the current version of its entry name) has text "ignore document". -/
theorem C5_ListDocuments (u : Utils) (sort : List Entry → List Entry) (hs : SortSpec sort)
    (ssed : Fs) (hwf : WellFormed ssed) (hco : Coherent u sort ssed) :
    (ListDocuments u sort ssed).Sorted (fun x y => x < y) ∧
      ∀ d, d ∈ ListDocuments u sort ssed ↔
        (d ∈ (parseArchive u sort ssed).ordering.map Prod.fst ∧
          ∀ id ∈ GoMap.get (parseArchive u sort ssed).ordering d,
            (GoMap.get (parseArchive u sort ssed).entries id).Text ≠ "ignore document") := by
  rw [ListDocuments_eq u sort ssed hco]
  constructor
  · apply (sortStrings_sorted _).lt_of_le
    rw [(sortStrings_perm _).nodup_iff]
    exact (parseArchive_ordering_keys u sort hs ssed hwf).1.sublist
      ((List.filter_sublist _).map _)
  · intro d
    rw [(sortStrings_perm _).mem_iff, List.mem_map]
    constructor
    · rintro ⟨kv, hkv, rfl⟩
      rw [List.mem_filter] at hkv
      refine ⟨List.mem_map_of_mem _ hkv.1, ?_⟩
      intro id hid htext
      have h := (ignoring_iff _ _).2 ⟨id, hid, htext⟩
      simp [h] at hkv
    · rintro ⟨hd, hno⟩
      obtain ⟨kv, hkv, rfl⟩ := List.mem_map.1 hd
      refine ⟨kv, ?_, rfl⟩
      rw [List.mem_filter]
      refine ⟨hkv, ?_⟩
      cases h : ignoring (parseArchive u sort ssed).entries
        (GoMap.get (parseArchive u sort ssed).ordering kv.1)
      · rfl
      · obtain ⟨id, hid, htext⟩ := (ignoring_iff _ _).1 h
        exact absurd htext (hno id hid)

/-- C5, amended, on the store with a superseded document tombstone. -/
theorem C5_ListDocuments_witness :
    WellFormed supersededTombstoneStore ∧
      (ListDocuments exampleUtils insertionSort supersededTombstoneStore).Sorted
        (fun x y => x < y) ∧
      ∀ d, d ∈ ListDocuments exampleUtils insertionSort supersededTombstoneStore ↔
        (d ∈ (parseArchive exampleUtils insertionSort supersededTombstoneStore).ordering.map
            Prod.fst ∧
          ∀ id ∈ GoMap.get
              (parseArchive exampleUtils insertionSort supersededTombstoneStore).ordering d,
            (GoMap.get (parseArchive exampleUtils insertionSort supersededTombstoneStore).entries
              id).Text ≠ "ignore document") :=
  ⟨by decide,
    C5_ListDocuments exampleUtils insertionSort insertionSort_spec supersededTombstoneStore
      (by decide) (by decide)⟩

/-- C5, as stated, fails: a blob under "notes" has text "ignore document", it is not the
current version of its entry name, and `ListDocuments` still returns "notes". -/
theorem C5_counterexample :
    (∃ f ∈ supersededTombstoneStore.localRepo,
        f.2.Document = "notes" ∧ f.2.Text = "ignore document") ∧
      ListDocuments exampleUtils insertionSort supersededTombstoneStore = ["notes"] := by
  decide

/-! ## GetEntry -/

theorem GetEntry_loop_eq (entries : GoMap Entry) (e : String) (ids : List String) :
    GetEntry.loop entries e ids =
      entryResult ((ids.map (GoMap.get entries)).find? (fun x => x.Entry = e)) := by
  induction ids with
  | nil => rfl
  | cons id rest ih =>
    unfold GetEntry.loop
    by_cases h : (GoMap.get entries id).Entry = e
    · simp [h, List.find?_cons, entryResult]
    · simp [h, List.find?_cons, ih]

theorem GetEntry_eq (u : Utils) (sort : List Entry → List Entry) (hs : SortSpec sort)
    (ssed : Fs) (hwf : WellFormed ssed) (hco : Coherent u sort ssed) (d e : String) :
    GetEntry u sort ssed d e =
      entryResult ((docEntries u sort ssed d).find? (fun x => x.Entry = e)) := by
  unfold GetEntry
  simp only [ensure_parsed u sort ssed hco]
  rw [GetEntry_loop_eq, ids_map_get u sort hs ssed hwf]

theorem find?_of_nodup {α β : Type} [DecidableEq β] (g : α → β) (l : List α) (x : α)
    (hnd : (l.map g).Nodup) (hx : x ∈ l) : l.find? (fun y => g y = g x) = some x := by
  induction l with
  | nil => simp at hx
  | cons y rest ih =>
    simp only [List.map_cons, List.nodup_cons] at hnd
    rcases List.mem_cons.1 hx with h | h
    · subst h; simp [List.find?_cons]
    · have hy : g y ≠ g x := fun hg => hnd.1 (hg ▸ List.mem_map_of_mem g h)
      simp [List.find?_cons, hy, ih hnd.2 h]

theorem docEntries_mem (u : Utils) (sort : List Entry → List Entry) (ssed : Fs) (d : String)
    (x : Entry) :
    x ∈ docEntries u sort ssed d ↔
      ∃ c ∈ createdOrder u sort ssed, c.Document = d ∧ asStored u c = x := by
  simp [docEntries, List.mem_filter, and_assoc]

theorem docEntries_find_listed (u : Utils) (sort : List Entry → List Entry)
    (hs : SortSpec sort) (ssed : Fs) (c : Entry) (hc : c ∈ createdOrder u sort ssed) :
    (docEntries u sort ssed c.Document).find? (fun x => x.Entry = c.Entry) =
      some (asStored u c) :=
  find?_of_nodup Entry.Entry _ (asStored u c) (docEntries_names_nodup u sort hs ssed _)
    ((docEntries_mem u sort ssed _ _).2 ⟨c, hc, rfl, rfl⟩)

theorem docEntries_find_other (u : Utils) (sort : List Entry → List Entry)
    (hs : SortSpec sort) (ssed : Fs) (c : Entry) (hc : c ∈ createdOrder u sort ssed)
    (d : String) (hd : c.Document ≠ d) :
    (docEntries u sort ssed d).find? (fun x => x.Entry = c.Entry) = none := by
  rw [List.find?_eq_none]
  intro x hx hname
  obtain ⟨c2, hc2, hdoc, rfl⟩ := (docEntries_mem u sort ssed d x).1 hx
  have hn : c2.Entry = c.Entry := by simpa using hname
  have : c2 = c :=
    List.inj_on_of_nodup_map (createdOrder_names_nodup u sort hs ssed) hc2 hc hn
  exact hd (this ▸ hdoc)

theorem docEntries_find_none (u : Utils) (sort : List Entry → List Entry)
    (hs : SortSpec sort) (ssed : Fs) (d e : String)
    (hno : ∀ f ∈ ssed.localRepo, f.2.Entry ≠ e) :
    (docEntries u sort ssed d).find? (fun x => x.Entry = e) = none := by
  rw [List.find?_eq_none]
  intro x hx hname
  obtain ⟨c, hc, _, rfl⟩ := (docEntries_mem u sort ssed d x).1 hx
  obtain ⟨f, hf, rfl⟩ := createdOrder_file u sort hs ssed c hc
  refine hno f hf ?_
  have hn : (asStored u (byCreated u (parseFile u f))).Entry = e := by simpa using hname
  rw [asStored_byCreated_parseFile, parseFile_eq] at hn
  exact hn

/-- C6, amended. For every blob set, document `d` and entry name `e`: when some blob is
named `e`, there is a blob named `e` of greatest modified time (the current version of `e`)
such that `GetEntry(d, e)` fails with "Entry not found" if that blob is filed under another
document than `d`, fails with "Entry deleted" if it is filed under `d` with text
"ignore entry", and returns it otherwise; when no blob is named `e`, `GetEntry(d, e)` fails
with "Entry not found". -/
theorem C6_GetEntry (u : Utils) (sort : List Entry → List Entry) (hs : SortSpec sort)
    (ssed : Fs) (hwf : WellFormed ssed) (hco : Coherent u sort ssed) (d e : String) :
    ((∃ f ∈ ssed.localRepo, f.2.Entry = e) →
      ∃ f ∈ ssed.localRepo, f.2.Entry = e ∧
        (∀ g ∈ ssed.localRepo, g.2.Entry = e → effDate u g.2 ≤ effDate u f.2) ∧
        GetEntry u sort ssed d e =
          if f.2.Document = d then
            if f.2.Text = "ignore entry" then .error "Entry deleted" else .ok (parseFile u f)
          else .error "Entry not found") ∧
    ((∀ f ∈ ssed.localRepo, f.2.Entry ≠ e) →
      GetEntry u sort ssed d e = .error "Entry not found") := by
  rw [GetEntry_eq u sort hs ssed hwf hco]
  constructor
  · rintro ⟨f0, hf0, hf0e⟩
    obtain ⟨c, hc, hce⟩ := createdOrder_cover u sort hs ssed f0 hf0
    obtain ⟨f, hf, hfc⟩ := createdOrder_file u sort hs ssed c hc
    have hname : f.2.Entry = c.Entry := by rw [← hfc, parseFile_eq]; rfl
    have hdoc : f.2.Document = c.Document := by rw [← hfc, parseFile_eq]; rfl
    have htext : (parseFile u f).Text = f.2.Text := by rw [parseFile_eq]
    have heff : effDate u c = effDate u f.2 := by
      rw [← hfc, effDate_byCreated, effDate_parseFile]
    have hce2 : c.Entry = e := by rw [hce, hf0e]
    refine ⟨f, hf, by rw [hname, hce2], ?_, ?_⟩
    · intro g hg hge
      rw [← heff]
      exact createdOrder_newest u sort hs ssed c hc g hg (by rw [hge, hce2])
    · by_cases hd : c.Document = d
      · have h := docEntries_find_listed u sort hs ssed c hc
        rw [hd, hce2] at h
        rw [h, hdoc, if_pos hd, ← hfc, asStored_byCreated_parseFile, entryResult, htext]
      · have h := docEntries_find_other u sort hs ssed c hc d hd
        rw [hce2] at h
        rw [h, hdoc, if_neg hd]
        rfl
  · intro hno
    rw [docEntries_find_none u sort hs ssed d e hno]
    rfl

/-- C6, amended, on the store with an edited entry. -/
theorem C6_GetEntry_witness :
    WellFormed editedStore ∧
    ((∃ f ∈ editedStore.localRepo, f.2.Entry = "greet") →
      ∃ f ∈ editedStore.localRepo, f.2.Entry = "greet" ∧
        (∀ g ∈ editedStore.localRepo, g.2.Entry = "greet" →
          effDate exampleUtils g.2 ≤ effDate exampleUtils f.2) ∧
        GetEntry exampleUtils insertionSort editedStore "notes" "greet" =
          if f.2.Document = "notes" then
            if f.2.Text = "ignore entry" then .error "Entry deleted"
            else .ok (parseFile exampleUtils f)
          else .error "Entry not found") ∧
    ((∀ f ∈ editedStore.localRepo, f.2.Entry ≠ "greet") →
      GetEntry exampleUtils insertionSort editedStore "notes" "greet" =
        .error "Entry not found") :=
  ⟨by decide,
    C6_GetEntry exampleUtils insertionSort insertionSort_spec editedStore (by decide)
      (by decide) "notes" "greet"⟩

/-- C6, as stated, fails: the only blob named "greet" is filed under "journal" and is no
tombstone, yet `GetEntry("notes", "greet")` neither returns it nor finds a blob missing: it
fails with "Entry not found". -/
theorem C6_counterexample :
    (∃ f ∈ journalStore.localRepo, f.2.Entry = "greet" ∧ f.2.Text ≠ "ignore entry") ∧
      GetEntry exampleUtils insertionSort journalStore "notes" "greet" =
        .error "Entry not found" := by
  decide

/-! ## Update -/

theorem length_eq_zero_iff (s : String) : s.length = 0 ↔ s = "" := by
  constructor
  · intro h
    cases s with
    | mk data =>
      have : data = [] := List.length_eq_zero.1 h
      subst this; rfl
  · rintro rfl; rfl

theorem effName_of_ne (env : Env) (e : String) (he : e ≠ "") : effName env e = e := by
  unfold effName
  rw [if_neg]
  exact fun h => he ((length_eq_zero_iff e).1 h)

theorem effName_empty (env : Env) : effName env "" = env.rand := rfl

theorem Exists_iff (localRepo : GoMap Entry) (fileName : String) :
    utils.Exists localRepo fileName = true ↔ fileName ∈ localRepo.map Prod.fst := by
  unfold utils.Exists
  rw [← not_iff_not, ← GoMap.get?_eq_none]
  cases GoMap.get? localRepo fileName <;> simp

theorem entryExists_localRepo (u : Utils) (sort : List Entry → List Entry) (ssed : Fs)
    (n : String) : (entryExists u sort ssed n).2.localRepo = ssed.localRepo := by
  unfold entryExists
  cases ssed.parsed <;> simp [parseArchive_localRepo]

theorem Update_eq (u : Utils) (sort : List Entry → List Entry) (env : Env)
    (text d e ts : String) (ssed : Fs) :
    Update u sort env text d e ts ssed =
      if utils.Exists ssed.localRepo (blobFile u env text e) then (ssed, none)
      else
        ({ (entryExists u sort ssed (effName env e)).2 with
            localRepo := (utils.EncryptToFile env
              (writtenBlob u env text d e ts (entryExists u sort ssed (effName env e)).1)
              (blobFile u env text e) (entryExists u sort ssed (effName env e)).2.localRepo).1
            parsed := false },
          (utils.EncryptToFile env
            (writtenBlob u env text d e ts (entryExists u sort ssed (effName env e)).1)
            (blobFile u env text e) (entryExists u sort ssed (effName env e)).2.localRepo).2) :=
  rfl

theorem Update_exists (u : Utils) (sort : List Entry → List Entry) (env : Env)
    (text d e ts : String) (ssed : Fs)
    (h : utils.Exists ssed.localRepo (blobFile u env text e) = true) :
    Update u sort env text d e ts ssed = (ssed, none) := by
  rw [Update_eq, if_pos h]

theorem Update_written (u : Utils) (sort : List Entry → List Entry) (env : Env)
    (text d e ts : String) (ssed : Fs)
    (h : utils.Exists ssed.localRepo (blobFile u env text e) = false)
    (hw : env.writeErr = none) :
    ∃ b : Entry,
      (Update u sort env text d e ts ssed).1.localRepo =
        ssed.localRepo ++ [(blobFile u env text e, b)] ∧
      (Update u sort env text d e ts ssed).1.parsed = false ∧
      (Update u sort env text d e ts ssed).2 = none ∧
      b.Text = text ∧ b.Document = d ∧ b.Entry = effName env e ∧
      b.Timestamp = (if ts.length = 0 then env.date else u.ReFormatDate ts) ∧
      (b.ModifiedTimestamp = env.dateModified ∨ b.ModifiedTimestamp = b.Timestamp) := by
  have hnot : blobFile u env text e ∉ ssed.localRepo.map Prod.fst := by
    rw [← Exists_iff, h]; simp
  refine ⟨writtenBlob u env text d e ts (entryExists u sort ssed (effName env e)).1,
    ?_, ?_, ?_, rfl, rfl, rfl, rfl, ?_⟩
  · rw [Update_eq, h]
    simp only [Bool.false_eq_true, if_false, utils.EncryptToFile, hw, entryExists_localRepo]
    exact GoMap.set_of_not_mem _ _ _ hnot
  · rw [Update_eq, h]; rfl
  · rw [Update_eq, h]
    simp [utils.EncryptToFile, hw]
  · cases (entryExists u sort ssed (effName env e)).1
    · exact Or.inr rfl
    · exact Or.inl rfl

theorem Update_localRepo_failed (u : Utils) (sort : List Entry → List Entry) (env : Env)
    (text d e ts : String) (ssed : Fs) (err : String) (hw : env.writeErr = some err) :
    (Update u sort env text d e ts ssed).1.localRepo = ssed.localRepo := by
  rw [Update_eq]
  split
  · rfl
  · simp [utils.EncryptToFile, hw, entryExists_localRepo]

theorem Update_wf (u : Utils) (sort : List Entry → List Entry) (env : Env)
    (text d e ts : String) (ssed : Fs) (hwf : WellFormed ssed) :
    WellFormed (Update u sort env text d e ts ssed).1 := by
  cases h : utils.Exists ssed.localRepo (blobFile u env text e)
  · cases hw : env.writeErr with
    | none =>
      obtain ⟨b, hb, _⟩ := Update_written u sort env text d e ts ssed h hw
      unfold WellFormed
      rw [hb, List.map_append]
      refine List.Nodup.append hwf (List.nodup_singleton _) ?_
      have hnot : blobFile u env text e ∉ ssed.localRepo.map Prod.fst := by
        rw [← Exists_iff, h]; simp
      simpa using hnot
    | some err =>
      unfold WellFormed
      rw [Update_localRepo_failed u sort env text d e ts ssed err hw]
      exact hwf
  · rw [Update_exists u sort env text d e ts ssed h]
    exact hwf

theorem effDate_cases (u : Utils) (b : Entry) (m : String)
    (h : b.ModifiedTimestamp = m ∨ b.ModifiedTimestamp = b.Timestamp) :
    effDate u b = u.ParseDate m ∨ effDate u b = u.ParseDate b.Timestamp := by
  unfold effDate
  split
  · rcases h with h | h
    · exact Or.inl (by rw [h])
    · exact Or.inr (by rw [h])
  · exact Or.inr rfl

/-! ## A blob strictly newer than the others of its name -/

theorem createdOrder_of_strict_newest (u : Utils) (sort : List Entry → List Entry)
    (hs : SortSpec sort) (ssed : Fs) (f : String × Entry) (hf : f ∈ ssed.localRepo)
    (hstrict : ∀ g ∈ ssed.localRepo, g.2.Entry = f.2.Entry → g ≠ f →
      effDate u g.2 < effDate u f.2) :
    byCreated u (parseFile u f) ∈ createdOrder u sort ssed := by
  obtain ⟨c, hc, hce⟩ := createdOrder_cover u sort hs ssed f hf
  obtain ⟨g, hg, hgc⟩ := createdOrder_file u sort hs ssed c hc
  have hname : g.2.Entry = f.2.Entry := by
    rw [← hce, ← hgc, parseFile_eq]; rfl
  have hle := createdOrder_newest u sort hs ssed c hc f hf hce.symm
  have heff : effDate u c = effDate u g.2 := by
    rw [← hgc, effDate_byCreated, effDate_parseFile]
  by_cases hgf : g = f
  · rw [← hgf, hgc]; exact hc
  · have := hstrict g hg hname hgf
    rw [heff] at hle
    exact absurd (lt_of_le_of_lt hle this) (lt_irrefl _)

theorem GetEntry_of_strict_newest (u : Utils) (sort : List Entry → List Entry)
    (hs : SortSpec sort) (ssed : Fs) (hwf : WellFormed ssed) (hco : Coherent u sort ssed)
    (f : String × Entry) (hf : f ∈ ssed.localRepo)
    (hstrict : ∀ g ∈ ssed.localRepo, g.2.Entry = f.2.Entry → g ≠ f →
      effDate u g.2 < effDate u f.2) :
    GetEntry u sort ssed f.2.Document f.2.Entry = entryResult (some (parseFile u f)) := by
  have hc := createdOrder_of_strict_newest u sort hs ssed f hf hstrict
  have h := docEntries_find_listed u sort hs ssed _ hc
  rw [asStored_byCreated_parseFile] at h
  have h1 : (byCreated u (parseFile u f)).Document = f.2.Document := by
    rw [parseFile_eq]; rfl
  have h2 : (byCreated u (parseFile u f)).Entry = f.2.Entry := by
    rw [parseFile_eq]; rfl
  rw [h1, h2] at h
  rw [GetEntry_eq u sort hs ssed hwf hco, h]

theorem coherent_of_not_parsed (u : Utils) (sort : List Entry → List Entry) (ssed : Fs)
    (h : ssed.parsed = false) : Coherent u sort ssed := by
  intro h2; rw [h] at h2; cases h2

theorem mem_written (l : GoMap Entry) (f g : String × Entry) (hg : g ∈ l ++ [f])
    (hne : g ≠ f) : g ∈ l := by
  rcases List.mem_append.1 hg with h | h
  · exact h
  · exact absurd (List.mem_singleton.1 h) hne

/-- C1, amended. Last-writer-wins holds when the second `Update` really writes: for every
store state, document `d`, non-empty entry name `e`, texts `T1` and `T2` (`T2` not the
"ignore entry" sentinel) and timestamp `t1`, after `Update(T1, d, e, t1)` followed by
`Update(T2, d, e, "")`, if no file with the content address of `(T2, e)` is in the store
before the second call, its write succeeds, and its clock readings are strictly later than
the modified time of every blob named `e` then in the store, `GetEntry(d, e)` succeeds and
returns an entry whose text is `T2`. -/
theorem C1_last_writer_wins (u : Utils) (sort : List Entry → List Entry) (hs : SortSpec sort)
    (ssed : Fs) (hwf : WellFormed ssed) (env1 env2 : Env) (T1 T2 d e t1 : String)
    (he : e ≠ "") (hT2 : T2 ≠ "ignore entry")
    (hfresh : utils.Exists (Update u sort env1 T1 d e t1 ssed).1.localRepo
      (u.HashAndHex (T2 ++ e) ++ ".json") = false)
    (hw : env2.writeErr = none)
    (hlate : ∀ f ∈ (Update u sort env1 T1 d e t1 ssed).1.localRepo, f.2.Entry = e →
      effDate u f.2 < u.ParseDate env2.date ∧ effDate u f.2 < u.ParseDate env2.dateModified) :
    ∃ x, GetEntry u sort
        (Update u sort env2 T2 d e "" (Update u sort env1 T1 d e t1 ssed).1).1 d e = .ok x ∧
      x.Text = T2 := by
  have hwf1 := Update_wf u sort env1 T1 d e t1 ssed hwf
  generalize (Update u sort env1 T1 d e t1 ssed).1 = s1 at hfresh hlate hwf1 ⊢
  have hfile : blobFile u env2 T2 e = u.HashAndHex (T2 ++ e) ++ ".json" := by
    rw [blobFile, effName_of_ne env2 e he]
  rw [← hfile] at hfresh
  obtain ⟨b, hrepo, hparsed, _, htext, hdoc, hname, hts, hmod⟩ :=
    Update_written u sort env2 T2 d e "" s1 hfresh hw
  have hwf2 := Update_wf u sort env2 T2 d e "" s1 hwf1
  rw [effName_of_ne env2 e he] at hname
  have hts2 : b.Timestamp = env2.date := by rw [hts]; rfl
  have heff : effDate u b = u.ParseDate env2.dateModified ∨
      effDate u b = u.ParseDate env2.date := by
    have := effDate_cases u b env2.dateModified hmod
    rw [hts2] at this
    exact this
  have hmem : (blobFile u env2 T2 e, b) ∈ (Update u sort env2 T2 d e "" s1).1.localRepo := by
    rw [hrepo]; simp
  have hstrict : ∀ g ∈ (Update u sort env2 T2 d e "" s1).1.localRepo,
      g.2.Entry = (blobFile u env2 T2 e, b).2.Entry → g ≠ (blobFile u env2 T2 e, b) →
      effDate u g.2 < effDate u (blobFile u env2 T2 e, b).2 := by
    intro g hg hgn hne
    rw [hrepo] at hg
    have hg1 := mem_written _ _ _ hg hne
    have := hlate g hg1 (by rw [hgn]; exact hname)
    rcases heff with h | h
    · show effDate u g.2 < effDate u b
      rw [h]; exact this.2
    · show effDate u g.2 < effDate u b
      rw [h]; exact this.1
  have hget := GetEntry_of_strict_newest u sort hs _ hwf2
    (coherent_of_not_parsed u sort _ hparsed) _ hmem hstrict
  refine ⟨parseFile u (blobFile u env2 T2 e, b), ?_, ?_⟩
  · have h1 : (blobFile u env2 T2 e, b).2.Document = d := hdoc
    have h2 : (blobFile u env2 T2 e, b).2.Entry = e := hname
    rw [h1, h2] at hget
    rw [hget, entryResult]
    have : (parseFile u (blobFile u env2 T2 e, b)).Text = T2 := by
      rw [parseFile_eq]; exact htext
    rw [this, if_neg hT2]
  · rw [parseFile_eq]; exact htext

/-- C1, amended, on the store that holds "hello": "hi" is written on the second day and "hey" on
the third. -/
theorem C1_last_writer_wins_witness :
    exampleParseDate "2023-01-02 10:00:00" < exampleParseDate "2023-01-03 10:00:00" ∧
    ∃ x, GetEntry exampleUtils insertionSort
        (Update exampleUtils insertionSort (exampleEnv "2023-01-03 10:00:00" "XVlBzgbaiC")
          "hey" "notes" "greet" ""
          (Update exampleUtils insertionSort (exampleEnv "2023-01-02 10:00:00" "XVlBzgbaiC")
            "hi" "notes" "greet" "2023-01-02 10:00:00" helloStore).1).1 "notes" "greet" =
          .ok x ∧
      x.Text = "hey" :=
  ⟨by decide,
    C1_last_writer_wins exampleUtils insertionSort insertionSort_spec helloStore (by decide)
      (exampleEnv "2023-01-02 10:00:00" "XVlBzgbaiC")
      (exampleEnv "2023-01-03 10:00:00" "XVlBzgbaiC") "hi" "hey" "notes" "greet"
      "2023-01-02 10:00:00" (by decide) (by decide) (by decide) rfl (by decide)⟩

/-- C1, as stated, fails: in the store that holds "hello" for the entry "greet", after
`Update("hi", "notes", "greet", t1)` and then `Update("hello", "notes", "greet", "")` at a
clock time strictly later than `t1`, the file of ("hello", "greet") exists already, the
second call writes nothing, and `GetEntry("notes", "greet")` returns the text "hi". -/
theorem C1_counterexample :
    exampleParseDate "2023-01-02 10:00:00" < exampleParseDate "2023-01-03 10:00:00" ∧
    GetEntry exampleUtils insertionSort
        (Update exampleUtils insertionSort (exampleEnv "2023-01-03 10:00:00" "XVlBzgbaiC")
          "hello" "notes" "greet" ""
          (Update exampleUtils insertionSort (exampleEnv "2023-01-02 10:00:00" "XVlBzgbaiC")
            "hi" "notes" "greet" "2023-01-02 10:00:00" helloStore).1).1 "notes" "greet" =
      .ok
        { Text := "hi", Timestamp := "2023-01-02 10:00:00",
          ModifiedTimestamp := "2023-01-02 10:00:00", Document := "notes", Entry := "greet",
          datetime := 2, uuid := "higreet.json" } := by
  decide

theorem Update_failed (u : Utils) (sort : List Entry → List Entry) (env : Env)
    (text d e ts : String) (ssed : Fs)
    (h : utils.Exists ssed.localRepo (blobFile u env text e) = false) (err : String)
    (hw : env.writeErr = some err) : (Update u sort env text d e ts ssed).2 = some err := by
  rw [Update_eq, h]
  simp [utils.EncryptToFile, hw]

theorem Update_ok_exists (u : Utils) (sort : List Entry → List Entry) (env : Env)
    (text d e ts : String) (ssed : Fs) (h : (Update u sort env text d e ts ssed).2 = none) :
    utils.Exists (Update u sort env text d e ts ssed).1.localRepo (blobFile u env text e) =
      true := by
  cases hex : utils.Exists ssed.localRepo (blobFile u env text e)
  · cases hw : env.writeErr with
    | none =>
      obtain ⟨b, hb, _⟩ := Update_written u sort env text d e ts ssed hex hw
      rw [Exists_iff, hb]
      simp
    | some err =>
      rw [Update_failed u sort env text d e ts ssed hex err hw] at h
      cases h
  · rw [Update_exists u sort env text d e ts ssed hex]
    exact hex

theorem blobFile_congr (u : Utils) (env1 env2 : Env) (text e : String)
    (h : e ≠ "" ∨ env1.rand = env2.rand) : blobFile u env2 text e = blobFile u env1 text e := by
  unfold blobFile effName
  rcases h with h | h
  · have : ¬ e.length = 0 := fun h2 => h ((length_eq_zero_iff e).1 h2)
    simp [this]
  · rw [h]

/-- C2, amended. Writes are idempotent for a fixed entry name: for every store state and
every (text, document, entry, timestamp) with a non-empty entry (or an empty one for which
both calls draw the same random name), if the first `Update` returns success, a second
`Update` with the same arguments returns success and leaves the store as it is (it adds no
blob and changes none), and exactly one file of the directory carries their content
address. -/
theorem C2_idempotent (u : Utils) (sort : List Entry → List Entry) (env1 env2 : Env)
    (text d e ts : String) (ssed : Fs) (hwf : WellFormed ssed)
    (hname : e ≠ "" ∨ env1.rand = env2.rand)
    (h1 : (Update u sort env1 text d e ts ssed).2 = none) :
    Update u sort env2 text d e ts (Update u sort env1 text d e ts ssed).1 =
        ((Update u sort env1 text d e ts ssed).1, none) ∧
      ((Update u sort env1 text d e ts ssed).1.localRepo.map Prod.fst).count
        (blobFile u env1 text e) = 1 := by
  have hex := Update_ok_exists u sort env1 text d e ts ssed h1
  have hwf1 := Update_wf u sort env1 text d e ts ssed hwf
  constructor
  · apply Update_exists
    rw [blobFile_congr u env1 env2 text e hname]
    exact hex
  · exact List.count_eq_one_of_mem hwf1 ((Exists_iff _ _).1 hex)

/-- C2, amended, on the store that holds "hello": the edit "hi" of "greet" is written twice. -/
theorem C2_idempotent_witness :
    (Update exampleUtils insertionSort (exampleEnv "2023-01-02 10:00:00" "XVlBzgbaiC")
      "hi" "notes" "greet" "" helloStore).2 = none ∧
    Update exampleUtils insertionSort (exampleEnv "2023-01-03 10:00:00" "MRAjWwhTHc")
        "hi" "notes" "greet" ""
        (Update exampleUtils insertionSort (exampleEnv "2023-01-02 10:00:00" "XVlBzgbaiC")
          "hi" "notes" "greet" "" helloStore).1 =
      ((Update exampleUtils insertionSort (exampleEnv "2023-01-02 10:00:00" "XVlBzgbaiC")
          "hi" "notes" "greet" "" helloStore).1, none) ∧
    ((Update exampleUtils insertionSort (exampleEnv "2023-01-02 10:00:00" "XVlBzgbaiC")
        "hi" "notes" "greet" "" helloStore).1.localRepo.map Prod.fst).count
      (blobFile exampleUtils (exampleEnv "2023-01-02 10:00:00" "XVlBzgbaiC") "hi" "greet") =
        1 :=
  ⟨by decide,
    C2_idempotent exampleUtils insertionSort (exampleEnv "2023-01-02 10:00:00" "XVlBzgbaiC")
      (exampleEnv "2023-01-03 10:00:00" "MRAjWwhTHc") "hi" "notes" "greet" "" helloStore
      (by decide) (Or.inl (by decide)) (by decide)⟩

/-- C2, as stated, fails for an empty entry: two successive calls of
`Update("todo", "notes", "", "")` draw two random entry names and leave two blobs. -/
theorem C2_counterexample :
    (Update exampleUtils insertionSort (exampleEnv "2023-01-01 10:00:00" "MRAjWwhTHc")
        "todo" "notes" "" ""
        (Update exampleUtils insertionSort (exampleEnv "2023-01-01 10:00:00" "XVlBzgbaiC")
          "todo" "notes" "" "" emptyStore).1).1.localRepo =
      [("todoXVlBzgbaiC.json",
        blob "todo" "notes" "XVlBzgbaiC" "2023-01-01 10:00:00" "2023-01-01 10:00:00"),
       ("todoMRAjWwhTHc.json",
        blob "todo" "notes" "MRAjWwhTHc" "2023-01-01 10:00:00" "2023-01-01 10:00:00")] := by
  decide

/-! ## Tombstones -/

theorem docEntries_of_strict_newest (u : Utils) (sort : List Entry → List Entry)
    (hs : SortSpec sort) (ssed : Fs) (f : String × Entry) (hf : f ∈ ssed.localRepo)
    (hstrict : ∀ g ∈ ssed.localRepo, g.2.Entry = f.2.Entry → g ≠ f →
      effDate u g.2 < effDate u f.2) :
    parseFile u f ∈ docEntries u sort ssed f.2.Document ∧
      ∀ d x, x ∈ docEntries u sort ssed d → x.Entry = f.2.Entry → x = parseFile u f := by
  have hc := createdOrder_of_strict_newest u sort hs ssed f hf hstrict
  constructor
  · refine (docEntries_mem u sort ssed _ _).2 ⟨_, hc, ?_, asStored_byCreated_parseFile u f⟩
    rw [parseFile_eq]; rfl
  · intro d x hx hname
    obtain ⟨c, hc2, _, rfl⟩ := (docEntries_mem u sort ssed d x).1 hx
    have hn : c.Entry = (byCreated u (parseFile u f)).Entry := by
      rw [parseFile_eq]; exact hname
    have : c = byCreated u (parseFile u f) :=
      List.inj_on_of_nodup_map (createdOrder_names_nodup u sort hs ssed) hc2 hc hn
    rw [this, asStored_byCreated_parseFile]

theorem not_mem_ListDocuments (u : Utils) (sort : List Entry → List Entry)
    (hs : SortSpec sort) (ssed : Fs) (hwf : WellFormed ssed) (hco : Coherent u sort ssed)
    (d : String) (x : Entry) (hx : x ∈ docEntries u sort ssed d)
    (ht : x.Text = "ignore document") : d ∉ ListDocuments u sort ssed := by
  rw [ListDocuments_eq u sort ssed hco, (sortStrings_perm _).mem_iff, List.mem_map]
  rintro ⟨kv, hkv, rfl⟩
  rw [List.mem_filter, ignoring_eq, ids_map_get u sort hs ssed hwf] at hkv
  have : (docEntries u sort ssed kv.1).any (fun e => e.Text == "ignore document") = true := by
    rw [List.any_eq_true]
    exact ⟨x, hx, by simp [ht]⟩
  rw [this] at hkv
  simp at hkv

theorem DeleteEntry_localRepo (u : Utils) (sort : List Entry → List Entry) (env : Env)
    (d e : String) (ssed : Fs) :
    (DeleteEntry u sort env d e ssed).localRepo =
      (Update u sort env "ignore entry" d e "" ssed).1.localRepo := rfl

theorem DeleteDocument_localRepo (u : Utils) (sort : List Entry → List Entry) (env : Env)
    (d : String) (ssed : Fs) :
    (DeleteDocument u sort env d ssed).localRepo =
      (Update u sort env "ignore document" d "" "" ssed).1.localRepo := rfl

/-- C8, amended. `DeleteEntry` deletes when it really writes its tombstone: for every store
state, document `d` and non-empty entry name `e`, if no file with the content address of
("ignore entry", `e`) is in the store, the write succeeds, and the clock readings of the
call are strictly later than the modified time of every blob in the store, then after
`DeleteEntry(d, e)` the call `GetEntry(d, e)` fails with "Entry deleted" and
`GetDocument(d)` contains no entry named `e`. -/
theorem C8_DeleteEntry (u : Utils) (sort : List Entry → List Entry) (hs : SortSpec sort)
    (ssed : Fs) (hwf : WellFormed ssed) (env : Env) (d e : String) (he : e ≠ "")
    (hfresh : utils.Exists ssed.localRepo (u.HashAndHex ("ignore entry" ++ e) ++ ".json") =
      false)
    (hw : env.writeErr = none)
    (hlate : ∀ f ∈ ssed.localRepo,
      effDate u f.2 < u.ParseDate env.date ∧ effDate u f.2 < u.ParseDate env.dateModified) :
    GetEntry u sort (DeleteEntry u sort env d e ssed) d e = .error "Entry deleted" ∧
      ∀ x ∈ GetDocument u sort (DeleteEntry u sort env d e ssed) d, x.Entry ≠ e := by
  have hfile : blobFile u env "ignore entry" e = u.HashAndHex ("ignore entry" ++ e) ++ ".json" := by
    rw [blobFile, effName_of_ne env e he]
  rw [← hfile] at hfresh
  obtain ⟨b, hrepo, _, _, htext, hdoc, hname, hts, hmod⟩ :=
    Update_written u sort env "ignore entry" d e "" ssed hfresh hw
  rw [effName_of_ne env e he] at hname
  have hwf2 : WellFormed (DeleteEntry u sort env d e ssed) :=
    Update_wf u sort env "ignore entry" d e "" ssed hwf
  have hco2 : Coherent u sort (DeleteEntry u sort env d e ssed) :=
    coherent_of_not_parsed u sort _ rfl
  have hts2 : b.Timestamp = env.date := by rw [hts]; rfl
  have heff : effDate u b = u.ParseDate env.dateModified ∨
      effDate u b = u.ParseDate env.date := by
    have := effDate_cases u b env.dateModified hmod
    rw [hts2] at this
    exact this
  have hmem : (blobFile u env "ignore entry" e, b) ∈
      (DeleteEntry u sort env d e ssed).localRepo := by
    rw [DeleteEntry_localRepo, hrepo]; simp
  have hstrict : ∀ g ∈ (DeleteEntry u sort env d e ssed).localRepo,
      g.2.Entry = (blobFile u env "ignore entry" e, b).2.Entry →
      g ≠ (blobFile u env "ignore entry" e, b) →
      effDate u g.2 < effDate u (blobFile u env "ignore entry" e, b).2 := by
    intro g hg _ hne
    rw [DeleteEntry_localRepo, hrepo] at hg
    have := hlate g (mem_written _ _ _ hg hne)
    rcases heff with h | h
    · show effDate u g.2 < effDate u b
      rw [h]; exact this.2
    · show effDate u g.2 < effDate u b
      rw [h]; exact this.1
  have htext2 : (parseFile u (blobFile u env "ignore entry" e, b)).Text = "ignore entry" := by
    rw [parseFile_eq]; exact htext
  constructor
  · have hget := GetEntry_of_strict_newest u sort hs _ hwf2 hco2 _ hmem hstrict
    have h1 : (blobFile u env "ignore entry" e, b).2.Document = d := hdoc
    have h2 : (blobFile u env "ignore entry" e, b).2.Entry = e := hname
    rw [h1, h2] at hget
    rw [hget, entryResult, htext2, if_pos rfl]
  · intro x hx hxe
    rw [GetDocument_eq u sort hs _ hwf2 hco2] at hx
    split at hx
    · simp at hx
    · rw [List.mem_filter] at hx
      have := (docEntries_of_strict_newest u sort hs _ _ hmem hstrict).2 d x hx.1
        (by rw [hxe]; exact hname.symm)
      rw [this, htext2] at hx
      simp at hx

/-- C8, amended, on the store with an edited entry: "greet" is deleted on the third day. -/
theorem C8_DeleteEntry_witness :
    GetEntry exampleUtils insertionSort
        (DeleteEntry exampleUtils insertionSort (exampleEnv "2023-01-03 10:00:00" "XVlBzgbaiC")
          "notes" "greet" editedStore) "notes" "greet" = .error "Entry deleted" ∧
      ∀ x ∈ GetDocument exampleUtils insertionSort
        (DeleteEntry exampleUtils insertionSort (exampleEnv "2023-01-03 10:00:00" "XVlBzgbaiC")
          "notes" "greet" editedStore) "notes", x.Entry ≠ "greet" :=
  C8_DeleteEntry exampleUtils insertionSort insertionSort_spec editedStore (by decide)
    (exampleEnv "2023-01-03 10:00:00" "XVlBzgbaiC") "notes" "greet" (by decide) (by decide)
    rfl (by decide)

/-- C8, as stated, fails: in a store where the entry "greet" was written, deleted and
written again, `GetEntry("notes", "greet")` succeeds; `DeleteEntry("notes", "greet")` at a
clock time later than every timestamp of the store finds the file of its tombstone in place,
writes nothing, and `GetEntry("notes", "greet")` succeeds as before. -/
theorem C8_counterexample :
    (∀ f ∈ recreatedStore.localRepo,
      exampleParseDate f.2.Timestamp < exampleParseDate "2023-01-04 10:00:00" ∧
        exampleParseDate f.2.ModifiedTimestamp < exampleParseDate "2023-01-04 10:00:00") ∧
    GetEntry exampleUtils insertionSort recreatedStore "notes" "greet" =
      .ok (parseFile exampleUtils ("hello againgreet.json",
        blob "hello again" "notes" "greet" "2023-01-03 10:00:00" "2023-01-03 10:00:00")) ∧
    GetEntry exampleUtils insertionSort
        (DeleteEntry exampleUtils insertionSort (exampleEnv "2023-01-04 10:00:00" "XVlBzgbaiC")
          "notes" "greet" recreatedStore) "notes" "greet" =
      .ok (parseFile exampleUtils ("hello againgreet.json",
        blob "hello again" "notes" "greet" "2023-01-03 10:00:00" "2023-01-03 10:00:00")) := by
  decide

/-- C9. For every store state and document `d`, after `DeleteDocument(d)` has written its
tombstone (the file was not there, the write succeeded, and the generated random entry name
is the name of no blob of the store), `ListDocuments()` does not contain `d` and
`GetDocument(d)` returns the empty list. -/
theorem C9_DeleteDocument (u : Utils) (sort : List Entry → List Entry) (hs : SortSpec sort)
    (ssed : Fs) (hwf : WellFormed ssed) (env : Env) (d : String)
    (hunused : ∀ f ∈ ssed.localRepo, f.2.Entry ≠ env.rand)
    (hfresh : utils.Exists ssed.localRepo
      (u.HashAndHex ("ignore document" ++ env.rand) ++ ".json") = false)
    (hw : env.writeErr = none) :
    d ∉ ListDocuments u sort (DeleteDocument u sort env d ssed) ∧
      GetDocument u sort (DeleteDocument u sort env d ssed) d = [] := by
  have hfile : blobFile u env "ignore document" "" =
      u.HashAndHex ("ignore document" ++ env.rand) ++ ".json" := rfl
  rw [← hfile] at hfresh
  obtain ⟨b, hrepo, _, _, htext, hdoc, hname, _, _⟩ :=
    Update_written u sort env "ignore document" d "" "" ssed hfresh hw
  rw [effName_empty] at hname
  have hwf2 : WellFormed (DeleteDocument u sort env d ssed) :=
    Update_wf u sort env "ignore document" d "" "" ssed hwf
  have hco2 : Coherent u sort (DeleteDocument u sort env d ssed) :=
    coherent_of_not_parsed u sort _ rfl
  have hmem : (blobFile u env "ignore document" "", b) ∈
      (DeleteDocument u sort env d ssed).localRepo := by
    rw [DeleteDocument_localRepo, hrepo]; simp
  have hstrict : ∀ g ∈ (DeleteDocument u sort env d ssed).localRepo,
      g.2.Entry = (blobFile u env "ignore document" "", b).2.Entry →
      g ≠ (blobFile u env "ignore document" "", b) →
      effDate u g.2 < effDate u (blobFile u env "ignore document" "", b).2 := by
    intro g hg hgn hne
    rw [DeleteDocument_localRepo, hrepo] at hg
    exact absurd (hgn.trans hname) (hunused g (mem_written _ _ _ hg hne))
  have hin := (docEntries_of_strict_newest u sort hs _ _ hmem hstrict).1
  have hd : (blobFile u env "ignore document" "", b).2.Document = d := hdoc
  rw [hd] at hin
  have htext2 : (parseFile u (blobFile u env "ignore document" "", b)).Text =
      "ignore document" := by
    rw [parseFile_eq]; exact htext
  constructor
  · exact not_mem_ListDocuments u sort hs _ hwf2 hco2 d _ hin htext2
  · rw [GetDocument_eq u sort hs _ hwf2 hco2, if_pos]
    rw [List.any_eq_true]
    exact ⟨_, hin, by simp [htext2]⟩

/-- C9 on the store that holds "hello": "notes" is listed before and not after. -/
theorem C9_DeleteDocument_witness :
    "notes" ∈ ListDocuments exampleUtils insertionSort helloStore ∧
    "notes" ∉ ListDocuments exampleUtils insertionSort
        (DeleteDocument exampleUtils insertionSort
          (exampleEnv "2023-01-02 10:00:00" "XVlBzgbaiC") "notes" helloStore) ∧
      GetDocument exampleUtils insertionSort
        (DeleteDocument exampleUtils insertionSort
          (exampleEnv "2023-01-02 10:00:00" "XVlBzgbaiC") "notes" helloStore) "notes" = [] :=
  ⟨by decide,
    C9_DeleteDocument exampleUtils insertionSort insertionSort_spec helloStore (by decide)
      (exampleEnv "2023-01-02 10:00:00" "XVlBzgbaiC") "notes" (by decide) (by decide) rfl⟩

/-! ## Views that the blobs determine -/

theorem docEntries_nodup (u : Utils) (sort : List Entry → List Entry) (hs : SortSpec sort)
    (ssed : Fs) (d : String) : (docEntries u sort ssed d).Nodup :=
  List.Nodup.of_map _ (docEntries_names_nodup u sort hs ssed d)

theorem docEntries_mem_iff (u : Utils) (sort : List Entry → List Entry) (hs : SortSpec sort)
    (ssed : Fs) (d : String) (x : Entry)
    (hmod : ∀ f ∈ ssed.localRepo, f.2.Document = d → ∀ g ∈ ssed.localRepo,
      g.2.Entry = f.2.Entry → effDate u g.2 = effDate u f.2 → g = f) :
    x ∈ docEntries u sort ssed d ↔
      ∃ f ∈ ssed.localRepo, f.2.Document = d ∧ parseFile u f = x ∧
        ∀ g ∈ ssed.localRepo, g.2.Entry = f.2.Entry → effDate u g.2 ≤ effDate u f.2 := by
  constructor
  · intro hx
    obtain ⟨c, hc, hdoc, rfl⟩ := (docEntries_mem u sort ssed d x).1 hx
    obtain ⟨f, hf, rfl⟩ := createdOrder_file u sort hs ssed c hc
    refine ⟨f, hf, ?_, (asStored_byCreated_parseFile u f).symm, ?_⟩
    · rw [← hdoc, parseFile_eq]; rfl
    · intro g hg hgn
      have := createdOrder_newest u sort hs ssed _ hc g hg (by rw [hgn, parseFile_eq]; rfl)
      rwa [effDate_byCreated, effDate_parseFile] at this
  · rintro ⟨f, hf, hdoc, rfl, hnew⟩
    have hstrict : ∀ g ∈ ssed.localRepo, g.2.Entry = f.2.Entry → g ≠ f →
        effDate u g.2 < effDate u f.2 := by
      intro g hg hgn hne
      exact lt_of_le_of_ne (hnew g hg hgn) (fun h => hne (hmod f hf hdoc g hg hgn h))
    have := (docEntries_of_strict_newest u sort hs ssed f hf hstrict).1
    rwa [hdoc] at this

theorem eq_of_key_sorted {α : Type} (key : α → Int) (l1 l2 : List α)
    (hnd1 : l1.Nodup) (hnd2 : l2.Nodup) (hmem : ∀ x, x ∈ l1 ↔ x ∈ l2)
    (hs1 : l1.Pairwise (fun a b => key a ≤ key b))
    (hs2 : l2.Pairwise (fun a b => key a ≤ key b))
    (hinj : ∀ x ∈ l2, ∀ y ∈ l2, key x = key y → x = y) : l1 = l2 := by
  have hperm : l1.Perm l2 := (List.perm_ext_iff_of_nodup hnd1 hnd2).2 hmem
  have strict : ∀ l : List α, l.Nodup → (∀ x, x ∈ l → x ∈ l2) →
      l.Pairwise (fun a b => key a ≤ key b) → l.Pairwise (fun a b => key a < key b) := by
    intro l hnd hsub hs
    have h2 := hs.and hnd
    refine List.Pairwise.imp_of_mem ?_ h2
    intro a b ha hb hab
    exact lt_of_le_of_ne hab.1 (fun h => hab.2 (hinj a (hsub a ha) b (hsub b hb) h))
  have h1 := strict l1 hnd1 (fun x hx => (hmem x).1 hx) hs1
  have h2 := strict l2 hnd2 (fun x hx => hx) hs2
  haveI : IsAntisymm α (fun a b => key a < key b) :=
    ⟨fun a b hab hba => absurd hab (not_lt_of_lt hba)⟩
  exact List.eq_of_perm_of_sorted hperm h1 h2

theorem docEntries_append_other (u : Utils) (sort : List Entry → List Entry)
    (hs : SortSpec sort) (s1 s2 : Fs) (file : String) (b : Entry) (d : String)
    (hrepo : s2.localRepo = s1.localRepo ++ [(file, b)]) (hdoc : b.Document ≠ d)
    (hname : ∀ f ∈ s1.localRepo, f.2.Document = d → f.2.Entry ≠ b.Entry)
    (hmod : ∀ f ∈ s1.localRepo, f.2.Document = d → ∀ g ∈ s1.localRepo,
      g.2.Entry = f.2.Entry → effDate u g.2 = effDate u f.2 → g = f)
    (hcre : ∀ f ∈ s1.localRepo, ∀ g ∈ s1.localRepo, f.2.Document = d → g.2.Document = d →
      u.ParseDate f.2.Timestamp = u.ParseDate g.2.Timestamp → f = g) :
    docEntries u sort s2 d = docEntries u sort s1 d := by
  have hold : ∀ f ∈ s2.localRepo, f.2.Document = d → f ∈ s1.localRepo := by
    intro f hf hfd
    rw [hrepo] at hf
    exact mem_written _ _ _ hf (fun h => hdoc (by rw [← hfd, h]))
  have hsame : ∀ f ∈ s1.localRepo, f.2.Document = d → ∀ g ∈ s2.localRepo,
      g.2.Entry = f.2.Entry → g ∈ s1.localRepo := by
    intro f hf hfd g hg hgn
    rw [hrepo] at hg
    exact mem_written _ _ _ hg (fun h => hname f hf hfd (by rw [← hgn, h]))
  have hmod2 : ∀ f ∈ s2.localRepo, f.2.Document = d → ∀ g ∈ s2.localRepo,
      g.2.Entry = f.2.Entry → effDate u g.2 = effDate u f.2 → g = f := by
    intro f hf hfd g hg hgn heq
    have hf1 := hold f hf hfd
    exact hmod f hf1 hfd g (hsame f hf1 hfd g hg hgn) hgn heq
  apply eq_of_key_sorted (fun x : Entry => u.ParseDate x.Timestamp)
  · exact docEntries_nodup u sort hs s2 d
  · exact docEntries_nodup u sort hs s1 d
  · intro x
    rw [docEntries_mem_iff u sort hs s2 d x hmod2, docEntries_mem_iff u sort hs s1 d x hmod]
    constructor
    · rintro ⟨f, hf, hfd, hx, hnew⟩
      refine ⟨f, hold f hf hfd, hfd, hx, ?_⟩
      intro g hg hgn
      exact hnew g (by rw [hrepo]; exact List.mem_append_left _ hg) hgn
    · rintro ⟨f, hf, hfd, hx, hnew⟩
      refine ⟨f, by rw [hrepo]; exact List.mem_append_left _ hf, hfd, hx, ?_⟩
      intro g hg hgn
      exact hnew g (hsame f hf hfd g hg hgn) hgn
  · exact docEntries_sorted u sort hs s2 d
  · exact docEntries_sorted u sort hs s1 d
  · intro x hx y hy hkey
    obtain ⟨f, hf, hfd, rfl, _⟩ := (docEntries_mem_iff u sort hs s1 d x hmod).1 hx
    obtain ⟨g, hg, hgd, rfl, _⟩ := (docEntries_mem_iff u sort hs s1 d y hmod).1 hy
    have hk : u.ParseDate f.2.Timestamp = u.ParseDate g.2.Timestamp := by
      rw [parseFile_eq, parseFile_eq] at hkey; exact hkey
    rw [hcre f hf g hg hfd hgd hk]

/-- C7, amended. Entries are identified by their entry name alone. For every store state,
documents `d1 ≠ d2`, entry name `e`, text and timestamp, a successful
`Update(text, d2, e, ts)` leaves the results of `GetDocument(d1)` and of `GetEntry(d1, x)`
for every `x` unchanged, provided no blob filed under `d1` carries the entry name of the
call (the generated name when `e` is empty) and the blobs determine the view of `d1`: no
blob under `d1` has the same modified time as another blob of its entry name, and no two
blobs under `d1` have the same created time. -/
theorem C7_other_document (u : Utils) (sort : List Entry → List Entry) (hs : SortSpec sort)
    (ssed : Fs) (hwf : WellFormed ssed) (hco : Coherent u sort ssed) (env : Env)
    (text d1 d2 e ts : String) (hd : d1 ≠ d2)
    (hok : (Update u sort env text d2 e ts ssed).2 = none)
    (hname : ∀ f ∈ ssed.localRepo, f.2.Document = d1 → f.2.Entry ≠ effName env e)
    (hmod : ∀ f ∈ ssed.localRepo, f.2.Document = d1 → ∀ g ∈ ssed.localRepo,
      g.2.Entry = f.2.Entry → effDate u g.2 = effDate u f.2 → g = f)
    (hcre : ∀ f ∈ ssed.localRepo, ∀ g ∈ ssed.localRepo, f.2.Document = d1 →
      g.2.Document = d1 → u.ParseDate f.2.Timestamp = u.ParseDate g.2.Timestamp → f = g) :
    GetDocument u sort (Update u sort env text d2 e ts ssed).1 d1 = GetDocument u sort ssed d1 ∧
      ∀ x, GetEntry u sort (Update u sort env text d2 e ts ssed).1 d1 x =
        GetEntry u sort ssed d1 x := by
  cases hex : utils.Exists ssed.localRepo (blobFile u env text e)
  · cases hw : env.writeErr with
    | some err =>
      rw [Update_failed u sort env text d2 e ts ssed hex err hw] at hok
      cases hok
    | none =>
      obtain ⟨b, hrepo, hparsed, _, _, hdoc, hbn, _, _⟩ :=
        Update_written u sort env text d2 e ts ssed hex hw
      have hwf2 := Update_wf u sort env text d2 e ts ssed hwf
      have hco2 := coherent_of_not_parsed u sort _ hparsed
      have hdocs := docEntries_append_other u sort hs ssed _ _ b d1 hrepo
        (by rw [hdoc]; exact fun h => hd h.symm) (by rw [hbn]; exact hname) hmod hcre
      constructor
      · rw [GetDocument_eq u sort hs _ hwf2 hco2, GetDocument_eq u sort hs _ hwf hco, hdocs]
      · intro x
        rw [GetEntry_eq u sort hs _ hwf2 hco2, GetEntry_eq u sort hs _ hwf hco, hdocs]
  · rw [Update_exists u sort env text d2 e ts ssed hex]
    exact ⟨rfl, fun _ => rfl⟩

/-- C7, amended: an entry written to "shopping" leaves "notes" as it was. -/
theorem C7_other_document_witness :
    GetDocument exampleUtils insertionSort
        (Update exampleUtils insertionSort (exampleEnv "2023-01-03 10:00:00" "XVlBzgbaiC")
          "bread" "shopping" "list" "" editedStore).1 "notes" =
      GetDocument exampleUtils insertionSort editedStore "notes" ∧
    ∀ x, GetEntry exampleUtils insertionSort
        (Update exampleUtils insertionSort (exampleEnv "2023-01-03 10:00:00" "XVlBzgbaiC")
          "bread" "shopping" "list" "" editedStore).1 "notes" x =
      GetEntry exampleUtils insertionSort editedStore "notes" x :=
  C7_other_document exampleUtils insertionSort insertionSort_spec editedStore (by decide)
    (by decide) (exampleEnv "2023-01-03 10:00:00" "XVlBzgbaiC") "bread" "notes" "shopping"
    "list" "" (by decide) (by decide) (by decide) (by decide) (by decide)

/-- C7, as stated, fails: with "greet" filed under "notes", the successful
`Update("moved", "journal", "greet", "")` into another document takes the entry out of
"notes": `GetEntry("notes", "greet")` turns from the entry into "Entry not found" and
`GetDocument("notes")` from one entry into none. -/
theorem C7_counterexample :
    (Update exampleUtils insertionSort (exampleEnv "2023-01-02 10:00:00" "XVlBzgbaiC")
      "moved" "journal" "greet" "" helloStore).2 = none ∧
    GetEntry exampleUtils insertionSort helloStore "notes" "greet" =
      .ok (parseFile exampleUtils ("hellogreet.json",
        blob "hello" "notes" "greet" "2023-01-01 10:00:00" "2023-01-01 10:00:00")) ∧
    GetEntry exampleUtils insertionSort
        (Update exampleUtils insertionSort (exampleEnv "2023-01-02 10:00:00" "XVlBzgbaiC")
          "moved" "journal" "greet" "" helloStore).1 "notes" "greet" =
      .error "Entry not found" ∧
    (GetDocument exampleUtils insertionSort helloStore "notes").length = 1 ∧
    GetDocument exampleUtils insertionSort
        (Update exampleUtils insertionSort (exampleEnv "2023-01-02 10:00:00" "XVlBzgbaiC")
          "moved" "journal" "greet" "" helloStore).1 "notes" = [] := by
  decide

/-! ## DumpAll -/

theorem GoMap.set_set {β : Type} (m : GoMap β) (k : String) (v w : β) :
    GoMap.set (GoMap.set m k v) k w = GoMap.set m k w := by
  induction m with
  | nil => simp [GoMap.set]
  | cons p rest ih =>
    obtain ⟨k1, v1⟩ := p
    by_cases h : k1 = k
    · simp [GoMap.set, h]
    · simp [GoMap.set, h, ih]

theorem addToDocument_eq (acc : GoMap document) (e : Entry) :
    addToDocument acc e =
      GoMap.set acc e.Document
        { Name := e.Document
          Entries := ((GoMap.get? acc e.Document).map document.Entries).getD [] ++ [e] } := by
  unfold addToDocument
  cases h : GoMap.get? acc e.Document with
  | none =>
    simp only [GoMap.get_eq, GoMap.get?_set, if_true, Option.getD_some, GoMap.set_set,
      Option.map_none', Option.getD_none]
  | some v =>
    simp only [GoMap.get_eq, h, Option.getD_some, Option.map_some']

theorem set_document_flatten_perm (acc : GoMap document) (k : String) (x : Entry) :
    ((GoMap.set acc k
        { Name := k
          Entries := ((GoMap.get? acc k).map document.Entries).getD [] ++ [x] }).map
      (fun kv => kv.2.Entries)).flatten.Perm
      ((acc.map (fun kv => kv.2.Entries)).flatten ++ [x]) := by
  induction acc with
  | nil => simp [GoMap.set, GoMap.get?_nil]
  | cons p rest ih =>
    obtain ⟨k1, v1⟩ := p
    rw [GoMap.get?_cons]
    by_cases h : k1 = k
    · simp only [h, if_true, GoMap.set, Option.map_some', Option.getD_some, List.map_cons,
        List.flatten_cons, List.append_assoc]
      exact List.Perm.append_left _ List.perm_append_comm
    · simp only [h, if_false, GoMap.set, List.map_cons, List.flatten_cons, List.append_assoc]
      exact List.Perm.append_left _ ih

theorem foldl_addToDocument_flatten (S : List Entry) (acc : GoMap document) :
    ((S.foldl addToDocument acc).map (fun kv => kv.2.Entries)).flatten.Perm
      ((acc.map (fun kv => kv.2.Entries)).flatten ++ S) := by
  induction S generalizing acc with
  | nil => simp
  | cons e rest ih =>
    rw [List.foldl_cons]
    refine (ih _).trans ?_
    rw [addToDocument_eq]
    have h := (set_document_flatten_perm acc e.Document e).append_right rest
    simpa [List.append_assoc] using h

theorem DumpAll_documents (u : Utils) (sort : List Entry → List Entry)
    (range : List document → List document) (ssed : Fs) (hwf : WellFormed ssed) :
    (DumpAll u sort range ssed).2 =
      range (((modifiedOrder u sort ssed).foldl addToDocument []).map Prod.snd) := by
  have h1 := foldl_set_uuid (ssed.localRepo.map (parseFile u)) []
    (by rw [map_parseFile_uuid]; exact hwf) (by simp)
  simp only [DumpAll]
  rw [h1]
  simp only [List.nil_append, List.map_map, Function.comp_def, List.map_id_fun', id]
  rfl

theorem dumped_parseFile (u : Utils) (f : String × Entry) :
    dumped (parseFile u f) = dumped f.2 := by
  rw [parseFile_eq]; rfl

theorem viaJSON_entries (l : List document) :
    ((viaJSON l).map document.Entries).flatten = ((l.map document.Entries).flatten).map dumped := by
  induction l with
  | nil => rfl
  | cons doc rest ih =>
    simp only [viaJSON, List.map_cons, List.flatten_cons, List.map_append] at ih ⊢
    rw [ih]
    rfl

theorem dump_entries_perm (u : Utils) (sort : List Entry → List Entry) (hs : SortSpec sort)
    (range : List document → List document) (hr : ∀ l, (range l).Perm l)
    (ssed : Fs) (hwf : WellFormed ssed) :
    (((viaJSON (DumpAll u sort range ssed).2).map document.Entries).flatten).Perm
      (ssed.localRepo.map (fun f => dumped f.2)) := by
  rw [viaJSON_entries, DumpAll_documents u sort range ssed hwf]
  have h1 := foldl_addToDocument_flatten (modifiedOrder u sort ssed) []
  simp only [List.map_nil, List.flatten_nil, List.nil_append] at h1
  have h2 : ((((modifiedOrder u sort ssed).foldl addToDocument []).map Prod.snd).map
      document.Entries) = (((modifiedOrder u sort ssed).foldl addToDocument []).map
        (fun kv => kv.2.Entries)) := by
    rw [List.map_map]; rfl
  have h3 := (((hr (((modifiedOrder u sort ssed).foldl addToDocument []).map Prod.snd)).map
    document.Entries).flatten).map dumped
  rw [h2] at h3
  refine h3.trans ?_
  refine (h1.map dumped).trans ?_
  refine ((modifiedOrder_perm u sort hs ssed).map dumped).trans ?_
  rw [List.map_map]
  have : (dumped ∘ parseFile u) = (fun f : String × Entry => dumped f.2) := by
    funext f; exact dumped_parseFile u f
  rw [this]

/-! ## Import -/

theorem foldl_set_name_keys (l : List Entry) (acc : GoMap String) (k : String) :
    k ∈ (l.foldl (fun m e => GoMap.set m e.Entry e.uuid) acc).map Prod.fst ↔
      k ∈ acc.map Prod.fst ∨ ∃ e ∈ l, e.Entry = k := by
  induction l generalizing acc with
  | nil => simp
  | cons e rest ih =>
    rw [List.foldl_cons, ih, GoMap.keys_set]
    by_cases h : e.Entry ∈ acc.map Prod.fst
    · simp only [h, if_true, List.mem_cons, exists_eq_or_imp]
      constructor
      · rintro (h1 | h1)
        · exact Or.inl h1
        · exact Or.inr (Or.inr h1)
      · rintro (h1 | h1 | h1)
        · exact Or.inl h1
        · exact Or.inl (h1 ▸ h)
        · exact Or.inr h1
    · simp only [h, if_false, List.mem_append, List.mem_cons, List.not_mem_nil, or_false,
        exists_eq_or_imp, @eq_comm _ k e.Entry]
      tauto

theorem entryExists_false (u : Utils) (sort : List Entry → List Entry) (ssed : Fs)
    (n : String) (hp : ssed.parsed = false) (hno : ∀ f ∈ ssed.localRepo, f.2.Entry ≠ n) :
    (entryExists u sort ssed n).1 = false := by
  have hkeys : n ∉ (parseArchive u sort ssed).entryNameToUUID.map Prod.fst := by
    simp only [parseArchive]
    rw [foldl_set_name_keys]
    rintro (h | ⟨e, he, hen⟩)
    · simp at h
    · obtain ⟨f, hf, rfl⟩ := List.mem_map.1 he
      rw [parseFile_eq] at hen
      exact hno f hf hen
  unfold entryExists
  simp only [hp, Bool.not_false, if_true]
  rw [(GoMap.get?_eq_none _ _).2 hkeys]
  rfl

theorem writtenBlob_imported (u : Utils) (env : Env) (e : Entry) (hn : e.Entry ≠ "")
    (hm : e.ModifiedTimestamp ≠ "") :
    writtenBlob u env e.Text e.Document e.Entry e.ModifiedTimestamp false = imported u e := by
  have h1 : ¬ e.ModifiedTimestamp.length = 0 := fun h => hm ((length_eq_zero_iff _).1 h)
  simp [writtenBlob, imported, h1, effName_of_ne env e.Entry hn]

theorem Update_import (u : Utils) (sort : List Entry → List Entry) (env : Env) (e : Entry)
    (ssed : Fs) (hp : ssed.parsed = false) (hn : e.Entry ≠ "") (hm : e.ModifiedTimestamp ≠ "")
    (hnew : ∀ f ∈ ssed.localRepo, f.2.Entry ≠ e.Entry)
    (hfresh : importFile u e ∉ ssed.localRepo.map Prod.fst) (hw : env.writeErr = none) :
    (Update u sort env e.Text e.Document e.Entry e.ModifiedTimestamp ssed).1.localRepo =
        ssed.localRepo ++ [(importFile u e, imported u e)] ∧
      (Update u sort env e.Text e.Document e.Entry e.ModifiedTimestamp ssed).1.parsed =
        false := by
  have hfile : blobFile u env e.Text e.Entry = importFile u e := by
    rw [blobFile, effName_of_ne env e.Entry hn]; rfl
  have hex : utils.Exists ssed.localRepo (blobFile u env e.Text e.Entry) = false := by
    rw [hfile]
    cases h : utils.Exists ssed.localRepo (importFile u e)
    · rfl
    · exact absurd ((Exists_iff _ _).1 h) hfresh
  have hee : (entryExists u sort ssed (effName env e.Entry)).1 = false := by
    rw [effName_of_ne env e.Entry hn]
    exact entryExists_false u sort ssed _ hp hnew
  rw [Update_eq, hex]
  simp only [Bool.false_eq_true, if_false, utils.EncryptToFile, hw, entryExists_localRepo, hee,
    writtenBlob_imported u env e hn hm, hfile]
  exact ⟨GoMap.set_of_not_mem _ _ _ hfresh, trivial⟩

theorem foldl_importEntry (u : Utils) (sort : List Entry → List Entry) (env : Nat → Env)
    (hw : ∀ k, (env k).writeErr = none) (L : List Entry) (acc : Fs × Nat)
    (hp : acc.1.parsed = false)
    (hne : ∀ e ∈ L, e.Entry ≠ "" ∧ e.ModifiedTimestamp ≠ "")
    (hnames : (L.map Entry.Entry).Nodup)
    (hnew : ∀ e ∈ L, ∀ f ∈ acc.1.localRepo, f.2.Entry ≠ e.Entry)
    (haddr : (L.map (importFile u)).Nodup)
    (hfresh : ∀ e ∈ L, importFile u e ∉ acc.1.localRepo.map Prod.fst) :
    (L.foldl (importEntry u sort env) acc).1.localRepo =
        acc.1.localRepo ++ L.map (fun e => (importFile u e, imported u e)) ∧
      (L.foldl (importEntry u sort env) acc).1.parsed = false := by
  induction L generalizing acc with
  | nil => simp [hp]
  | cons e rest ih =>
    simp only [List.map_cons, List.nodup_cons] at hnames haddr
    have he := hne e (List.mem_cons_self _ _)
    obtain ⟨h1, h2⟩ := Update_import u sort (env acc.2) e acc.1 hp he.1 he.2
      (hnew e (List.mem_cons_self _ _)) (hfresh e (List.mem_cons_self _ _)) (hw _)
    rw [List.foldl_cons]
    have hstep : (importEntry u sort env acc e).1.localRepo =
        acc.1.localRepo ++ [(importFile u e, imported u e)] := h1
    obtain ⟨h3, h4⟩ := ih (importEntry u sort env acc e) h2
      (fun e2 he2 => hne e2 (List.mem_cons_of_mem _ he2)) hnames.2
      (by
        intro e2 he2 f hf
        rw [hstep] at hf
        rcases List.mem_append.1 hf with hf | hf
        · exact hnew e2 (List.mem_cons_of_mem _ he2) f hf
        · rw [List.mem_singleton.1 hf]
          intro h
          exact hnames.1 (List.mem_map.2 ⟨e2, he2, h.symm⟩))
      haddr.2
      (by
        intro e2 he2
        rw [hstep, List.map_append, List.mem_append, not_or]
        refine ⟨hfresh e2 (List.mem_cons_of_mem _ he2), ?_⟩
        intro h
        have : importFile u e2 = importFile u e := by simpa using h
        exact haddr.1 (List.mem_map.2 ⟨e2, he2, this⟩))
    refine ⟨?_, h4⟩
    rw [h3, hstep]
    simp

theorem foldl_flatten {α β : Type} (step : α → β → α) (ls : List (List β)) (a : α) :
    ls.foldl (fun acc l => l.foldl step acc) a = ls.flatten.foldl step a := by
  induction ls generalizing a with
  | nil => rfl
  | cons l rest ih => simp [List.foldl_append, ih]

theorem Import_eq (u : Utils) (sort : List Entry → List Entry) (env : Nat → Env)
    (documentList : List document) (ssed : Fs) :
    Import u sort env documentList ssed =
      (((documentList.map document.Entries).flatten).foldl (importEntry u sort env)
        (ssed, 0)).1 := by
  unfold Import
  rw [← foldl_flatten, List.foldl_map]

/-! ## Comparing two views on the fields that a dump keeps -/

theorem docEntries_mem_of_unique_names (u : Utils) (sort : List Entry → List Entry)
    (hs : SortSpec sort) (ssed : Fs) (d : String) (x : Entry)
    (hone : ∀ f ∈ ssed.localRepo, ∀ g ∈ ssed.localRepo, f.2.Entry = g.2.Entry → f = g) :
    x ∈ docEntries u sort ssed d ↔
      ∃ f ∈ ssed.localRepo, f.2.Document = d ∧ parseFile u f = x := by
  rw [docEntries_mem_iff u sort hs ssed d x
    (fun f hf _ g hg hgn _ => hone g hg f hf hgn)]
  constructor
  · rintro ⟨f, hf, hd, hx, _⟩
    exact ⟨f, hf, hd, hx⟩
  · rintro ⟨f, hf, hd, hx⟩
    refine ⟨f, hf, hd, hx, ?_⟩
    intro g hg hgn
    rw [hone g hg f hf hgn]

theorem ListDocuments_sorted (u : Utils) (sort : List Entry → List Entry)
    (hs : SortSpec sort) (ssed : Fs) (hwf : WellFormed ssed) (hco : Coherent u sort ssed) :
    (ListDocuments u sort ssed).Sorted (fun x y => x < y) := by
  rw [ListDocuments_eq u sort ssed hco]
  apply (sortStrings_sorted _).lt_of_le
  rw [(sortStrings_perm _).nodup_iff]
  exact (parseArchive_ordering_keys u sort hs ssed hwf).1.sublist
    ((List.filter_sublist _).map _)

theorem mem_ListDocuments_iff (u : Utils) (sort : List Entry → List Entry)
    (hs : SortSpec sort) (ssed : Fs) (hwf : WellFormed ssed) (hco : Coherent u sort ssed)
    (d : String) :
    d ∈ ListDocuments u sort ssed ↔
      docEntries u sort ssed d ≠ [] ∧
        ∀ x ∈ docEntries u sort ssed d, x.Text ≠ "ignore document" := by
  have hkeys := (parseArchive_ordering_keys u sort hs ssed hwf).2 d
  have hne : docEntries u sort ssed d ≠ [] ↔
      ∃ c ∈ createdOrder u sort ssed, c.Document = d := by
    constructor
    · intro h
      obtain ⟨x, hx⟩ := List.exists_mem_of_ne_nil _ h
      obtain ⟨c, hc, hd, _⟩ := (docEntries_mem u sort ssed d x).1 hx
      exact ⟨c, hc, hd⟩
    · rintro ⟨c, hc, hd⟩ h
      have := (docEntries_mem u sort ssed d _).2 ⟨c, hc, hd, rfl⟩
      rw [h] at this
      simp at this
  have hign : ignoring (parseArchive u sort ssed).entries
      (GoMap.get (parseArchive u sort ssed).ordering d) = false ↔
      ∀ x ∈ docEntries u sort ssed d, x.Text ≠ "ignore document" := by
    rw [ignoring_eq, ids_map_get u sort hs ssed hwf, ← Bool.not_eq_true, List.any_eq_true]
    simp
  rw [ListDocuments_eq u sort ssed hco, (sortStrings_perm _).mem_iff, List.mem_map, hne,
    ← hkeys, ← hign]
  constructor
  · rintro ⟨kv, hkv, rfl⟩
    rw [List.mem_filter] at hkv
    exact ⟨List.mem_map_of_mem _ hkv.1, by simpa using hkv.2⟩
  · rintro ⟨hd, hi⟩
    obtain ⟨kv, hkv, rfl⟩ := List.mem_map.1 hd
    exact ⟨kv, List.mem_filter.2 ⟨hkv, by simpa using hi⟩, rfl⟩

theorem same_view_of_same_keys (u : Utils) (sort : List Entry → List Entry)
    (hs : SortSpec sort) (s1 s2 : Fs) (hwf1 : WellFormed s1) (hco1 : Coherent u sort s1)
    (hwf2 : WellFormed s2) (hco2 : Coherent u sort s2)
    (hk : ∀ d, (docEntries u sort s2 d).map viewKey = (docEntries u sort s1 d).map viewKey) :
    ListDocuments u sort s2 = ListDocuments u sort s1 ∧
      ∀ d, (GetDocument u sort s2 d).map viewKey = (GetDocument u sort s1 d).map viewKey := by
  have hany : ∀ s d, (docEntries u sort s d).any (fun e => e.Text == "ignore document") =
      ((docEntries u sort s d).map viewKey).any (fun k => k.2.2.1 == "ignore document") := by
    intro s d
    induction docEntries u sort s d with
    | nil => rfl
    | cons x rest ih => simp [List.any_cons, ih, viewKey]
  have hfil : ∀ s d, ((docEntries u sort s d).filter (fun e => e.Text ≠ "ignore entry")).map
      viewKey = ((docEntries u sort s d).map viewKey).filter
        (fun k => k.2.2.1 ≠ "ignore entry") := by
    intro s d
    rw [List.filter_map]; rfl
  constructor
  · have hmem : ∀ d, d ∈ ListDocuments u sort s2 ↔ d ∈ ListDocuments u sort s1 := by
      intro d
      have key : ∀ s, (docEntries u sort s d ≠ [] ∧
          ∀ x ∈ docEntries u sort s d, x.Text ≠ "ignore document") ↔
          ((docEntries u sort s d).map viewKey ≠ [] ∧
            ∀ k ∈ (docEntries u sort s d).map viewKey, k.2.2.1 ≠ "ignore document") := by
        intro s
        simp [viewKey]
      rw [mem_ListDocuments_iff u sort hs s2 hwf2 hco2, mem_ListDocuments_iff u sort hs s1 hwf1
        hco1, key s2, key s1, hk d]
    have h1 := ListDocuments_sorted u sort hs s1 hwf1 hco1
    have h2 := ListDocuments_sorted u sort hs s2 hwf2 hco2
    exact List.eq_of_perm_of_sorted
      ((List.perm_ext_iff_of_nodup h2.nodup h1.nodup).2 hmem) h2 h1
  · intro d
    rw [GetDocument_eq u sort hs s2 hwf2 hco2, GetDocument_eq u sort hs s1 hwf1 hco1, hany s2,
      hany s1, hk d]
    split
    · rfl
    · rw [hfil s2, hfil s1, hk d]

/-! ## The round trip through a dump -/

theorem viewKey_parseFile (u : Utils) (f : String × Entry) :
    viewKey (parseFile u f) = viewKey f.2 := by
  rw [parseFile_eq]; rfl

theorem docEntries_keys_mem (u : Utils) (sort : List Entry → List Entry) (hs : SortSpec sort)
    (ssed : Fs) (d : String) (k : String × String × String × String)
    (hone : ∀ f ∈ ssed.localRepo, ∀ g ∈ ssed.localRepo, f.2.Entry = g.2.Entry → f = g) :
    k ∈ (docEntries u sort ssed d).map viewKey ↔
      ∃ f ∈ ssed.localRepo, f.2.Document = d ∧ viewKey f.2 = k := by
  rw [List.mem_map]
  constructor
  · rintro ⟨x, hx, rfl⟩
    obtain ⟨f, hf, hd, rfl⟩ := (docEntries_mem_of_unique_names u sort hs ssed d x hone).1 hx
    exact ⟨f, hf, hd, (viewKey_parseFile u f).symm⟩
  · rintro ⟨f, hf, hd, rfl⟩
    exact ⟨parseFile u f,
      (docEntries_mem_of_unique_names u sort hs ssed d _ hone).2 ⟨f, hf, hd, rfl⟩,
      viewKey_parseFile u f⟩

theorem docEntries_keys_nodup (u : Utils) (sort : List Entry → List Entry)
    (hs : SortSpec sort) (ssed : Fs) (d : String) :
    ((docEntries u sort ssed d).map viewKey).Nodup := by
  have h := docEntries_names_nodup u sort hs ssed d
  have h2 : (docEntries u sort ssed d).map Entry.Entry =
      ((docEntries u sort ssed d).map viewKey).map Prod.fst := by
    rw [List.map_map]; rfl
  rw [h2] at h
  exact List.Nodup.of_map _ h

theorem docEntries_keys_sorted (u : Utils) (sort : List Entry → List Entry)
    (hs : SortSpec sort) (ssed : Fs) (d : String) :
    ((docEntries u sort ssed d).map viewKey).Pairwise
      (fun a b => u.ParseDate a.2.2.2 ≤ u.ParseDate b.2.2.2) := by
  rw [List.pairwise_map]
  exact docEntries_sorted u sort hs ssed d

theorem Import_localRepo (u : Utils) (sort : List Entry → List Entry) (hs : SortSpec sort)
    (range : List document → List document) (hr : ∀ l, (range l).Perm l)
    (ssed : Fs) (hwf : WellFormed ssed) (env : Nat → Env)
    (hw : ∀ k, (env k).writeErr = none)
    (hone : ∀ f ∈ ssed.localRepo, ∀ g ∈ ssed.localRepo, f.2.Entry = g.2.Entry → f = g)
    (hblob : ∀ f ∈ ssed.localRepo, f.2.Entry ≠ "" ∧ f.2.ModifiedTimestamp ≠ "" ∧
      u.ReFormatDate f.2.ModifiedTimestamp = f.2.Timestamp)
    (haddr : ∀ f ∈ ssed.localRepo, ∀ g ∈ ssed.localRepo,
      u.HashAndHex (f.2.Text ++ f.2.Entry) ++ ".json" =
        u.HashAndHex (g.2.Text ++ g.2.Entry) ++ ".json" → f = g) :
    ∃ L : List Entry, L.Perm (ssed.localRepo.map (fun f => dumped f.2)) ∧
      (L.map Entry.Entry).Nodup ∧ (L.map (importFile u)).Nodup ∧
      (Import u sort env (viaJSON (DumpAll u sort range ssed).2) emptyStore).localRepo =
        L.map (fun e => (importFile u e, imported u e)) ∧
      (Import u sort env (viaJSON (DumpAll u sort range ssed).2) emptyStore).parsed = false := by
  have hperm := dump_entries_perm u sort hs range hr ssed hwf
  have hnd : ssed.localRepo.Nodup := List.Nodup.of_map _ hwf
  have hmemL : ∀ e ∈ ((viaJSON (DumpAll u sort range ssed).2).map document.Entries).flatten,
      ∃ f ∈ ssed.localRepo, dumped f.2 = e := by
    intro e he
    exact List.mem_map.1 (hperm.mem_iff.1 he)
  have hnames : ((((viaJSON (DumpAll u sort range ssed).2).map document.Entries).flatten).map
      Entry.Entry).Nodup := by
    rw [(hperm.map Entry.Entry).nodup_iff, List.map_map]
    exact List.Nodup.map_on (fun f hf g hg h => hone f hf g hg h) hnd
  have haddrs : ((((viaJSON (DumpAll u sort range ssed).2).map document.Entries).flatten).map
      (importFile u)).Nodup := by
    rw [(hperm.map (importFile u)).nodup_iff, List.map_map]
    exact List.Nodup.map_on (fun f hf g hg h => haddr f hf g hg h) hnd
  have hne : ∀ e ∈ ((viaJSON (DumpAll u sort range ssed).2).map document.Entries).flatten,
      e.Entry ≠ "" ∧ e.ModifiedTimestamp ≠ "" := by
    intro e he
    obtain ⟨f, hf, rfl⟩ := hmemL e he
    exact ⟨(hblob f hf).1, (hblob f hf).2.1⟩
  obtain ⟨h1, h2⟩ := foldl_importEntry u sort env hw _ (emptyStore, 0) rfl hne hnames
    (by intro e _ f hf; simp [emptyStore, storeOf] at hf) haddrs
    (by intro e _; simp [emptyStore, storeOf])
  refine ⟨_, hperm, hnames, haddrs, ?_, ?_⟩
  · rw [Import_eq, h1]
    simp [emptyStore, storeOf]
  · rw [Import_eq, h2]

theorem viewKey_imported (u : Utils) (e : Entry)
    (h : u.ReFormatDate e.ModifiedTimestamp = e.Timestamp) :
    viewKey (imported u (dumped e)) = viewKey e := by
  simp [viewKey, imported, dumped, h]

/-- C10, amended. The round trip through a dump reproduces the view of a store without edit
history: for every store state in which every entry name is carried by one blob only, every
blob has a non-empty entry name and a non-empty modified timestamp whose normal form is its
created timestamp, distinct blobs have distinct content addresses, and no two blobs of one
document have the same created time, running `DumpAll`, wiping the store and running
`Import` on the decrypted dump, every write succeeding, yields a store on which
`ListDocuments()` is the same and, for every document `d`, `GetDocument(d)` returns the same
sequence of entries compared on (entry name, document, text, created timestamp). -/
theorem C10_round_trip (u : Utils) (sort : List Entry → List Entry) (hs : SortSpec sort)
    (range : List document → List document) (hr : ∀ l, (range l).Perm l)
    (ssed : Fs) (hwf : WellFormed ssed) (hco : Coherent u sort ssed) (env : Nat → Env)
    (hw : ∀ k, (env k).writeErr = none)
    (hone : ∀ f ∈ ssed.localRepo, ∀ g ∈ ssed.localRepo, f.2.Entry = g.2.Entry → f = g)
    (hblob : ∀ f ∈ ssed.localRepo, f.2.Entry ≠ "" ∧ f.2.ModifiedTimestamp ≠ "" ∧
      u.ReFormatDate f.2.ModifiedTimestamp = f.2.Timestamp)
    (haddr : ∀ f ∈ ssed.localRepo, ∀ g ∈ ssed.localRepo,
      u.HashAndHex (f.2.Text ++ f.2.Entry) ++ ".json" =
        u.HashAndHex (g.2.Text ++ g.2.Entry) ++ ".json" → f = g)
    (hcre : ∀ f ∈ ssed.localRepo, ∀ g ∈ ssed.localRepo, f.2.Document = g.2.Document →
      u.ParseDate f.2.Timestamp = u.ParseDate g.2.Timestamp → f = g) :
    ListDocuments u sort (Import u sort env (viaJSON (DumpAll u sort range ssed).2) emptyStore) =
        ListDocuments u sort ssed ∧
      ∀ d, (GetDocument u sort
          (Import u sort env (viaJSON (DumpAll u sort range ssed).2) emptyStore) d).map viewKey =
        (GetDocument u sort ssed d).map viewKey := by
  obtain ⟨L, hperm, hnames, haddrs, hrepo, hparsed⟩ :=
    Import_localRepo u sort hs range hr ssed hwf env hw hone hblob haddr
  generalize Import u sort env (viaJSON (DumpAll u sort range ssed).2) emptyStore = s2
    at hrepo hparsed ⊢
  have hwf2 : WellFormed s2 := by
    unfold WellFormed
    rw [hrepo, List.map_map]
    exact haddrs
  have hco2 : Coherent u sort s2 := coherent_of_not_parsed u sort s2 hparsed
  have hone2 : ∀ f ∈ s2.localRepo, ∀ g ∈ s2.localRepo, f.2.Entry = g.2.Entry → f = g := by
    intro f hf g hg hfg
    rw [hrepo] at hf hg
    obtain ⟨e1, he1, rfl⟩ := List.mem_map.1 hf
    obtain ⟨e2, he2, rfl⟩ := List.mem_map.1 hg
    have : e1 = e2 := List.inj_on_of_nodup_map hnames he1 he2 hfg
    rw [this]
  have hmem2 : ∀ d k, (∃ f ∈ s2.localRepo, f.2.Document = d ∧ viewKey f.2 = k) ↔
      ∃ f ∈ ssed.localRepo, f.2.Document = d ∧ viewKey f.2 = k := by
    intro d k
    constructor
    · rintro ⟨f, hf, hd, hk⟩
      rw [hrepo] at hf
      obtain ⟨e, he, rfl⟩ := List.mem_map.1 hf
      obtain ⟨g, hg, rfl⟩ := List.mem_map.1 (hperm.mem_iff.1 he)
      refine ⟨g, hg, hd, ?_⟩
      rw [← hk]
      exact (viewKey_imported u g.2 (hblob g hg).2.2).symm
    · rintro ⟨g, hg, hd, hk⟩
      refine ⟨(importFile u (dumped g.2), imported u (dumped g.2)), ?_, hd, ?_⟩
      · rw [hrepo]
        exact List.mem_map.2 ⟨dumped g.2,
          hperm.mem_iff.2 (List.mem_map.2 ⟨g, hg, rfl⟩), rfl⟩
      · rw [← hk]
        exact viewKey_imported u g.2 (hblob g hg).2.2
  apply same_view_of_same_keys u sort hs ssed s2 hwf hco hwf2 hco2
  intro d
  apply eq_of_key_sorted (fun k : String × String × String × String => u.ParseDate k.2.2.2)
  · exact docEntries_keys_nodup u sort hs s2 d
  · exact docEntries_keys_nodup u sort hs ssed d
  · intro k
    rw [docEntries_keys_mem u sort hs s2 d k hone2, docEntries_keys_mem u sort hs ssed d k hone]
    exact hmem2 d k
  · exact docEntries_keys_sorted u sort hs s2 d
  · exact docEntries_keys_sorted u sort hs ssed d
  · intro k1 hk1 k2 hk2 hkey
    obtain ⟨f, hf, hfd, rfl⟩ := (docEntries_keys_mem u sort hs ssed d k1 hone).1 hk1
    obtain ⟨g, hg, hgd, rfl⟩ := (docEntries_keys_mem u sort hs ssed d k2 hone).1 hk2
    rw [hcre f hf g hg (hfd.trans hgd.symm) hkey]

/-- C10, amended, on a store of three entries that were never edited. -/
theorem C10_round_trip_witness :
    ListDocuments exampleUtils insertionSort
        (Import exampleUtils insertionSort importEnv
          (viaJSON (DumpAll exampleUtils insertionSort id plainStore).2) emptyStore) =
        ListDocuments exampleUtils insertionSort plainStore ∧
      ∀ d, (GetDocument exampleUtils insertionSort
          (Import exampleUtils insertionSort importEnv
            (viaJSON (DumpAll exampleUtils insertionSort id plainStore).2) emptyStore) d).map
          viewKey =
        (GetDocument exampleUtils insertionSort plainStore d).map viewKey :=
  C10_round_trip exampleUtils insertionSort insertionSort_spec id (fun l => List.Perm.refl l)
    plainStore (by decide) (by decide) importEnv (fun _ => rfl) (by decide) (by decide)
    (by decide) (by decide)

/-- C10, as stated, fails on a store with an edited entry: the dump lists the versions of
"greet" newest first, `Import` replays them through `Update`, the older version finds the
name in place and is stamped with the time of the import, and after the round trip
`GetDocument("notes")` shows the text "hello" created on the first day where the store
showed the text "hi" created on the second. -/
theorem C10_counterexample :
    (GetDocument exampleUtils insertionSort editedStore "notes").map viewKey =
      [("greet", "notes", "hi", "2023-01-02 10:00:00")] ∧
    (GetDocument exampleUtils insertionSort
        (Import exampleUtils insertionSort importEnv
          (viaJSON (DumpAll exampleUtils insertionSort id editedStore).2) emptyStore)
        "notes").map viewKey =
      [("greet", "notes", "hello", "2023-01-01 10:00:00")] := by
  decide

/-! ## The file that an Update targets -/

theorem append_right_cancel (a b c : String) (h : a ++ c = b ++ c) : a = b := by
  have h2 : (a ++ c).data = (b ++ c).data := by rw [h]
  simp only [String.data_append] at h2
  exact String.ext (List.append_cancel_right h2)

theorem Update_keys (u : Utils) (sort : List Entry → List Entry) (env : Env)
    (text d e ts : String) (ssed : Fs) (n : String)
    (hn : n ∈ (Update u sort env text d e ts ssed).1.localRepo.map Prod.fst) :
    n ∈ ssed.localRepo.map Prod.fst ∨ n = blobFile u env text e := by
  cases hex : utils.Exists ssed.localRepo (blobFile u env text e)
  · cases hw : env.writeErr with
    | none =>
      obtain ⟨b, hb, _⟩ := Update_written u sort env text d e ts ssed hex hw
      rw [hb, List.map_append, List.mem_append] at hn
      rcases hn with h | h
      · exact Or.inl h
      · exact Or.inr (by simpa using h)
    | some err =>
      rw [Update_localRepo_failed u sort env text d e ts ssed err hw] at hn
      exact Or.inl hn
  · rw [Update_exists u sort env text d e ts ssed hex] at hn
    exact Or.inl hn

/-- C17, amended. The filename is a content address of the concatenation of text and entry
name: the file that `Update` targets (the only file it can add, and the one whose presence
makes the call a no-op) is `HashAndHex(text ++ entryName) ++ ".json"`, and, `HashAndHex`
being injective, two `Update` calls with non-empty entry names target the same file if and
only if the concatenations of their text and their entry name are the same string. -/
theorem C17_content_address (u : Utils) (hinj : Function.Injective u.HashAndHex)
    (sort : List Entry → List Entry) (env1 env2 : Env) (t1 d1 e1 ts1 t2 e2 : String)
    (ssed : Fs) (h1 : e1 ≠ "") (h2 : e2 ≠ "") :
    blobFile u env1 t1 e1 = u.HashAndHex (t1 ++ e1) ++ ".json" ∧
    (utils.Exists ssed.localRepo (blobFile u env1 t1 e1) = true →
      Update u sort env1 t1 d1 e1 ts1 ssed = (ssed, none)) ∧
    (∀ n, n ∈ (Update u sort env1 t1 d1 e1 ts1 ssed).1.localRepo.map Prod.fst →
      n ∈ ssed.localRepo.map Prod.fst ∨ n = blobFile u env1 t1 e1) ∧
    (blobFile u env1 t1 e1 = blobFile u env2 t2 e2 ↔ t1 ++ e1 = t2 ++ e2) := by
  refine ⟨?_, Update_exists u sort env1 t1 d1 e1 ts1 ssed,
    Update_keys u sort env1 t1 d1 e1 ts1 ssed, ?_⟩
  · rw [blobFile, effName_of_ne env1 e1 h1]
  · rw [blobFile, blobFile, effName_of_ne env1 e1 h1, effName_of_ne env2 e2 h2]
    constructor
    · intro h
      exact hinj (append_right_cancel _ _ _ h)
    · intro h
      rw [h]

/-- C17, amended, with the identity as content hash: the file of ("hello", "greet"). -/
theorem C17_content_address_witness :
    blobFile exampleUtils (exampleEnv "2023-01-01 10:00:00" "XVlBzgbaiC") "hello" "greet" =
      "hellogreet.json" ∧
    (blobFile exampleUtils (exampleEnv "2023-01-01 10:00:00" "XVlBzgbaiC") "hello" "greet" =
        blobFile exampleUtils (exampleEnv "2023-01-02 10:00:00" "MRAjWwhTHc") "hi" "greet" ↔
      "hello" ++ "greet" = "hi" ++ "greet") :=
  ⟨(C17_content_address exampleUtils (fun _ _ h => h) insertionSort
      (exampleEnv "2023-01-01 10:00:00" "XVlBzgbaiC")
      (exampleEnv "2023-01-02 10:00:00" "MRAjWwhTHc") "hello" "notes" "greet" "" "hi" "greet"
      helloStore (by decide) (by decide)).1,
    (C17_content_address exampleUtils (fun _ _ h => h) insertionSort
      (exampleEnv "2023-01-01 10:00:00" "XVlBzgbaiC")
      (exampleEnv "2023-01-02 10:00:00" "MRAjWwhTHc") "hello" "notes" "greet" "" "hi" "greet"
      helloStore (by decide) (by decide)).2.2.2⟩

/-- C17, as stated, fails: with an injective content hash (the identity), the calls
`Update("ab", "notes", "c", "")` and `Update("a", "notes", "bc", "")` have non-empty entry
names, differ in text and in entry name, and target the same file; the second call finds the
file of the first in place and writes nothing. -/
theorem C17_counterexample :
    Function.Injective exampleUtils.HashAndHex ∧
    ("ab" ≠ "a" ∧ "c" ≠ "bc") ∧
    blobFile exampleUtils (exampleEnv "2023-01-01 10:00:00" "XVlBzgbaiC") "ab" "c" =
      blobFile exampleUtils (exampleEnv "2023-01-02 10:00:00" "XVlBzgbaiC") "a" "bc" ∧
    (Update exampleUtils insertionSort (exampleEnv "2023-01-02 10:00:00" "XVlBzgbaiC")
        "a" "notes" "bc" ""
        (Update exampleUtils insertionSort (exampleEnv "2023-01-01 10:00:00" "XVlBzgbaiC")
          "ab" "notes" "c" "" emptyStore).1).1.localRepo =
      [("abc.json", blob "ab" "notes" "c" "2023-01-01 10:00:00" "2023-01-01 10:00:00")] :=
  ⟨fun _ _ h => h, by decide, by decide, by decide⟩

/-! ## The timestamps of an edit -/

theorem entryExists_true (u : Utils) (sort : List Entry → List Entry) (ssed : Fs)
    (n : String) (hco : Coherent u sort ssed) (hex : ∃ f ∈ ssed.localRepo, f.2.Entry = n) :
    (entryExists u sort ssed n).1 = true := by
  have hkeys : n ∈ (parseArchive u sort ssed).entryNameToUUID.map Prod.fst := by
    simp only [parseArchive]
    rw [foldl_set_name_keys]
    obtain ⟨f, hf, hfn⟩ := hex
    refine Or.inr ⟨parseFile u f, List.mem_map_of_mem _ hf, ?_⟩
    rw [parseFile_eq]; exact hfn
  unfold entryExists
  simp only [ensure_parsed u sort ssed hco]
  cases h : GoMap.get? (parseArchive u sort ssed).entryNameToUUID n with
  | none => exact absurd hkeys ((GoMap.get?_eq_none _ _).1 h)
  | some v => rfl

/-- C12, amended. The created timestamp of an edit is the one the caller supplies, it is
not looked up: for every store state and every `Update(text, d, e, ts)` that writes a new
blob for an entry name already carried by a blob of the store, the `Timestamp` field of the
new blob is the normal form of `ts` when `ts` is non-empty and the current date when `ts` is
empty, whatever the created timestamp of the existing versions, and its
`ModifiedTimestamp` is the current date. -/
theorem C12_created_timestamp (u : Utils) (sort : List Entry → List Entry) (ssed : Fs)
    (hco : Coherent u sort ssed) (env : Env) (text d e ts : String)
    (hex : ∃ f ∈ ssed.localRepo, f.2.Entry = effName env e)
    (hfresh : utils.Exists ssed.localRepo (blobFile u env text e) = false)
    (hw : env.writeErr = none) :
    ∃ b : Entry,
      (Update u sort env text d e ts ssed).1.localRepo =
        ssed.localRepo ++ [(blobFile u env text e, b)] ∧
      b.Text = text ∧ b.Document = d ∧ b.Entry = effName env e ∧
      b.Timestamp = (if ts.length = 0 then env.date else u.ReFormatDate ts) ∧
      b.ModifiedTimestamp = env.dateModified := by
  have hnot : blobFile u env text e ∉ ssed.localRepo.map Prod.fst := by
    rw [← Exists_iff, hfresh]; simp
  have hee := entryExists_true u sort ssed (effName env e) hco hex
  refine ⟨writtenBlob u env text d e ts true, ?_, rfl, rfl, rfl, rfl, rfl⟩
  rw [Update_eq, hfresh]
  simp only [Bool.false_eq_true, if_false, utils.EncryptToFile, hw, entryExists_localRepo, hee]
  exact GoMap.set_of_not_mem _ _ _ hnot

/-- C12, amended, on the store that holds "hello": the edit "hi" with an empty timestamp. -/
theorem C12_created_timestamp_witness :
    ∃ b : Entry,
      (Update exampleUtils insertionSort (exampleEnv "2023-01-02 10:00:00" "XVlBzgbaiC")
        "hi" "notes" "greet" "" helloStore).1.localRepo =
        helloStore.localRepo ++
          [(blobFile exampleUtils (exampleEnv "2023-01-02 10:00:00" "XVlBzgbaiC") "hi" "greet",
            b)] ∧
      b.Text = "hi" ∧ b.Document = "notes" ∧
      b.Entry = effName (exampleEnv "2023-01-02 10:00:00" "XVlBzgbaiC") "greet" ∧
      b.Timestamp = (if "".length = 0 then
        (exampleEnv "2023-01-02 10:00:00" "XVlBzgbaiC").date
        else exampleUtils.ReFormatDate "") ∧
      b.ModifiedTimestamp = (exampleEnv "2023-01-02 10:00:00" "XVlBzgbaiC").dateModified :=
  C12_created_timestamp exampleUtils insertionSort helloStore (by decide)
    (exampleEnv "2023-01-02 10:00:00" "XVlBzgbaiC") "hi" "notes" "greet" "" (by decide)
    (by decide) rfl

/-- C12, as stated, fails: in the store that holds "hello" for the entry "greet", created
on the first day, the edit `Update("hi", "notes", "greet", "")` on the second day writes a
blob whose created timestamp is the second day. -/
theorem C12_counterexample :
    (Update exampleUtils insertionSort (exampleEnv "2023-01-02 10:00:00" "XVlBzgbaiC")
        "hi" "notes" "greet" "" helloStore).1.localRepo =
      [("hellogreet.json",
        blob "hello" "notes" "greet" "2023-01-01 10:00:00" "2023-01-01 10:00:00"),
       ("higreet.json",
        blob "hi" "notes" "greet" "2023-01-02 10:00:00" "2023-01-02 10:00:00")] ∧
    "2023-01-02 10:00:00" ≠ "2023-01-01 10:00:00" := by
  decide

/-! ## loadConfiguration -/

theorem loadConfiguration_loop_found (username method : String) (hu : username ≠ "")
    (l : List config) (i : Int) :
    loadConfiguration.loop l i username method =
      match l.find? (fun c => c.Username = username) with
      | none => (username, method, -1)
      | some c => (username, c.Method, i + (l.findIdx (fun c => c.Username = username) : Nat)) := by
  induction l generalizing i with
  | nil => rfl
  | cons c rest ih =>
    unfold loadConfiguration.loop
    simp only [hu, if_false]
    by_cases h : c.Username = username
    · simp [h, List.find?_cons, List.findIdx_cons]
    · rw [if_neg h, ih (i + 1)]
      simp only [List.find?_cons, h, decide_False, List.findIdx_cons, cond_false]
      cases rest.find? (fun c => decide (c.Username = username)) with
      | none => rfl
      | some c2 =>
        simp only [Nat.cast_add, Nat.cast_one]
        rw [add_assoc, add_comm 1]

theorem find_getD_take_drop (p : config → Bool) (l : List config) (c d : config)
    (h : l.find? p = some c) :
    l.getD (l.findIdx p) d = c ∧
      l.take (l.findIdx p) ++ l.drop (l.findIdx p + 1) = l.eraseP p := by
  induction l with
  | nil => simp at h
  | cons x rest ih =>
    by_cases hx : p x = true
    · simp only [List.find?_cons, hx] at h
      simp [List.findIdx_cons, hx, List.eraseP_cons]
      exact Option.some.inj h
    · have hx2 : p x = false := by simpa using hx
      simp only [List.find?_cons, hx2] at h
      obtain ⟨h1, h2⟩ := ih h
      simp only [List.findIdx_cons, hx2, cond_false, List.eraseP_cons, List.getD_cons_succ,
        List.take_succ_cons, List.drop_succ_cons, List.cons_append]
      exact ⟨h1, by rw [h2]⟩

/-- C13. Config resolution: when a config list exists, `loadConfiguration(username, method)`
succeeds and persists the list whose element 0 is the selected config (the first stored
config when the username is empty, else the first stored config whose username matches, a
new record of the supplied username and method when there is none), followed by every other
previously stored config once and in its original relative order; the username, method and
archive name of the session are taken from element 0. -/
theorem C13_config_resolution (stored : List config) (username method : String) (ssed : Fs) :
    loadConfiguration (some stored) username method ssed =
      .ok (selectedConfig stored username method :: otherConfigs stored username,
        { ssed with
          method := (selectedConfig stored username method).Method
          username := (selectedConfig stored username method).Username
          archiveName := (selectedConfig stored username method).Username ++ ".tar.bz2" }) := by
  by_cases hu : username = ""
  · subst hu
    cases stored with
    | nil => rfl
    | cons c0 rest =>
      simp [loadConfiguration, loadConfiguration.loop, loadConfiguration.finish,
        selectedConfig, otherConfigs]
  · have hloop := loadConfiguration_loop_found username method hu stored 0
    simp only [loadConfiguration, selectedConfig, otherConfigs, hu, if_false]
    rw [hloop]
    cases hfind : stored.find? (fun c => decide (c.Username = username)) with
    | none =>
      simp only [if_true, Option.getD_none]
      rw [List.find?_eq_none] at hfind
      have : stored.eraseP (fun c => decide (c.Username = username)) = stored :=
        List.eraseP_of_forall_not hfind
      rw [this]
      rfl
    | some c =>
      obtain ⟨h1, h2⟩ := find_getD_take_drop (fun c => decide (c.Username = username)) stored
        c default hfind
      have hne : (0 : Int) + ((stored.findIdx (fun c => decide (c.Username = username)) : Nat) :
          Int) ≠ -1 := by omega
      simp only [hne, if_false, Option.getD_some, zero_add, Int.toNat_ofNat, h1, h2]
      rfl

/-! ## Close -/

theorem doesMD5MatchServer_true (net : Net) (ssed : Fs) :
    (doesMD5MatchServer net ssed).1 = true ↔
      strings.Contains ssed.method "http" = true ∧ net.md5 = .ok net.localMD5 := by
  unfold doesMD5MatchServer
  cases hc : strings.Contains ssed.method "http"
  · simp
  · cases hm : net.md5 with
    | error err => simp
    | ok htmlData =>
      simp only [Bool.not_true, Bool.false_eq_true, if_false, beq_iff_eq, true_and,
        Except.ok.injEq]
      exact eq_comm

theorem upload_none (net : Net) (ssed : Fs) :
    upload net ssed = none ↔ (strings.Contains ssed.method "http" = true → net.post = none) := by
  unfold upload
  cases hc : strings.Contains ssed.method "http"
  · simp
  · cases hp : net.post <;> simp

/-- C14. Close decision table: `Close` calls `upload` if and only if `successfulPull` is
true and `doesMD5MatchServer` reports no match (the verdict is a match exactly when the
method is an http one, the request for the server's MD5 succeeds and its answer equals the
MD5 of the local archive); it returns "No internet, changes will be uploaded next time."
whenever `successfulPull` is false, "No changes, not uploading." when `successfulPull` is
true and the hashes match, "Cannot connect, local changes saved." when the upload it
attempted returns an error, and no error exactly when it attempted the upload and the
upload returned none. -/
theorem C14_Close_decision_table (net : Net) (ssed : Fs) :
    ((Close net ssed).2 = true ↔
      ssed.successfulPull = true ∧ (doesMD5MatchServer net ssed).1 = false) ∧
    ((doesMD5MatchServer net ssed).1 = true ↔
      strings.Contains ssed.method "http" = true ∧ net.md5 = .ok net.localMD5) ∧
    (ssed.successfulPull = false →
      (Close net ssed).1 = some "No internet, changes will be uploaded next time.") ∧
    (ssed.successfulPull = true → (doesMD5MatchServer net ssed).1 = true →
      (Close net ssed).1 = some "No changes, not uploading.") ∧
    ((Close net ssed).2 = true → upload net ssed ≠ none →
      (Close net ssed).1 = some "Cannot connect, local changes saved.") ∧
    ((Close net ssed).1 = none ↔ (Close net ssed).2 = true ∧ upload net ssed = none) := by
  refine ⟨?_, doesMD5MatchServer_true net ssed, ?_, ?_, ?_, ?_⟩
  · unfold Close
    cases hp : ssed.successfulPull <;> cases hm : (doesMD5MatchServer net ssed).1 <;>
      cases hu : upload net ssed <;> simp
  · intro hp
    simp [Close, hp]
  · intro hp hm
    simp [Close, hp, hm]
  · intro hc hu
    unfold Close at hc ⊢
    cases hp : ssed.successfulPull <;> cases hm : (doesMD5MatchServer net ssed).1 <;>
      simp [hp, hm, hu] at hc ⊢
  · unfold Close
    cases hp : ssed.successfulPull <;> cases hm : (doesMD5MatchServer net ssed).1 <;>
      cases hu : upload net ssed <;> simp

/-- C14 at a concrete session: after a successful pull on an http method, with a server
whose MD5 differs from the local one and which accepts the archive, `Close` calls `upload`
and returns no error. -/
theorem C14_Close_decision_table_witness :
    (Close { md5 := .ok "1f3870be", localMD5 := "c4ca4238", post := none } pulledSession).2
        = true ∧
      (Close { md5 := .ok "1f3870be", localMD5 := "c4ca4238", post := none }
        pulledSession).1 = none :=
  ⟨(C14_Close_decision_table _ pulledSession).1.2 ⟨by decide, by decide⟩,
    (C14_Close_decision_table _ pulledSession).2.2.2.2.2.2
      ⟨(C14_Close_decision_table _ pulledSession).1.2 ⟨by decide, by decide⟩, by decide⟩⟩

/-! ## GetDocumentOrEntry on an ambiguous name -/

/-- C15 at a failing input. In the view with the documents "notes" and "todo", where
"notes" lists an entry named "todo", the name "todo" is a document; when the map yields
"notes" first, `GetDocumentOrEntry("todo")` returns the entry of "notes" with `false`, and
only when the map yields "todo" first does it return the document with `true`. -/
theorem C15_GetDocumentOrEntry_entry_first :
    (parseArchive exampleUtils insertionSort ambiguousStore).ordering.map Prod.fst =
      ["notes", "todo"] ∧
    GetDocumentOrEntry exampleUtils insertionSort id ambiguousStore "todo" =
      ([parseFile exampleUtils ("milktodo.json",
          blob "milk" "notes" "todo" "2023-01-02 10:00:00" "2023-01-02 10:00:00")],
        false, "notes", none) ∧
    GetDocumentOrEntry exampleUtils insertionSort List.reverse ambiguousStore "todo" =
      (GetDocument exampleUtils insertionSort ambiguousStore "todo", true, "todo", none) := by
  decide

/-! ## The PIN vault -/

/-- C16 at a failing input. With the session password "pw", `SetPinFromPassword("1234")`
whose first round takes 600 ms writes the key file under the key of work factor 65536;
`GetPasswordFromPin("1234")` on the same host, whose first round takes 400 ms and whose
second takes 600 ms, derives the key of work factor 131072, fails to decrypt and removes
the key file. With the same measurements as before it returns the password. -/
theorem C16_pin_round_trip_fails :
    SetPinFromPassword exampleHost examplePwdhash [600] "1234" pulledSession none =
      some (none, some ("1234/linuxlaptopcpu0/#", "pw")) ∧
    HashPasswordSlow exampleHost examplePwdhash [600] "1234" =
      some (.ok "1234/linuxlaptopcpu0/#") ∧
    HashPasswordSlow exampleHost examplePwdhash [400, 600] "1234" =
      some (.ok "1234/linuxlaptopcpu0/##") ∧
    GetPasswordFromPin exampleHost examplePwdhash [400, 600] "1234"
        (some ("1234/linuxlaptopcpu0/#", "pw")) =
      some (("", some "wrong password"), none) ∧
    GetPasswordFromPin exampleHost examplePwdhash [600] "1234"
        (some ("1234/linuxlaptopcpu0/#", "pw")) =
      some (("pw", none), some ("1234/linuxlaptopcpu0/#", "pw")) := by
  decide

/-! ## copyOverFiles -/

theorem foldl_set_true_keys (l : GoMap Entry) (acc : GoMap Bool) (k : String) :
    k ∈ (l.foldl (fun m file => GoMap.set m file.1 true) acc).map Prod.fst ↔
      k ∈ acc.map Prod.fst ∨ k ∈ l.map Prod.fst := by
  induction l generalizing acc with
  | nil => simp
  | cons f rest ih =>
    rw [List.foldl_cons, ih, GoMap.keys_set]
    by_cases h : f.1 ∈ acc.map Prod.fst
    · simp only [h, if_true, List.map_cons, List.mem_cons]
      constructor
      · rintro (h1 | h1)
        · exact Or.inl h1
        · exact Or.inr (Or.inr h1)
      · rintro (h1 | h1 | h1)
        · exact Or.inl h1
        · exact Or.inl (h1 ▸ h)
        · exact Or.inr h1
    · simp only [h, if_false, List.mem_append, List.map_cons, List.mem_cons, List.not_mem_nil,
        or_false]
      tauto

theorem foldl_copy (localFiles : GoMap Bool) (A : GoMap Entry)
    (hlf : ∀ k, k ∈ localFiles.map Prod.fst ↔ k ∈ A.map Prod.fst)
    (l : GoMap Entry) (dir : GoMap Entry) (hnd : (l.map Prod.fst).Nodup)
    (hdir : ∀ f ∈ l, f.1 ∈ dir.map Prod.fst → f.1 ∈ A.map Prod.fst) :
    l.foldl (copyOverFiles.step localFiles) dir =
      dir ++ l.filter (fun f => decide (f.1 ∉ A.map Prod.fst)) := by
  induction l generalizing dir with
  | nil => simp
  | cons f rest ih =>
    simp only [List.map_cons, List.nodup_cons] at hnd
    rw [List.foldl_cons]
    by_cases hA : f.1 ∈ A.map Prod.fst
    · have h1 : GoMap.get? localFiles f.1 ≠ none := by
        rw [Ne, GoMap.get?_eq_none, not_not]; exact (hlf _).2 hA
      obtain ⟨b, hb⟩ := Option.ne_none_iff_exists'.1 h1
      have hstep : copyOverFiles.step localFiles dir f = dir := by
        simp [copyOverFiles.step, hb]
      rw [hstep, ih dir hnd.2 (fun g hg => hdir g (List.mem_cons_of_mem _ hg))]
      simp [List.filter_cons, hA]
    · have h1 : GoMap.get? localFiles f.1 = none := by
        rw [GoMap.get?_eq_none]; exact fun h => hA ((hlf _).1 h)
      have hfd : f.1 ∉ dir.map Prod.fst := fun h => hA (hdir f (List.mem_cons_self _ _) h)
      have hstep : copyOverFiles.step localFiles dir f = dir ++ [f] := by
        simp [copyOverFiles.step, h1, utils.CopyFile, GoMap.set_of_not_mem _ _ _ hfd]
      rw [hstep, ih _ hnd.2]
      · simp [List.filter_cons, hA]
      · intro g hg hgd
        rw [List.map_append, List.mem_append] at hgd
        rcases hgd with h | h
        · exact hdir g (List.mem_cons_of_mem _ hg) h
        · have : g.1 = f.1 := by simpa using h
          exact absurd (this ▸ List.mem_map_of_mem Prod.fst hg) hnd.1

theorem copyOverFiles_localRepo (remoteRepo : GoMap Entry) (ssed : Fs)
    (hnd : (remoteRepo.map Prod.fst).Nodup) :
    (copyOverFiles remoteRepo ssed).localRepo =
      ssed.localRepo ++
        remoteRepo.filter (fun f => decide (f.1 ∉ ssed.localRepo.map Prod.fst)) := by
  have hlf : ∀ k, k ∈ (ssed.localRepo.foldl (fun m file => GoMap.set m file.1 true)
      ([] : GoMap Bool)).map Prod.fst ↔ k ∈ ssed.localRepo.map Prod.fst := by
    intro k
    rw [foldl_set_true_keys]
    simp
  exact foldl_copy _ ssed.localRepo hlf remoteRepo ssed.localRepo hnd (fun _ _ h => h)

theorem copyOverFiles_wf (remoteRepo : GoMap Entry) (ssed : Fs)
    (hnd : (remoteRepo.map Prod.fst).Nodup) (hwf : WellFormed ssed) :
    WellFormed (copyOverFiles remoteRepo ssed) := by
  unfold WellFormed
  rw [copyOverFiles_localRepo remoteRepo ssed hnd, List.map_append]
  refine List.Nodup.append hwf (hnd.sublist ((List.filter_sublist _).map _)) ?_
  intro k hk1 hk2
  obtain ⟨f, hf, rfl⟩ := List.mem_map.1 hk2
  have := (List.mem_filter.1 hf).2
  simp only [decide_eq_true_eq] at this
  exact this hk1

theorem copyOverFiles_mem (remoteRepo : GoMap Entry) (ssed : Fs)
    (hnd : (remoteRepo.map Prod.fst).Nodup)
    (hagree : ∀ f ∈ ssed.localRepo, ∀ g ∈ remoteRepo, f.1 = g.1 → f = g)
    (f : String × Entry) :
    f ∈ (copyOverFiles remoteRepo ssed).localRepo ↔ f ∈ ssed.localRepo ∨ f ∈ remoteRepo := by
  rw [copyOverFiles_localRepo remoteRepo ssed hnd, List.mem_append, List.mem_filter]
  constructor
  · rintro (h | h)
    · exact Or.inl h
    · exact Or.inr h.1
  · rintro (h | h)
    · exact Or.inl h
    · by_cases hk : f.1 ∈ ssed.localRepo.map Prod.fst
      · obtain ⟨a, ha, hak⟩ := List.mem_map.1 hk
        exact Or.inl (hagree a ha f h hak ▸ ha)
      · exact Or.inr ⟨h, by simpa using hk⟩

/-! ## Two directories with the same files -/

theorem docEntries_eq_of_same_files (u : Utils) (sort1 sort2 : List Entry → List Entry)
    (hs1 : SortSpec sort1) (hs2 : SortSpec sort2) (s1 s2 : Fs)
    (hmem : ∀ f, f ∈ s1.localRepo ↔ f ∈ s2.localRepo)
    (hmod : ∀ f ∈ s1.localRepo, ∀ g ∈ s1.localRepo,
      g.2.Entry = f.2.Entry → effDate u g.2 = effDate u f.2 → g = f)
    (hcre : ∀ f ∈ s1.localRepo, ∀ g ∈ s1.localRepo, f.2.Document = g.2.Document →
      u.ParseDate f.2.Timestamp = u.ParseDate g.2.Timestamp → f = g)
    (d : String) : docEntries u sort1 s1 d = docEntries u sort2 s2 d := by
  have hmod1 : ∀ f ∈ s1.localRepo, f.2.Document = d → ∀ g ∈ s1.localRepo,
      g.2.Entry = f.2.Entry → effDate u g.2 = effDate u f.2 → g = f :=
    fun f hf _ g hg => hmod f hf g hg
  have hmod2 : ∀ f ∈ s2.localRepo, f.2.Document = d → ∀ g ∈ s2.localRepo,
      g.2.Entry = f.2.Entry → effDate u g.2 = effDate u f.2 → g = f :=
    fun f hf _ g hg => hmod f ((hmem f).2 hf) g ((hmem g).2 hg)
  apply eq_of_key_sorted (fun x : Entry => u.ParseDate x.Timestamp)
  · exact docEntries_nodup u sort1 hs1 s1 d
  · exact docEntries_nodup u sort2 hs2 s2 d
  · intro x
    rw [docEntries_mem_iff u sort1 hs1 s1 d x hmod1, docEntries_mem_iff u sort2 hs2 s2 d x hmod2]
    constructor
    · rintro ⟨f, hf, hfd, hx, hnew⟩
      exact ⟨f, (hmem f).1 hf, hfd, hx, fun g hg => hnew g ((hmem g).2 hg)⟩
    · rintro ⟨f, hf, hfd, hx, hnew⟩
      exact ⟨f, (hmem f).2 hf, hfd, hx, fun g hg => hnew g ((hmem g).1 hg)⟩
  · exact docEntries_sorted u sort1 hs1 s1 d
  · exact docEntries_sorted u sort2 hs2 s2 d
  · intro x hx y hy hkey
    obtain ⟨f, hf, hfd, rfl, _⟩ := (docEntries_mem_iff u sort2 hs2 s2 d x hmod2).1 hx
    obtain ⟨g, hg, hgd, rfl, _⟩ := (docEntries_mem_iff u sort2 hs2 s2 d y hmod2).1 hy
    have hk : u.ParseDate f.2.Timestamp = u.ParseDate g.2.Timestamp := by
      rw [parseFile_eq, parseFile_eq] at hkey; exact hkey
    rw [hcre f ((hmem f).2 hf) g ((hmem g).2 hg) (hfd.trans hgd.symm) hk]

theorem same_reads_of_same_docEntries (u : Utils) (sort1 sort2 : List Entry → List Entry)
    (hs1 : SortSpec sort1) (hs2 : SortSpec sort2) (s1 s2 : Fs)
    (hwf1 : WellFormed s1) (hco1 : Coherent u sort1 s1)
    (hwf2 : WellFormed s2) (hco2 : Coherent u sort2 s2)
    (hd : ∀ d, docEntries u sort1 s1 d = docEntries u sort2 s2 d) :
    ListDocuments u sort1 s1 = ListDocuments u sort2 s2 ∧
      (∀ d, GetDocument u sort1 s1 d = GetDocument u sort2 s2 d) ∧
      ∀ d e, GetEntry u sort1 s1 d e = GetEntry u sort2 s2 d e := by
  refine ⟨?_, ?_, ?_⟩
  · have hmem : ∀ d, d ∈ ListDocuments u sort1 s1 ↔ d ∈ ListDocuments u sort2 s2 := by
      intro d
      rw [mem_ListDocuments_iff u sort1 hs1 s1 hwf1 hco1,
        mem_ListDocuments_iff u sort2 hs2 s2 hwf2 hco2, hd d]
    have h1 := ListDocuments_sorted u sort1 hs1 s1 hwf1 hco1
    have h2 := ListDocuments_sorted u sort2 hs2 s2 hwf2 hco2
    exact List.eq_of_perm_of_sorted
      ((List.perm_ext_iff_of_nodup h1.nodup h2.nodup).2 hmem) h1 h2
  · intro d
    rw [GetDocument_eq u sort1 hs1 s1 hwf1 hco1, GetDocument_eq u sort2 hs2 s2 hwf2 hco2, hd d]
  · intro d e
    rw [GetEntry_eq u sort1 hs1 s1 hwf1 hco1, GetEntry_eq u sort2 hs2 s2 hwf2 hco2, hd d]

/-- C11, amended. Merge is set union: for every pair of blob directories A (local) and B
(remote) of the same user, `copyOverFiles` leaves every file already in A as it is (A is the
head of the merged directory) and makes the local filename set equal to A ∪ B. The view
built after merging B into A equals the view built after merging A into B (the same
`ListDocuments`, `GetDocument` and `GetEntry`, whatever the two sorts do with ties) when a
file name that occurs in both A and B carries the same content in both, and the blobs
determine the view: no two blobs of one entry name have the same modified time and no two
blobs of one document the same created time. -/
theorem C11_merge_set_union (u : Utils) (sort1 sort2 : List Entry → List Entry)
    (hs1 : SortSpec sort1) (hs2 : SortSpec sort2) (sA sB : Fs)
    (hwfA : WellFormed sA) (hwfB : WellFormed sB) :
    sA.localRepo <+: (copyOverFiles sB.localRepo sA).localRepo ∧
    (∀ n, n ∈ (copyOverFiles sB.localRepo sA).localRepo.map Prod.fst ↔
      n ∈ sA.localRepo.map Prod.fst ∨ n ∈ sB.localRepo.map Prod.fst) ∧
    WellFormed (copyOverFiles sB.localRepo sA) ∧
    (sA.parsed = false → sB.parsed = false →
      (∀ f ∈ sA.localRepo, ∀ g ∈ sB.localRepo, f.1 = g.1 → f = g) →
      (∀ f ∈ sA.localRepo ++ sB.localRepo, ∀ g ∈ sA.localRepo ++ sB.localRepo,
        g.2.Entry = f.2.Entry → effDate u g.2 = effDate u f.2 → g = f) →
      (∀ f ∈ sA.localRepo ++ sB.localRepo, ∀ g ∈ sA.localRepo ++ sB.localRepo,
        f.2.Document = g.2.Document →
        u.ParseDate f.2.Timestamp = u.ParseDate g.2.Timestamp → f = g) →
      ListDocuments u sort1 (copyOverFiles sB.localRepo sA) =
          ListDocuments u sort2 (copyOverFiles sA.localRepo sB) ∧
        (∀ d, GetDocument u sort1 (copyOverFiles sB.localRepo sA) d =
          GetDocument u sort2 (copyOverFiles sA.localRepo sB) d) ∧
        ∀ d e, GetEntry u sort1 (copyOverFiles sB.localRepo sA) d e =
          GetEntry u sort2 (copyOverFiles sA.localRepo sB) d e) := by
  refine ⟨?_, ?_, copyOverFiles_wf sB.localRepo sA hwfB hwfA, ?_⟩
  · rw [copyOverFiles_localRepo sB.localRepo sA hwfB]
    exact List.prefix_append _ _
  · intro n
    rw [copyOverFiles_localRepo sB.localRepo sA hwfB, List.map_append, List.mem_append]
    constructor
    · rintro (h | h)
      · exact Or.inl h
      · exact Or.inr ((List.filter_sublist _).map _ |>.subset h)
    · rintro (h | h)
      · exact Or.inl h
      · by_cases hn : n ∈ sA.localRepo.map Prod.fst
        · exact Or.inl hn
        · obtain ⟨f, hf, rfl⟩ := List.mem_map.1 h
          exact Or.inr (List.mem_map.2 ⟨f, List.mem_filter.2 ⟨hf, by simpa using hn⟩, rfl⟩)
  · intro hpA hpB hagree hmod hcre
    have hmemAB := copyOverFiles_mem sB.localRepo sA hwfB hagree
    have hmemBA := copyOverFiles_mem sA.localRepo sB hwfA
      (fun f hf g hg h => (hagree g hg f hf h.symm).symm)
    have hmem : ∀ f, f ∈ (copyOverFiles sB.localRepo sA).localRepo ↔
        f ∈ (copyOverFiles sA.localRepo sB).localRepo := by
      intro f
      rw [hmemAB, hmemBA, or_comm]
    have hU : ∀ f, f ∈ (copyOverFiles sB.localRepo sA).localRepo →
        f ∈ sA.localRepo ++ sB.localRepo := by
      intro f hf
      exact List.mem_append.2 ((hmemAB f).1 hf)
    apply same_reads_of_same_docEntries u sort1 sort2 hs1 hs2 _ _
      (copyOverFiles_wf sB.localRepo sA hwfB hwfA) (coherent_of_not_parsed u sort1 _ hpA)
      (copyOverFiles_wf sA.localRepo sB hwfA hwfB) (coherent_of_not_parsed u sort2 _ hpB)
    intro d
    exact docEntries_eq_of_same_files u sort1 sort2 hs1 hs2 _ _ hmem
      (fun f hf g hg => hmod f (hU f hf) g (hU g hg))
      (fun f hf g hg => hcre f (hU f hf) g (hU g hg)) d

/-- C11, amended: the directory that holds "hello" and the directory of three entries,
which holds the same file, merged in the two orders. -/
theorem C11_merge_set_union_witness :
    (copyOverFiles plainStore.localRepo helloStore).localRepo.map Prod.fst =
      ["hellogreet.json", "milktodo.json", "breadlist.json"] ∧
    (copyOverFiles helloStore.localRepo plainStore).localRepo.map Prod.fst =
      ["hellogreet.json", "milktodo.json", "breadlist.json"] ∧
    ListDocuments exampleUtils insertionSort (copyOverFiles plainStore.localRepo helloStore) =
        ListDocuments exampleUtils insertionSort
          (copyOverFiles helloStore.localRepo plainStore) ∧
      (∀ d, GetDocument exampleUtils insertionSort
          (copyOverFiles plainStore.localRepo helloStore) d =
        GetDocument exampleUtils insertionSort
          (copyOverFiles helloStore.localRepo plainStore) d) ∧
      ∀ d e, GetEntry exampleUtils insertionSort
          (copyOverFiles plainStore.localRepo helloStore) d e =
        GetEntry exampleUtils insertionSort
          (copyOverFiles helloStore.localRepo plainStore) d e :=
  ⟨by decide, by decide,
    (C11_merge_set_union exampleUtils insertionSort insertionSort insertionSort_spec
      insertionSort_spec helloStore plainStore (by decide) (by decide)).2.2.2 rfl rfl
      (by decide) (by decide) (by decide)⟩

/-- C11, as stated, fails: two machines filed the text "hello" under the entry name "greet",
one in "notes" and one in "journal", so both directories hold a file of the same name with
different content. Merging B into A keeps the file of A and the view lists "notes"; merging
A into B keeps the file of B and the view lists "journal". -/
theorem C11_counterexample :
    WellFormed machineA ∧ WellFormed machineB ∧
    ListDocuments exampleUtils insertionSort (copyOverFiles machineB.localRepo machineA) =
      ["notes"] ∧
    ListDocuments exampleUtils insertionSort (copyOverFiles machineA.localRepo machineB) =
      ["journal"] := by
  decide

end ssed
